import Mathlib

/-!
# The JAR-style manifest parser of `apkverifier` (`manifest.go`)

A shallow embedding of `manifestParserContext.readHeader`, `isValidName`, `parse` and
`parseManifest`, of `ValueGetter.Int` of `gcli/v3/builtin/sflag` (namespace `Sflag`) and
of `strictFormatArgs` of `gcli` (namespace `Gcli`), followed by theorems about them.

Conventions of the embedding.

* A Go `[]byte` / `string` is a `List Nat` (`Bytes`), one number per byte.
* A Go `map[string]T` is an association list with pairwise distinct keys kept in the
  order of first insertion (`mapSet` overwrites in place, otherwise appends).
* A call ends in one of four ways (`Outcome`): it returns with a nil error, it returns a
  non-nil error, the Go runtime panics (index or slice bounds out of range), or the
  iteration budget of the embedding runs out.
* The scanner fields `pos` and `consecutiveLineBreaks` of `manifestParserContext` are
  passed explicitly; the field `mark` of the context is never read by the source
  (both functions declare a local `mark`).
-/

namespace Manifest

/-- A byte string: Go `[]byte` or `string`. -/
abbrev Bytes := List Nat

/-- The bytes of an ASCII literal. -/
def ascii (s : String) : Bytes := s.data.map Char.toNat

/-- The non-nil errors `parse` and `readHeader` can return. -/
inductive ManifestError where
  /-- `Invalid header structure '%s'` -/
  | invalidHeaderStructure (name : Bytes)
  /-- `Invalid attribute name in manifest: '%s'` -/
  | invalidAttributeName (name : Bytes)
  /-- `NUL character in manifest` -/
  | nulCharacter
  /-- `Entry is not named` -/
  | entryNotNamed
  /-- `More than one entry with the same name!` -/
  | duplicateEntryName
  deriving DecidableEq

/-- How a call ends. -/
inductive Outcome (α : Type) where
  /-- returned, `err == nil` -/
  | ok (a : α)
  /-- returned a non-nil error -/
  | error (e : ManifestError)
  /-- Go runtime panic: index out of range, or slice bounds out of range -/
  | panic
  /-- the iteration budget of the embedding is exhausted -/
  | timeout
  deriving DecidableEq

/-- Go slice expression `data[lo:hi]`; `none` is the runtime panic
(`lo > hi`, or `hi` beyond the buffer). Go checks `hi` against the capacity; every slice
the parser takes ends at or before the scan position, hence within the length. -/
def slice (data : Bytes) (lo hi : Nat) : Option Bytes :=
  if lo ≤ hi ∧ hi ≤ data.length then some ((data.drop lo).take (hi - lo)) else none

/-- Go index expression `data[i]`; `none` is the runtime panic. -/
def index (data : Bytes) (i : Nat) : Option Nat := data.get? i

/-! ## Maps -/

/-- Go `m[k]` with the comma-ok form: the value stored under `k`, if any. -/
def mapGet {β : Type} : List (Bytes × β) → Bytes → Option β
  | [], _ => none
  | (k', v) :: m, k => if k' = k then some v else mapGet m k

/-- Go `m[k] = v`. -/
def mapSet {β : Type} : List (Bytes × β) → Bytes → β → List (Bytes × β)
  | [], k, v => [(k, v)]
  | (k', v') :: m, k, v => if k' = k then (k, v) :: m else (k', v') :: mapSet m k v

/-- The keys of a map. -/
def mapKeys {β : Type} (m : List (Bytes × β)) : List Bytes := m.map Prod.fst

/-! ## `isValidName` -/

/-- The character test in the loop of `isValidName`. -/
def isValidNameByte (c : Nat) : Bool :=
  (97 ≤ c && c ≤ 122) || (65 ≤ c && c ≤ 90) || c == 95 || c == 45 || (48 ≤ c && c ≤ 57)

/-- The method `isValidName`. -/
def isValidName (name : Bytes) : Bool :=
  if name.length = 0 ∨ name.length > 70 then false
  else name.all isValidNameByte

/-- `strings.ToLower` on one byte of an ASCII string. -/
def toLowerByte (c : Nat) : Nat := if 65 ≤ c ∧ c ≤ 90 then c + 32 else c

/-- `strings.ToLower`; `readHeader` applies it only to a name that passed `isValidName`,
hence to ASCII letters, digits, `-` and `_`. -/
def toLower (s : Bytes) : Bytes := s.map toLowerByte

/-! ## `readHeader` -/

/-- The first loop of `readHeader` (`for ; ctx.pos < len(ctx.data); ctx.pos++`), walking
the bytes `data[pos:]`: the position of the first `':'` and `true`, or the end position
and `false`. -/
def scanName : Bytes → Nat → Nat × Bool
  | [], pos => (pos, false)
  | c :: rest, pos => if c = 58 then (pos, true) else scanName rest (pos + 1)

/-- The local state of the value loop of `readHeader`. -/
structure ValueScan where
  pos : Nat
  mark : Nat
  last : Nat
  lastCr : Bool
  consecutiveLineBreaks : Nat
  value : Bytes
  deriving DecidableEq

/-- The second loop of `readHeader` (`for ctx.pos < len(ctx.data)`), walking the bytes
`data[pos:]`; every iteration reads `data[pos]` and increments `pos`. -/
def scanValue (data : Bytes) : Bytes → ValueScan → Outcome ValueScan
  | [], st => .ok st
  | next :: rest, st =>
    let st := { st with pos := st.pos + 1 }
    if next = 0 then .error .nulCharacter
    else if next = 10 then
      if st.lastCr then scanValue data rest { st with lastCr := false }
      else scanValue data rest
        { st with consecutiveLineBreaks := st.consecutiveLineBreaks + 1 }
    else if next = 13 then
      scanValue data rest
        { st with lastCr := true, consecutiveLineBreaks := st.consecutiveLineBreaks + 1 }
    else if next = 32 ∧ st.consecutiveLineBreaks = 1 then
      match slice data st.mark st.last with
      | none => .panic
      | some s =>
        scanValue data rest
          { st with value := st.value ++ s, mark := st.pos, consecutiveLineBreaks := 0 }
    else if st.consecutiveLineBreaks ≥ 1 then .ok { st with pos := st.pos - 1 }
    else scanValue data rest { st with last := st.pos }

/-- What `readHeader` returns, with the scanner fields it leaves in the context. -/
structure HeaderRead where
  name : Bytes
  value : Bytes
  singleBlock : Bool
  pos : Nat
  consecutiveLineBreaks : Nat
  deriving DecidableEq

/-- The part of `readHeader` from `ctx.consecutiveLineBreaks = 0` (line 163) on. -/
def readValue (data : Bytes) (name : Bytes) (pos : Nat) : Outcome HeaderRead :=
  match scanValue data (data.drop pos) ⟨pos, pos, pos, false, 0, []⟩ with
  | .ok st =>
    if st.last > st.mark then
      match slice data st.mark st.last with
      | none => .panic
      | some s =>
        .ok ⟨name, st.value ++ s, decide (st.consecutiveLineBreaks > 0), st.pos,
          st.consecutiveLineBreaks⟩
    else
      .ok ⟨name, st.value, decide (st.consecutiveLineBreaks > 0), st.pos,
        st.consecutiveLineBreaks⟩
  | .error e => .error e
  | .panic => .panic
  | .timeout => .timeout

/-- The method `readHeader`. -/
def readHeader (data : Bytes) (pos consecutiveLineBreaks : Nat) : Outcome HeaderRead :=
  if consecutiveLineBreaks > 1 then .ok ⟨[], [], false, pos, 0⟩
  else
    match scanName (data.drop pos) pos with
    | (p, true) =>
      match slice data pos p with
      | none => .panic
      | some name =>
        if p + 1 > data.length then .error (.invalidHeaderStructure name)
        else
          match index data (p + 1) with
          | none => .panic
          | some c =>
            if c ≠ 32 then .error (.invalidHeaderStructure name)
            else if !isValidName name then .error (.invalidAttributeName name)
            else readValue data (toLower name) (p + 2)
    | (p, false) => readValue data [] p

/-! ## `parse` -/

/-- The struct `manifest`. -/
structure manifest where
  rawData : Bytes
  main : List (Bytes × Bytes)
  entries : List (Bytes × List (Bytes × Bytes))
  chunks : List (Bytes × Bytes)
  mainAttributtesEnd : Nat
  deriving DecidableEq

/-- The scanner position and the maps a loop of `parse` works on. -/
structure ParseState where
  pos : Nat
  consecutiveLineBreaks : Nat
  man : manifest
  deriving DecidableEq

/-- The first loop of `parse` (lines 77-85): the main block. -/
def mainLoop (data : Bytes) : Nat → ParseState → Outcome ParseState
  | 0, _ => .timeout
  | fuel + 1, s =>
    match readHeader data s.pos s.consecutiveLineBreaks with
    | .ok h =>
      if !h.singleBlock then
        .ok { s with pos := h.pos, consecutiveLineBreaks := h.consecutiveLineBreaks }
      else
        mainLoop data fuel
          { pos := h.pos, consecutiveLineBreaks := h.consecutiveLineBreaks,
            man := { s.man with main := mapSet s.man.main h.name h.value } }
    | .error e => .error e
    | .panic => .panic
    | .timeout => .timeout

/-- The map `entry` of `parse` is a reference to the map stored under `entryNameValue`:
`entry[n] = v` changes `ctx.man.entries[entryNameValue]`. -/
def entrySet (entries : List (Bytes × List (Bytes × Bytes))) (entryNameValue n v : Bytes) :
    List (Bytes × List (Bytes × Bytes)) :=
  mapSet entries entryNameValue (mapSet ((mapGet entries entryNameValue).getD []) n v)

/-- The innermost loop of `parse` (lines 109-117): the attributes of one entry. -/
def attrLoop (data : Bytes) (entryNameValue : Bytes) : Nat → ParseState → Outcome ParseState
  | 0, _ => .timeout
  | fuel + 1, s =>
    match readHeader data s.pos s.consecutiveLineBreaks with
    | .ok h =>
      if !h.singleBlock then
        .ok { s with pos := h.pos, consecutiveLineBreaks := h.consecutiveLineBreaks }
      else
        attrLoop data entryNameValue fuel
          { pos := h.pos, consecutiveLineBreaks := h.consecutiveLineBreaks,
            man := { s.man with entries := entrySet s.man.entries entryNameValue h.name h.value } }
    | .error e => .error e
    | .panic => .panic
    | .timeout => .timeout

/-- The constant `attrName`. -/
def attrName : Bytes := ascii "name"

/-- The second loop of `parse` (lines 90-126), with its local `mark`: the entry blocks. -/
def entryLoop (data : Bytes) (withChunks : Bool) : Nat → Nat → ParseState → Outcome ParseState
  | 0, _, _ => .timeout
  | fuel + 1, mark, s =>
    match readHeader data s.pos s.consecutiveLineBreaks with
    | .ok h =>
      if !h.singleBlock then
        .ok { s with pos := h.pos, consecutiveLineBreaks := h.consecutiveLineBreaks }
      else if h.name ≠ attrName then .error .entryNotNamed
      else
        let entryNameValue := h.value
        let entries :=
          match mapGet s.man.entries entryNameValue with
          | none => mapSet s.man.entries entryNameValue []
          | some _ => s.man.entries
        match attrLoop data entryNameValue (data.length + 1)
            { pos := h.pos, consecutiveLineBreaks := h.consecutiveLineBreaks,
              man := { s.man with entries := entries } } with
        | .ok s1 =>
          if withChunks then
            match mapGet s1.man.chunks entryNameValue with
            | some _ => .error .duplicateEntryName
            | none =>
              match slice data mark s1.pos with
              | none => .panic
              | some chunk =>
                entryLoop data withChunks fuel s1.pos
                  { s1 with man := { s1.man with
                      chunks := mapSet s1.man.chunks entryNameValue chunk } }
          else entryLoop data withChunks fuel mark s1
        | .error e => .error e
        | .panic => .panic
        | .timeout => .timeout
    | .error e => .error e
    | .panic => .panic
    | .timeout => .timeout

/-- The context `parseManifest` builds before it calls `parse`: three empty maps,
`rawData = data`, position 0. -/
def initialState (data : Bytes) : ParseState :=
  { pos := 0, consecutiveLineBreaks := 0,
    man := { rawData := data, main := [], entries := [], chunks := [], mainAttributtesEnd := 0 } }

/-- The method `parse`, run on the context `initialState data`. Every iteration of a loop
that goes on consumes at least one byte, so `len(data) + 1` iterations are a budget no
loop exhausts. -/
def parse (data : Bytes) (withChunks : Bool) : Outcome ParseState :=
  match mainLoop data (data.length + 1) (initialState data) with
  | .ok s =>
    entryLoop data withChunks (data.length + 1) s.pos
      { s with man := { s.man with mainAttributtesEnd := s.pos } }
  | .error e => .error e
  | .panic => .panic
  | .timeout => .timeout

/-! ## Definitions used to state and prove the properties -/

/-- The line break a manifest text is written with: LF, CR LF or CR. -/
inductive LineBreak where
  | lf
  | crlf
  | cr
  deriving DecidableEq

/-- The bytes of a line break. -/
def LineBreak.bytes : LineBreak → Bytes
  | .lf => [10]
  | .crlf => [13, 10]
  | .cr => [13]

/-- The flag `lastCr` of the value loop right after a line break. -/
def LineBreak.lastCr : LineBreak → Bool
  | .cr => true
  | _ => false

/-- A run of `m` line breaks. -/
def lineBreaks (nl : LineBreak) (m : Nat) : Bytes := (List.replicate m nl.bytes).flatten

/-- No NUL, LF or CR byte. -/
def Clean (v : Bytes) : Prop := ∀ c ∈ v, c ≠ 0 ∧ c ≠ 10 ∧ c ≠ 13

instance decidableClean (v : Bytes) : Decidable (Clean v) := by
  unfold Clean; infer_instance

/-- The value loop, having counted `n` line breaks, stops in front of `R`: `R` is empty,
or its first byte is no NUL, no line break and no continuation space. -/
def Stops (n : Nat) : Bytes → Prop
  | [] => True
  | c :: _ => c ≠ 0 ∧ c ≠ 10 ∧ c ≠ 13 ∧ (c = 32 → n ≠ 1)

/-- A value folded over several lines: the parts, each continuation line introduced by
a line break and one space. -/
def foldParts (nl : LineBreak) : List Bytes → Bytes
  | [] => []
  | [p] => p
  | p :: q :: ps => p ++ nl.bytes ++ 32 :: foldParts nl (q :: ps)

/-- Every part but the last is non-empty. -/
def InnerNonempty : List Bytes → Prop
  | [] => True
  | [_] => True
  | p :: q :: ps => p ≠ [] ∧ InnerNonempty (q :: ps)

/-- Deciding `InnerNonempty`. -/
def decInnerNonempty : (ps : List Bytes) → Decidable (InnerNonempty ps)
  | [] => isTrue trivial
  | [_] => isTrue trivial
  | p :: q :: ps =>
    match decInnerNonempty (q :: ps) with
    | isTrue h => if hp : p = [] then isFalse (fun hn => hn.1 hp) else isTrue ⟨hp, h⟩
    | isFalse h => isFalse (fun hn => h hn.2)

instance decidableInnerNonempty (ps : List Bytes) : Decidable (InnerNonempty ps) :=
  decInnerNonempty ps

/-- What the end of `readHeader` (lines 203-205) makes of the loop variables: the value
`result`. -/
def Pending (data : Bytes) (mark last : Nat) (value result : Bytes) : Prop :=
  (last > mark ∧ ∃ s, slice data mark last = some s ∧ value ++ s = result) ∨
  (last ≤ mark ∧ value = result)

/-- The logical view of one header: its name and the parts of its value, the first line
and the continuation lines. -/
structure Header where
  name : Bytes
  parts : List Bytes
  deriving DecidableEq

/-- The value of a header: the parts glued together. -/
def Header.value (h : Header) : Bytes := h.parts.flatten

/-- The text of a header up to, but without, its line break. -/
def Header.text (h : Header) (nl : LineBreak) : Bytes :=
  h.name ++ 58 :: 32 :: foldParts nl h.parts

/-- The line (or folded lines) of a header: `name: value` and a line break. -/
def Header.line (h : Header) (nl : LineBreak) : Bytes := h.text nl ++ nl.bytes

/-- A header the scanner reads back: a valid name, at least one part, parts free of NUL,
LF and CR, and no empty continuation line before the last one. -/
def Header.WF (h : Header) : Prop :=
  isValidName h.name = true ∧ h.parts ≠ [] ∧ (∀ q ∈ h.parts, Clean q) ∧
    InnerNonempty h.parts.tail

instance decidableHeaderWF (h : Header) : Decidable h.WF := by
  unfold Header.WF; infer_instance

/-- The common shape of the first and the innermost loop of `parse`: read headers and
store each with `upd` until `readHeader` reports the end of the block. -/
def headerLoop (data : Bytes) (upd : manifest → Bytes → Bytes → manifest) :
    Nat → ParseState → Outcome ParseState
  | 0, _ => .timeout
  | fuel + 1, s =>
    match readHeader data s.pos s.consecutiveLineBreaks with
    | .ok h =>
      if !h.singleBlock then
        .ok { s with pos := h.pos, consecutiveLineBreaks := h.consecutiveLineBreaks }
      else
        headerLoop data upd fuel
          { pos := h.pos, consecutiveLineBreaks := h.consecutiveLineBreaks,
            man := upd s.man h.name h.value }
    | .error e => .error e
    | .panic => .panic
    | .timeout => .timeout

/-- The update of the first loop: `ctx.man.main[n] = v`. -/
def updMain (man : manifest) (n v : Bytes) : manifest :=
  { man with main := mapSet man.main n v }

/-- The update of the innermost loop: `entry[n] = v`. -/
def updEntry (entryNameValue : Bytes) (man : manifest) (n v : Bytes) : manifest :=
  { man with entries := entrySet man.entries entryNameValue n v }

/-- The lines of a list of headers. -/
def linesOf (nl : LineBreak) (hs : List Header) : Bytes :=
  (hs.map (fun h => h.line nl)).flatten

/-- Storing a list of headers, one after the other. -/
def storeAll (upd : manifest → Bytes → Bytes → manifest) (man : manifest)
    (hs : List Header) : manifest :=
  hs.foldl (fun m h => upd m (toLower h.name) h.value) man

/-- A block of headers followed by its blank line. -/
def blockText (nl : LineBreak) (hs : List Header) : Bytes := linesOf nl hs ++ nl.bytes

/-- Lines 103-107 of `parse`: the map of the entry is created unless it exists. -/
def ensureEntry (entries : List (Bytes × List (Bytes × Bytes))) (name : Bytes) :
    List (Bytes × List (Bytes × Bytes)) :=
  match mapGet entries name with
  | none => mapSet entries name []
  | some _ => entries

/-- The entries after a block named `name` with the attributes `attrs` was read. -/
def storeEntry (entries : List (Bytes × List (Bytes × Bytes))) (name : Bytes)
    (attrs : List Header) : List (Bytes × List (Bytes × Bytes)) :=
  attrs.foldl (fun E h => entrySet E name (toLower h.name) h.value) (ensureEntry entries name)

/-- The map a list of headers leaves in an empty map: later values overwrite. -/
def attrsMap (hs : List Header) : List (Bytes × Bytes) :=
  hs.foldl (fun m h => mapSet m (toLower h.name) h.value) []

/-- The name of an entry block: the value of its first header. -/
def blockName : List Header → Bytes
  | [] => []
  | h :: _ => h.value

/-- An entry block the parser reads back: well-formed headers, the first of them a
`name` header in any letter case. -/
def EntryWF : List Header → Prop
  | [] => False
  | nh :: attrs => nh.WF ∧ toLower nh.name = attrName ∧ ∀ h ∈ attrs, h.WF

instance decidableEntryWF (b : List Header) : Decidable (EntryWF b) := by
  cases b with
  | nil => exact isFalse (fun h => h)
  | cons nh attrs => unfold EntryWF; infer_instance

/-- The text of a list of blocks. -/
def docText (nl : LineBreak) (bs : List (List Header)) : Bytes :=
  (bs.map (blockText nl)).flatten

/-- The map `entries` after a list of entry blocks was read. -/
def entriesAfter (E : List (Bytes × List (Bytes × Bytes))) (bs : List (List Header)) :
    List (Bytes × List (Bytes × Bytes)) :=
  bs.foldl (fun E b => storeEntry E (blockName b) b.tail) E

/-- The map `chunks` after a list of entry blocks with fresh names was read. -/
def chunksAfter (nl : LineBreak) (C : List (Bytes × Bytes)) (bs : List (List Header)) :
    List (Bytes × Bytes) :=
  bs.foldl (fun C b => mapSet C (blockName b) (blockText nl b)) C

/-- The state of `parse` when it has read the main block `main` and the entry blocks `bs`
of the buffer `data`. -/
def stateAfter (nl : LineBreak) (data : Bytes) (wc : Bool) (main : List Header)
    (bs : List (List Header)) : ParseState :=
  ⟨(docText nl (main :: bs)).length, 0,
    ⟨data, attrsMap main, entriesAfter [] bs, if wc then chunksAfter nl [] bs else [],
      (blockText nl main).length⟩⟩

/-- One attribute: `<name>: <value>\n`. -/
def serialiseAttr (a : Bytes × Bytes) : Bytes := a.1 ++ ascii ": " ++ a.2 ++ ascii "\n"

/-- The attributes of a block, one line each. -/
def serialiseAttrs (attrs : List (Bytes × Bytes)) : Bytes := (attrs.map serialiseAttr).flatten

/-- The main block: its attributes and one extra line feed. -/
def serialiseMain (main : List (Bytes × Bytes)) : Bytes := serialiseAttrs main ++ ascii "\n"

/-- An entry block: `Name: <entry>\n`, its attributes and one extra line feed. -/
def serialiseEntry (e : Bytes × List (Bytes × Bytes)) : Bytes :=
  ascii "Name: " ++ e.1 ++ ascii "\n" ++ serialiseAttrs e.2 ++ ascii "\n"

/-- The canonical text of a manifest. -/
def serialise (main : List (Bytes × Bytes)) (entries : List (Bytes × List (Bytes × Bytes))) :
    Bytes :=
  serialiseMain main ++ (entries.map serialiseEntry).flatten

/-- The key and value `parse` stores for an attribute. -/
def lowerAttr (a : Bytes × Bytes) : Bytes × Bytes := (toLower a.1, a.2)

/-- An attribute as an unfolded header. -/
def attrHeader (a : Bytes × Bytes) : Header := ⟨a.1, [a.2]⟩

/-- An entry as a block of unfolded headers. -/
def entryBlock (e : Bytes × List (Bytes × Bytes)) : List Header :=
  ⟨ascii "Name", [e.1]⟩ :: e.2.map attrHeader

/-- The blocks `blocks` (the first of them the main block) and the first headers `hs` of
the block after them are read without an error. -/
def ReadsUpTo (wc : Bool) : List (List Header) → List Header → Prop
  | [], hs => ∀ h ∈ hs, h.WF
  | main :: bs, hs =>
    main ≠ [] ∧ (∀ h ∈ main, h.WF) ∧ (∀ b ∈ bs, EntryWF b) ∧
      (wc = true → (bs.map blockName).Nodup) ∧ (hs = [] ∨ EntryWF hs)

/-- The structure of a manifest text: a non-empty main block of well-formed headers, then
entry blocks that each start with a `name` header. -/
def WFDoc : List (List Header) → Prop
  | [] => False
  | main :: bs => main ≠ [] ∧ (∀ h ∈ main, h.WF) ∧ ∀ b ∈ bs, EntryWF b

/-- A manifest `parse` accepts: well-formed blocks and, when chunks are captured, pairwise
distinct entry names. -/
def WellFormed (wc : Bool) (doc : List (List Header)) : Prop :=
  WFDoc doc ∧ (wc = true → (doc.tail.map blockName).Nodup)

instance decidableWFDoc (doc : List (List Header)) : Decidable (WFDoc doc) := by
  cases doc with
  | nil => exact isFalse (fun h => h)
  | cons main bs => unfold WFDoc; infer_instance

instance decidableWellFormed (wc : Bool) (doc : List (List Header)) :
    Decidable (WellFormed wc doc) := by
  unfold WellFormed; infer_instance

/-- An ASCII letter. -/
def isLetter (c : Nat) : Prop := (65 ≤ c ∧ c ≤ 90) ∨ (97 ≤ c ∧ c ≤ 122)

/-- An ASCII digit. -/
def isDigit (c : Nat) : Prop := 48 ≤ c ∧ c ≤ 57

/-- An update of the maps that leaves `chunks`, `mainAttributtesEnd` and `rawData` alone. -/
def KeepsChunks (upd : manifest → Bytes → Bytes → manifest) : Prop :=
  ∀ man n v, (upd man n v).chunks = man.chunks ∧
    (upd man n v).mainAttributtesEnd = man.mainAttributtesEnd ∧
    (upd man n v).rawData = man.rawData

/-- The chunks `cs` are consecutive slices of `data`, the first starting at `start`, the
last ending at `p`. -/
def ChunksAt (data : Bytes) : Nat → List Bytes → Nat → Prop
  | start, [], p => p = start
  | start, c :: cs, p =>
    slice data start (start + c.length) = some c ∧ ChunksAt data (start + c.length) cs p

/-- A validated, lower-cased attribute name. -/
def LowerName (k : Bytes) : Prop := isValidName k = true ∧ ∀ c ∈ k, ¬ (65 ≤ c ∧ c ≤ 90)

instance decidableLowerName (k : Bytes) : Decidable (LowerName k) := by
  unfold LowerName; infer_instance

/-- Every key of `main` and every key of every entry's attribute map is a validated,
lower-cased name. -/
def KeysLower (man : manifest) : Prop :=
  (∀ k ∈ mapKeys man.main, LowerName k) ∧
  ∀ e ∈ man.entries, ∀ k ∈ mapKeys e.2, LowerName k

/-- The invariant of `chunks`: with chunk capture its keys are the keys of `entries`, in
the same order; without chunk capture it is empty. -/
def ChunkKeys (wc : Bool) (man : manifest) : Prop :=
  (wc = true → mapKeys man.chunks = mapKeys man.entries) ∧ (wc = false → man.chunks = [])

/-- The buffer without its final line break. -/
def dropFinalBreak (nl : LineBreak) (data : Bytes) : Bytes :=
  data.take (data.length - nl.bytes.length)

/-! ## `parseManifest` -/

/-- An error of the archive reader. -/
abbrev IOError := Bytes

/-- Modelled from the spec: the archive entry `*apkparser.ZipReaderFile`, a type of the
package `apkparser`, which is not among the sources. It is an ordered list of candidate
buffers sharing one file name: its `Name`, the result of `Open()`, and the candidates that
`Next()` steps through, each with the result of `ioutil.ReadAll`. -/
structure ZipReaderFile where
  Name : Bytes
  openErr : Option IOError
  candidates : List (Except IOError Bytes)

/-- The non-nil errors `parseManifest` can return. -/
inductive OpenError where
  /-- an error of `f.Open()` or of `ioutil.ReadAll(f)` -/
  | io (e : IOError)
  /-- an error of `ctx.parse` -/
  | parse (e : ManifestError)
  /-- `Failed to open %s` -/
  | failedToOpen (name : Bytes)
  deriving DecidableEq

/-- How a call of `parseManifest` ends. -/
inductive ManifestOutcome where
  /-- returned `ctx.man, nil` -/
  | ok (man : manifest)
  /-- returned `nil, err` -/
  | error (e : OpenError)
  /-- a runtime panic of `parse`, which `parseManifest` does not recover -/
  | panic
  /-- the iteration budget of `parse` is exhausted -/
  | timeout
  deriving DecidableEq

/-- The loop `for f.Next()` of `parseManifest` with the variable `err` declared in front
of it, and the statements behind the loop. -/
def candidateLoop (name : Bytes) (withChunks : Bool) :
    List (Except IOError Bytes) → Option OpenError → ManifestOutcome
  | [], none => .error (.failedToOpen name)
  | [], some err => .error err
  | .error e :: rest, _ => candidateLoop name withChunks rest (some (.io e))
  | .ok data :: rest, _ =>
    match Manifest.parse data withChunks with
    | .ok s => .ok s.man
    | .error e => candidateLoop name withChunks rest (some (.parse e))
    | .panic => .panic
    | .timeout => .timeout

/-- The function `parseManifest`. -/
def parseManifest (f : ZipReaderFile) (withChunks : Bool) : ManifestOutcome :=
  match f.openErr with
  | some e => .error (.io e)
  | none => candidateLoop f.Name withChunks f.candidates none

/-- The error a candidate leaves in `err`, if it fails with one. -/
def candidateError (withChunks : Bool) : Except IOError Bytes → Option OpenError
  | .error e => some (.io e)
  | .ok data =>
    match Manifest.parse data withChunks with
    | .error e => some (.parse e)
    | _ => none

/-- The error behind the loop: the one of the last candidate, or `Failed to open`. -/
def lastError (name : Bytes) (withChunks : Bool) (cs : List (Except IOError Bytes))
    (err : Option OpenError) : OpenError :=
  match cs.getLast? with
  | some c => (candidateError withChunks c).getD (.failedToOpen name)
  | none => err.getD (.failedToOpen name)

/-! ## Counting the `readHeader` calls and the stored header records -/

/-- The `readHeader` calls made and the header records stored so far. -/
structure Tally where
  calls : Nat
  stored : Nat
  deriving DecidableEq

/-- The loop `headerLoop` (the first and the innermost loop of `parse`) with a tally: every
iteration calls `readHeader` once, and an iteration that goes on stores one record. -/
def headerLoopT (data : Bytes) (upd : manifest → Bytes → Bytes → manifest) :
    Nat → ParseState → Tally → Tally × Outcome ParseState
  | 0, _, t => (t, .timeout)
  | fuel + 1, s, t =>
    match readHeader data s.pos s.consecutiveLineBreaks with
    | .ok h =>
      if !h.singleBlock then
        (⟨t.calls + 1, t.stored⟩,
          .ok { s with pos := h.pos, consecutiveLineBreaks := h.consecutiveLineBreaks })
      else
        headerLoopT data upd fuel
          { pos := h.pos, consecutiveLineBreaks := h.consecutiveLineBreaks,
            man := upd s.man h.name h.value }
          ⟨t.calls + 1, t.stored + 1⟩
    | .error e => (⟨t.calls + 1, t.stored⟩, .error e)
    | .panic => (⟨t.calls + 1, t.stored⟩, .panic)
    | .timeout => (⟨t.calls + 1, t.stored⟩, .timeout)

/-- The loop `entryLoop` with a tally: the `name` header of a block counts as a stored
record, the innermost loop adds its own calls and records. -/
def entryLoopT (data : Bytes) (withChunks : Bool) :
    Nat → Nat → ParseState → Tally → Tally × Outcome ParseState
  | 0, _, _, t => (t, .timeout)
  | fuel + 1, mark, s, t =>
    match readHeader data s.pos s.consecutiveLineBreaks with
    | .ok h =>
      if !h.singleBlock then
        (⟨t.calls + 1, t.stored⟩,
          .ok { s with pos := h.pos, consecutiveLineBreaks := h.consecutiveLineBreaks })
      else if h.name ≠ attrName then (⟨t.calls + 1, t.stored⟩, .error .entryNotNamed)
      else
        let entryNameValue := h.value
        match headerLoopT data (updEntry entryNameValue) (data.length + 1)
            { pos := h.pos, consecutiveLineBreaks := h.consecutiveLineBreaks,
              man := { s.man with entries := ensureEntry s.man.entries entryNameValue } }
            ⟨t.calls + 1, t.stored + 1⟩ with
        | (t1, .ok s1) =>
          if withChunks then
            match mapGet s1.man.chunks entryNameValue with
            | some _ => (t1, .error .duplicateEntryName)
            | none =>
              match slice data mark s1.pos with
              | none => (t1, .panic)
              | some chunk =>
                entryLoopT data withChunks fuel s1.pos
                  { s1 with man := { s1.man with
                      chunks := mapSet s1.man.chunks entryNameValue chunk } } t1
          else entryLoopT data withChunks fuel mark s1 t1
        | (t1, .error e) => (t1, .error e)
        | (t1, .panic) => (t1, .panic)
        | (t1, .timeout) => (t1, .timeout)
    | .error e => (⟨t.calls + 1, t.stored⟩, .error e)
    | .panic => (⟨t.calls + 1, t.stored⟩, .panic)
    | .timeout => (⟨t.calls + 1, t.stored⟩, .timeout)

/-- The method `parse` with a tally of its three loops. -/
def parseT (data : Bytes) (withChunks : Bool) : Tally × Outcome ParseState :=
  match headerLoopT data updMain (data.length + 1) (initialState data) ⟨0, 0⟩ with
  | (t, .ok s) =>
    entryLoopT data withChunks (data.length + 1) s.pos
      { s with man := { s.man with mainAttributtesEnd := s.pos } } t
  | (t, .error e) => (t, .error e)
  | (t, .panic) => (t, .panic)
  | (t, .timeout) => (t, .timeout)

/-- The scan position a loop ends at: `pos` of the state it returns, the end of the buffer
as a bound when it does not return a state. -/
def endPos (data : Bytes) : Outcome ParseState → Nat
  | .ok s => s.pos
  | _ => data.length

/-! ## Reading without positions, and a buffer written with another line break -/

/-- The buffer with every line feed written as the line break `nl`. -/
def expand (nl : LineBreak) : Bytes → Bytes
  | [] => []
  | c :: rest => (if c = 10 then nl.bytes else [c]) ++ expand nl rest

/-- No CR byte. -/
def CRFree (data : Bytes) : Prop := ∀ c ∈ data, c ≠ 13

instance decidableCRFree (data : Bytes) : Decidable (CRFree data) := by
  unfold CRFree; infer_instance

/-- The first loop of `readHeader` on the unread bytes: the bytes in front of the first
`':'` and the bytes behind it, if there is one. -/
def splitName : Bytes → Bytes × Option Bytes
  | [] => ([], none)
  | c :: rest =>
    if c = 58 then ([], some rest)
    else ((c :: (splitName rest).1), (splitName rest).2)

/-- The state of the value loop without positions: `part` is `data[mark:last]` (`none`
when `last < mark`, where the slice expression panics), `pend` the bytes read since
(`data[last:pos]`, or `data[mark:pos]` when `last < mark`). -/
structure FreeScan where
  value : Bytes
  part : Option Bytes
  pend : Bytes
  lastCr : Bool
  consecutiveLineBreaks : Nat
  deriving DecidableEq

/-- The second loop of `readHeader` on the unread bytes; it returns the final state and the
bytes left unread. -/
def scanValueF : Bytes → FreeScan → Outcome (FreeScan × Bytes)
  | [], st => .ok (st, [])
  | next :: rest, st =>
    if next = 0 then .error .nulCharacter
    else if next = 10 then
      if st.lastCr then scanValueF rest { st with lastCr := false, pend := st.pend ++ [next] }
      else scanValueF rest
        { st with consecutiveLineBreaks := st.consecutiveLineBreaks + 1,
                  pend := st.pend ++ [next] }
    else if next = 13 then
      scanValueF rest
        { st with lastCr := true, consecutiveLineBreaks := st.consecutiveLineBreaks + 1,
                  pend := st.pend ++ [next] }
    else if next = 32 ∧ st.consecutiveLineBreaks = 1 then
      match st.part with
      | none => .panic
      | some s =>
        scanValueF rest
          { st with value := st.value ++ s, part := none, pend := [],
                    consecutiveLineBreaks := 0 }
    else if st.consecutiveLineBreaks ≥ 1 then .ok (st, next :: rest)
    else scanValueF rest { st with part := some (st.part.getD [] ++ st.pend ++ [next]), pend := [] }

/-- What `readHeader` returns, with the unread bytes in place of the position. -/
structure FreeRead where
  name : Bytes
  value : Bytes
  singleBlock : Bool
  rest : Bytes
  consecutiveLineBreaks : Nat
  deriving DecidableEq

/-- The function `readValue` on the unread bytes. -/
def readValueF (name rest : Bytes) : Outcome FreeRead :=
  match scanValueF rest ⟨[], some [], [], false, 0⟩ with
  | .ok (st, rest') =>
    .ok ⟨name, st.value ++ st.part.getD [], decide (st.consecutiveLineBreaks > 0), rest',
      st.consecutiveLineBreaks⟩
  | .error e => .error e
  | .panic => .panic
  | .timeout => .timeout

/-- The method `readHeader` on the unread bytes. -/
def readHeaderF (rest : Bytes) (consecutiveLineBreaks : Nat) : Outcome FreeRead :=
  if consecutiveLineBreaks > 1 then .ok ⟨[], [], false, rest, 0⟩
  else
    match splitName rest with
    | (_, some []) => .panic
    | (name, some (c :: after)) =>
      if c ≠ 32 then .error (.invalidHeaderStructure name)
      else if !isValidName name then .error (.invalidAttributeName name)
      else readValueF (toLower name) after
    | (_, none) => readValueF [] []

/-- The result of `readHeader` on the buffer `data` that belongs to a result on the unread
bytes. -/
def FreeRead.toHeaderRead (data : Bytes) (f : FreeRead) : HeaderRead :=
  ⟨f.name, f.value, f.singleBlock, data.length - f.rest.length, f.consecutiveLineBreaks⟩

/-- The outcome with the result mapped. -/
def Outcome.map {α β : Type} (f : α → β) : Outcome α → Outcome β
  | .ok a => .ok (f a)
  | .error e => .error e
  | .panic => .panic
  | .timeout => .timeout

/-- The loop variables of `scanValue` on `data`, in front of the unread bytes `rest`, are
those of `scanValueF`. -/
def ScanAt (data rest : Bytes) (st : ValueScan) (fs : FreeScan) : Prop :=
  st.pos + rest.length = data.length ∧ data.drop st.pos = rest ∧
  st.value = fs.value ∧ st.lastCr = fs.lastCr ∧
  st.consecutiveLineBreaks = fs.consecutiveLineBreaks ∧
  match fs.part with
  | some P => slice data st.mark st.last = some P ∧ slice data st.last st.pos = some fs.pend
  | none => st.last < st.mark ∧ slice data st.mark st.pos = some fs.pend

/-- Two calls end alike: both return, with results related by `R`, or neither returns. -/
def OutcomeRel {α β : Type} (R : α → β → Prop) : Outcome α → Outcome β → Prop
  | .ok a, .ok b => R a b
  | .ok _, .error _ => False
  | .ok _, .panic => False
  | .ok _, .timeout => False
  | .error _, .ok _ => False
  | .panic, .ok _ => False
  | .timeout, .ok _ => False
  | _, _ => True

/-- The states of the value loop on a buffer without CR and on the buffer written with the
line break `nl` correspond. -/
def SimScan (nl : LineBreak) (fs fs' : FreeScan) : Prop :=
  fs'.value = fs.value ∧ fs'.part = fs.part ∧
  fs'.consecutiveLineBreaks = fs.consecutiveLineBreaks ∧ fs.lastCr = false ∧
  (nl ≠ .cr → fs'.lastCr = false) ∧
  (fs.consecutiveLineBreaks = 0 → fs.pend = [] ∧ fs'.pend = [])

/-- The results of `readHeader` correspond. -/
def SimRead (nl : LineBreak) (f f' : FreeRead) : Prop :=
  f'.name = f.name ∧ f'.value = f.value ∧ f'.singleBlock = f.singleBlock ∧
  f'.consecutiveLineBreaks = f.consecutiveLineBreaks ∧ f'.rest = expand nl f.rest

/-- The position `p'` of the rewritten buffer `data'` corresponds to the position `p` of
`data`: the unread bytes of `data'` are the unread bytes of `data`, rewritten. -/
def PosRel (nl : LineBreak) (data data' : Bytes) (p p' : Nat) : Prop :=
  p ≤ data.length ∧ p' ≤ data'.length ∧ data'.drop p' = expand nl (data.drop p)

/-- The results of `readHeader` on `data` and on the rewritten buffer correspond. -/
def SimHeader (nl : LineBreak) (data data' : Bytes) (h h' : HeaderRead) : Prop :=
  h'.name = h.name ∧ h'.value = h.value ∧ h'.singleBlock = h.singleBlock ∧
  h'.consecutiveLineBreaks = h.consecutiveLineBreaks ∧ PosRel nl data data' h.pos h'.pos

/-- The maps correspond: the same `main`, the same `entries`, chunks for the same names. -/
def ManRel (m m' : manifest) : Prop :=
  m'.main = m.main ∧ m'.entries = m.entries ∧ mapKeys m'.chunks = mapKeys m.chunks

/-- The states of `parse` on `data` and on the rewritten buffer correspond. -/
def StateRel (nl : LineBreak) (data data' : Bytes) (s s' : ParseState) : Prop :=
  PosRel nl data data' s.pos s'.pos ∧
  s'.consecutiveLineBreaks = s.consecutiveLineBreaks ∧ ManRel s.man s'.man

instance decidableStops (n : Nat) (R : Bytes) : Decidable (Stops n R) := by
  cases R with
  | nil => exact isTrue trivial
  | cons c _ => unfold Stops; infer_instance

end Manifest

namespace Sflag

/-! ## `ValueGetter.Int` of `gcli/v3/builtin/sflag` (`value_getter.go`) -/

/-- A byte string: Go `string`. -/
abbrev Bytes := List Nat

/-- What the field `Value interface{}` of `ValueGetter` holds: nil, a `string`, a
`[]string`, or a value of another type. -/
inductive GoValue where
  | nil
  | str (s : Bytes)
  | strs (ss : List Bytes)
  | other
  deriving DecidableEq

/-- The struct `ValueGetter`. -/
structure ValueGetter where
  Value : GoValue
  Arrayed : Bool
  deriving DecidableEq

/-- The error of `strconv.Atoi`. -/
inductive NumError where
  /-- `strconv.ErrSyntax` -/
  | errSyntax
  /-- `strconv.ErrRange` -/
  | errRange
  deriving DecidableEq

/-- The decimal number written by a non-empty string of ASCII digits. -/
def digitsValue : Bytes → Option Nat
  | [] => none
  | ds => if ds.all (fun c => 48 ≤ c && c ≤ 57) then
      some (ds.foldl (fun n c => 10 * n + (c - 48)) 0) else none

/-- Modelled from the spec: `strconv.Atoi` of the Go standard library, which is not among
the sources. An optional sign and at least one decimal digit denote an integer; a
malformed string gives 0 and `ErrSyntax`; a value outside the 64-bit `int` gives the nearest
bound and `ErrRange`. -/
def Atoi (s : Bytes) : ℤ × Option NumError :=
  match s with
  | [] => (0, some .errSyntax)
  | c :: rest =>
    let neg := decide (c = 45)
    let ds := if c = 43 ∨ c = 45 then rest else s
    match digitsValue ds with
    | none => (0, some .errSyntax)
    | some n =>
      if neg then
        if n > 2 ^ 63 then (-(2 ^ 63), some .errRange) else (-(n : ℤ), none)
      else
        if n ≥ 2 ^ 63 then (2 ^ 63 - 1, some .errRange) else ((n : ℤ), none)

/-- The method `ValueGetter.Int`, with `strconv.Atoi` as the parameter `atoi`; `defVal`
is the variadic argument. -/
def ValueGetter.Int (atoi : Bytes → ℤ × Option NumError) (v : ValueGetter)
    (defVal : List ℤ) : ℤ :=
  let dflt : ℤ := match defVal with
    | [d] => d
    | _ => 0
  if v.Value = .nil ∨ v.Arrayed = true then dflt
  else
    match v.Value with
    | .str s =>
      match atoi s with
      | (val, some _) => val
      | (_, none) => dflt
    | _ => dflt

end Sflag

namespace Gcli

/-! ## `strictFormatArgs` of `gcli` (`helper.go`) -/

/-- A byte string: Go `string`. -/
abbrev Bytes := List Nat

/-- Whether the string `s` begins with the string `sub`. -/
def startsWith : Bytes → Bytes → Bool
  | [], _ => true
  | _ :: _, [] => false
  | a :: sub, b :: s => a == b && startsWith sub s

/-- The search of `strings.Index` in the rest `s` of the string, which begins at index
`i`. -/
def indexFrom (sub : Bytes) : Bytes → Nat → Int
  | [], i => if sub = [] then (i : Int) else -1
  | c :: s, i => if startsWith sub (c :: s) then (i : Int) else indexFrom sub s (i + 1)

/-- Modelled from the spec: `strings.Index(s, substr)` of the Go standard library, which is
not among the sources: the index of the first instance of `substr` in `s`, or -1 if
`substr` is not present in `s`. -/
def Index (s sub : Bytes) : Int := indexFrom sub s 0

/-- Modelled from the spec: `strings.Trim(s, cutset)` of the Go standard library, for a
cutset of ASCII characters: `s` without its leading and trailing bytes that are in the
cutset. -/
def Trim (s cutset : Bytes) : Bytes :=
  ((s.dropWhile (fun c => cutset.contains c)).reverse.dropWhile
    (fun c => cutset.contains c)).reverse

/-- The conversion `string(b)` of a byte `b`: Go converts an integer to the UTF-8 encoding
of the code point with that number, one byte below 128 and two bytes from 128 on. -/
def byteString (b : Nat) : Bytes :=
  if b < 128 then [b] else [192 + b / 64, 128 + b % 64]

/-- Modelled from the spec: `strings.Split(s, "")` of the Go standard library on an ASCII
string: one string per character, which for ASCII is one string per byte. -/
def explodeAscii (s : Bytes) : List Bytes := s.map (fun c => [c])

/-- The loop `for _, arg := range args` of `strictFormatArgs`, with the slice `fmtdArgs`
built so far. The parameter `explode` is `strings.Split(s, "")`, the characters of `s`;
`arg[2]` is read only where `l == 3`, within the string. -/
def formatLoop (explode : Bytes → List Bytes) : List Bytes → List Bytes → List Bytes
  | [], fmtdArgs => fmtdArgs
  | arg :: rest, fmtdArgs =>
    let l := arg.length
    if Index arg (Manifest.ascii "--") = 0 then
      if l = 3 then formatLoop explode rest (fmtdArgs ++ [45 :: byteString (arg.getD 2 0)])
      else formatLoop explode rest (fmtdArgs ++ [arg])
    else if Index arg (Manifest.ascii "-") = 0 then
      if l > 2 then
        formatLoop explode rest
          ((explode (Trim arg (Manifest.ascii "-"))).foldl
            (fun fmtd s => fmtd ++ [45 :: s]) fmtdArgs)
      else formatLoop explode rest (fmtdArgs ++ [arg])
    else formatLoop explode rest (fmtdArgs ++ [arg])

/-- The function `strictFormatArgs`. -/
def strictFormatArgs (explode : Bytes → List Bytes) (args : List Bytes) : List Bytes :=
  if args.length = 0 then args else formatLoop explode args []

/-- The rewriting of one argument in the words of the specification: an argument of
exactly three bytes that starts with `"--"` becomes `"-"` and the character of its third
byte; an argument that starts with a single `'-'` (not `"--"`) and is longer than two bytes
becomes one argument `"-c"` per character `c` of the argument with its leading and trailing
`'-'` trimmed; every other argument is kept. -/
def rewriteArg (explode : Bytes → List Bytes) (arg : Bytes) : List Bytes :=
  if arg.length = 3 ∧ arg.take 2 = [45, 45] then [45 :: byteString (arg.getD 2 0)]
  else if arg.head? = some 45 ∧ arg.take 2 ≠ [45, 45] ∧ arg.length > 2 then
    (explode (Trim arg [45])).map (fun c => 45 :: c)
  else [arg]

end Gcli

namespace Manifest

/-! # Theorems -/

/-! ## Slices and indices of a concatenation -/

theorem slice_mid (A X B : Bytes) :
    slice (A ++ X ++ B) A.length (A.length + X.length) = some X := by
  unfold slice
  have h1 : A.length ≤ A.length + X.length ∧
      A.length + X.length ≤ (A ++ X ++ B).length := by
    simp only [List.length_append]; omega
  rw [if_pos h1, List.append_assoc, List.drop_left]
  simp

theorem slice_self (data : Bytes) (n : Nat) (h : n ≤ data.length) :
    slice data n n = some [] := by
  unfold slice
  rw [if_pos ⟨le_refl n, h⟩]
  simp

theorem index_mid (A B : Bytes) (c : Nat) : index (A ++ c :: B) A.length = some c := by
  unfold index
  rw [List.get?_eq_getElem?, List.getElem?_append_right (le_refl _)]
  simp

/-! ## The name loop -/

theorem scanName_found (s rest : Bytes) (pos : Nat) (h : ∀ c ∈ s, c ≠ 58) :
    scanName (s ++ 58 :: rest) pos = (pos + s.length, true) := by
  induction s generalizing pos with
  | nil => simp [scanName]
  | cons c s ih =>
    have hc : c ≠ 58 := h c (List.mem_cons_self _ _)
    have hs : ∀ d ∈ s, d ≠ 58 := fun d hd => h d (List.mem_cons_of_mem _ hd)
    show scanName (c :: (s ++ 58 :: rest)) pos = _
    rw [scanName, if_neg hc, ih (pos + 1) hs, List.length_cons]
    rw [show pos + 1 + s.length = pos + (s.length + 1) by omega]

theorem scanName_absent (s : Bytes) (pos : Nat) (h : ∀ c ∈ s, c ≠ 58) :
    scanName s pos = (pos + s.length, false) := by
  induction s generalizing pos with
  | nil => simp [scanName]
  | cons c s ih =>
    have hc : c ≠ 58 := h c (List.mem_cons_self _ _)
    have hs : ∀ d ∈ s, d ≠ 58 := fun d hd => h d (List.mem_cons_of_mem _ hd)
    rw [scanName, if_neg hc, ih (pos + 1) hs, List.length_cons]
    rw [show pos + 1 + s.length = pos + (s.length + 1) by omega]

theorem isValidNameByte_ne_colon (c : Nat) (h : isValidNameByte c = true) : c ≠ 58 := by
  intro hc
  subst hc
  revert h
  decide

theorem isValidName_all (name : Bytes) (h : isValidName name = true) :
    ∀ c ∈ name, isValidNameByte c = true := by
  unfold isValidName at h
  split at h
  · exact absurd h (by simp)
  · exact List.all_eq_true.mp h

theorem isValidName_no_colon (name : Bytes) (h : isValidName name = true) :
    ∀ c ∈ name, c ≠ 58 :=
  fun c hc => isValidNameByte_ne_colon c (isValidName_all name h c hc)

/-! ## The value loop on plain bytes, on line feeds and on a folded value -/

theorem scanValue_plain (data v rest : Bytes) (hv : Clean v) (pos mark last : Nat)
    (lastCr : Bool) (value : Bytes) :
    scanValue data (v ++ rest) ⟨pos, mark, last, lastCr, 0, value⟩ =
      scanValue data rest
        ⟨pos + v.length, mark, if v = [] then last else pos + v.length, lastCr, 0, value⟩ := by
  induction v generalizing pos last with
  | nil => simp
  | cons c v ih =>
    obtain ⟨h0, h10, h13⟩ := hv c (List.mem_cons_self _ _)
    have hv' : Clean v := fun d hd => hv d (List.mem_cons_of_mem _ hd)
    show scanValue data (c :: (v ++ rest)) _ = _
    rw [scanValue]
    simp only [if_neg h0, if_neg h10, if_neg h13]
    rw [if_neg (by simp), if_neg (by simp), ih hv']
    congr 1
    simp only [List.length_cons, ValueScan.mk.injEq, true_and, and_true]
    refine ⟨by omega, ?_⟩
    rw [if_neg (List.cons_ne_nil c v)]
    split
    · next h => subst h; simp
    · omega

@[simp] theorem lineBreaks_zero (nl : LineBreak) : lineBreaks nl 0 = [] := rfl

theorem lineBreaks_succ (nl : LineBreak) (m : Nat) :
    lineBreaks nl (m + 1) = nl.bytes ++ lineBreaks nl m := by
  simp [lineBreaks, List.replicate_succ]

@[simp] theorem lineBreaks_one (nl : LineBreak) : lineBreaks nl 1 = nl.bytes := by
  simp [lineBreaks]

@[simp] theorem lineBreaks_two (nl : LineBreak) : lineBreaks nl 2 = nl.bytes ++ nl.bytes := by
  simp [lineBreaks, List.replicate]

theorem lineBreaks_length (nl : LineBreak) (m : Nat) :
    (lineBreaks nl m).length = m * nl.bytes.length := by
  induction m with
  | zero => simp
  | succ m ih => rw [lineBreaks_succ, List.length_append, ih]; ring

theorem bytes_length_pos (nl : LineBreak) : 1 ≤ nl.bytes.length := by
  cases nl <;> simp [LineBreak.bytes]

/-- One line break in the value loop: the count goes up by one. The flag `lastCr` may be
set on entry only in a text written with CR. -/
theorem scanValue_break (data : Bytes) (nl : LineBreak) (rest : Bytes)
    (pos mark last : Nat) (lc : Bool) (n : Nat) (value : Bytes)
    (hlc : lc = true → nl = .cr) :
    scanValue data (nl.bytes ++ rest) ⟨pos, mark, last, lc, n, value⟩ =
      scanValue data rest ⟨pos + nl.bytes.length, mark, last, nl.lastCr, n + 1, value⟩ := by
  cases nl with
  | lf =>
    have hl : lc = false := by
      cases lc with
      | false => rfl
      | true => exact absurd (hlc rfl) (by decide)
    subst hl
    show scanValue data (10 :: rest) _ = _
    rw [scanValue]
    simp [LineBreak.bytes, LineBreak.lastCr]
  | crlf =>
    show scanValue data (13 :: 10 :: rest) _ = _
    rw [scanValue]
    simp only [if_neg (show (13 : Nat) ≠ 0 by decide), if_neg (show (13 : Nat) ≠ 10 by decide),
      if_pos]
    rw [scanValue]
    simp [LineBreak.bytes, LineBreak.lastCr]
  | cr =>
    show scanValue data (13 :: rest) _ = _
    rw [scanValue]
    simp [LineBreak.bytes, LineBreak.lastCr]

theorem lastCr_ok (nl : LineBreak) : nl.lastCr = true → nl = .cr := by
  cases nl <;> simp [LineBreak.lastCr]

theorem scanValue_breaks (data : Bytes) (nl : LineBreak) (m : Nat) (R : Bytes)
    (pos mark last : Nat) (lc : Bool) (n : Nat) (value : Bytes)
    (hlc : lc = true → nl = .cr) (hm : 1 ≤ n + m) (hR : Stops (n + m) R) :
    ∃ lc', scanValue data (lineBreaks nl m ++ R) ⟨pos, mark, last, lc, n, value⟩ =
      .ok ⟨pos + (lineBreaks nl m).length, mark, last, lc', n + m, value⟩ := by
  induction m generalizing pos lc n with
  | zero =>
    refine ⟨lc, ?_⟩
    cases R with
    | nil => simp [scanValue]
    | cons c R =>
      obtain ⟨h0, h10, h13, h32⟩ := hR
      simp only [lineBreaks_zero, List.nil_append]
      rw [scanValue]
      simp only [if_neg h0, if_neg h10, if_neg h13]
      have hn : n ≥ 1 := by omega
      rw [if_neg (by intro h; exact h32 h.1 h.2), if_pos hn]
      simp
  | succ m ih =>
    obtain ⟨lc', hlc'⟩ := ih (pos + nl.bytes.length) nl.lastCr (n + 1) (lastCr_ok nl) (by omega)
      (by rwa [show n + 1 + m = n + (m + 1) by omega])
    refine ⟨lc', ?_⟩
    rw [lineBreaks_succ, List.append_assoc, scanValue_break data nl _ _ _ _ _ _ _ hlc, hlc']
    simp only [List.length_append]
    rw [show pos + nl.bytes.length + (lineBreaks nl m).length =
      pos + (nl.bytes.length + (lineBreaks nl m).length) by omega,
      show n + 1 + m = n + (m + 1) by omega]

theorem scanValue_folded (data : Bytes) (nl : LineBreak) (ps : List Bytes) :
    ∀ (p A B : Bytes) (last : Nat) (lc : Bool) (value : Bytes),
      data = A ++ foldParts nl (p :: ps) ++ B →
      (∀ q ∈ p :: ps, Clean q) →
      last ≤ A.length →
      (lc = true → nl = .cr) →
      (InnerNonempty (p :: ps) ∨ (last = A.length ∧ InnerNonempty ps)) →
      ∃ mark' last' value' lc',
        scanValue data (foldParts nl (p :: ps) ++ B) ⟨A.length, A.length, last, lc, 0, value⟩ =
          scanValue data B
            ⟨A.length + (foldParts nl (p :: ps)).length, mark', last', lc', 0, value'⟩ ∧
        (lc' = true → nl = .cr) ∧
        Pending data mark' last' value' (value ++ (p :: ps).flatten) := by
  induction ps with
  | nil =>
    intro p A B last lc value hdata hclean hlast hlc _
    refine ⟨A.length, if p = [] then last else A.length + p.length, value, lc, ?_, hlc, ?_⟩
    · exact scanValue_plain data p B (hclean p (List.mem_cons_self _ _)) _ _ _ _ _
    · by_cases hp : p = []
      · right
        subst hp
        simpa using hlast
      · left
        have hlen : 0 < p.length := List.length_pos.mpr hp
        rw [if_neg hp]
        refine ⟨by omega, p, ?_, by simp⟩
        rw [hdata]
        exact slice_mid A p B
  | cons q ps ih =>
    intro p A B last lc value hdata hclean hlast hlc hok
    have hp : Clean p := hclean p (List.mem_cons_self _ _)
    have hclean' : ∀ r ∈ q :: ps, Clean r := fun r hr => hclean r (List.mem_cons_of_mem _ hr)
    have hinner : InnerNonempty (q :: ps) := by
      rcases hok with h | h
      · exact h.2
      · exact h.2
    have hfold : foldParts nl (p :: q :: ps) = p ++ nl.bytes ++ 32 :: foldParts nl (q :: ps) :=
      rfl
    -- the slice taken at the continuation space
    have hslice : slice data A.length (if p = [] then last else A.length + p.length) =
        some p := by
      by_cases hpe : p = []
      · have hl : last = A.length := by
          rcases hok with h | h
          · exact absurd hpe h.1
          · exact h.1
        subst hpe
        rw [if_pos rfl, hl]
        apply slice_self
        rw [hdata]
        simp
      · rw [if_neg hpe, hdata, hfold]
        have := slice_mid A p (nl.bytes ++ 32 :: foldParts nl (q :: ps) ++ B)
        simpa using this
    have hdata' : data = (A ++ p ++ nl.bytes ++ [32]) ++ foldParts nl (q :: ps) ++ B := by
      rw [hdata, hfold]
      simp
    have e2 : (A ++ p ++ nl.bytes ++ [32]).length = A.length + p.length + nl.bytes.length + 1 := by
      simp only [List.length_append, List.length_cons, List.length_nil]
    have hlast' : (if p = [] then last else A.length + p.length) ≤
        (A ++ p ++ nl.bytes ++ [32]).length := by
      rw [e2]
      split <;> omega
    obtain ⟨mark', last', value', lc', hscan, hlc', hpend⟩ :=
      ih q (A ++ p ++ nl.bytes ++ [32]) B _ nl.lastCr (value ++ p) hdata' hclean' hlast'
        (lastCr_ok nl) (Or.inl hinner)
    refine ⟨mark', last', value', lc', ?_, hlc', ?_⟩
    · have e1 : foldParts nl (p :: q :: ps) ++ B =
          p ++ (nl.bytes ++ (32 :: (foldParts nl (q :: ps) ++ B))) := by
        rw [hfold]
        simp
      rw [e1, scanValue_plain data p _ hp, scanValue_break data nl _ _ _ _ _ _ _ hlc, scanValue]
      simp only [if_neg (show (32 : Nat) ≠ 0 by decide), if_neg (show (32 : Nat) ≠ 10 by decide),
        if_neg (show (32 : Nat) ≠ 13 by decide)]
      rw [if_pos (by simp)]
      simp only [hslice]
      have e3 : A.length + (foldParts nl (p :: q :: ps)).length =
          (A ++ p ++ nl.bytes ++ [32]).length + (foldParts nl (q :: ps)).length := by
        rw [hfold]
        simp only [List.length_append, List.length_cons, List.length_nil]
        omega
      rw [e3, ← hscan, e2]
    · simpa using hpend

theorem readValue_folded (nl : LineBreak) (data A R name p : Bytes) (ps : List Bytes) (m : Nat)
    (hdata : data = A ++ foldParts nl (p :: ps) ++ (lineBreaks nl m ++ R))
    (hclean : ∀ q ∈ p :: ps, Clean q) (hinner : InnerNonempty ps)
    (hm : 1 ≤ m) (hR : Stops m R) :
    readValue data name A.length =
      .ok ⟨name, (p :: ps).flatten, true,
        A.length + (foldParts nl (p :: ps)).length + (lineBreaks nl m).length, m⟩ := by
  obtain ⟨mark', last', value', lc', hscan, hlc', hpend⟩ :=
    scanValue_folded data nl ps p A (lineBreaks nl m ++ R) A.length false [] hdata hclean
      (le_refl _) (by simp) (Or.inr ⟨rfl, hinner⟩)
  have hdrop : data.drop A.length = foldParts nl (p :: ps) ++ (lineBreaks nl m ++ R) := by
    rw [hdata, List.append_assoc, List.drop_left]
  obtain ⟨lc2, hbreaks⟩ := scanValue_breaks data nl m R
    (A.length + (foldParts nl (p :: ps)).length) mark' last' lc' 0 value' hlc' (by omega)
    (by simpa using hR)
  unfold readValue
  rw [hdrop, hscan, hbreaks]
  have hm' : decide (0 + m > 0) = true := by simp; omega
  rcases hpend with ⟨hgt, s, hs, hval⟩ | ⟨hle, hval⟩
  · simp only [if_pos hgt, hs, hm']
    rw [hval]
    simp
  · simp only [if_neg (Nat.not_lt.mpr hle), hm']
    rw [hval]
    simp

theorem readHeader_text (nl : LineBreak) (data A R : Bytes) (h : Header) (m n : Nat) (hwf : h.WF)
    (hdata : data = A ++ h.text nl ++ (lineBreaks nl m ++ R))
    (hm : 1 ≤ m) (hR : Stops m R) (hn : n ≤ 1) :
    readHeader data A.length n =
      .ok ⟨toLower h.name, h.value, true,
        A.length + (h.text nl).length + (lineBreaks nl m).length, m⟩ := by
  obtain ⟨name, parts⟩ := h
  obtain ⟨hname, hne, hclean, hinner⟩ := hwf
  simp only at hname hne hclean hinner
  obtain ⟨p, ps, rfl⟩ := List.exists_cons_of_ne_nil hne
  simp only [Header.text, Header.value] at hdata ⊢
  have hdata1 : data = A ++ name ++
      (58 :: 32 :: (foldParts nl (p :: ps) ++ (lineBreaks nl m ++ R))) := by
    rw [hdata]; simp
  have hdrop : data.drop A.length = name ++
      58 :: (32 :: (foldParts nl (p :: ps) ++ (lineBreaks nl m ++ R))) := by
    rw [hdata1, List.append_assoc, List.drop_left]
  have hslice : slice data A.length (A.length + name.length) = some name := by
    rw [hdata1]; exact slice_mid A name _
  have hindex : index data (A.length + name.length + 1) = some 32 := by
    have := index_mid (A ++ name ++ [58])
      (foldParts nl (p :: ps) ++ (lineBreaks nl m ++ R)) 32
    rw [hdata1]
    simpa using this
  have hlen : ¬ (A.length + name.length + 1 > data.length) := by
    rw [hdata1]; simp; omega
  have hdata2 : data = (A ++ name ++ [58, 32]) ++ foldParts nl (p :: ps) ++
      (lineBreaks nl m ++ R) := by
    rw [hdata1]; simp
  have hval := readValue_folded nl data (A ++ name ++ [58, 32]) R (toLower name) p
    ps m hdata2 hclean hinner hm hR
  have e1 : (A ++ name ++ [58, 32]).length = A.length + name.length + 2 := by
    simp only [List.length_append, List.length_cons, List.length_nil]
  have e2 : A.length + (name ++ 58 :: 32 :: foldParts nl (p :: ps)).length +
        (lineBreaks nl m).length =
      A.length + name.length + 2 + (foldParts nl (p :: ps)).length +
        (lineBreaks nl m).length := by
    simp only [List.length_append, List.length_cons]; omega
  unfold readHeader
  rw [if_neg (by omega), hdrop, scanName_found _ _ _ (isValidName_no_colon _ hname)]
  simp only [hslice, if_neg hlen, hindex]
  rw [if_neg (by simp), hname]
  simp only [Bool.not_true, Bool.false_eq_true, if_false]
  rw [← e1, hval, e1, e2]

/-! ## The header loops of `parse` on well-formed lines -/

theorem mainLoop_eq (data : Bytes) (fuel : Nat) (s : ParseState) :
    mainLoop data fuel s = headerLoop data updMain fuel s := by
  induction fuel generalizing s with
  | zero => rfl
  | succ fuel ih =>
    rw [mainLoop, headerLoop]
    cases readHeader data s.pos s.consecutiveLineBreaks with
    | ok h => simp only [ih]; rfl
    | error e => rfl
    | panic => rfl
    | timeout => rfl

theorem attrLoop_eq (data e : Bytes) (fuel : Nat) (s : ParseState) :
    attrLoop data e fuel s = headerLoop data (updEntry e) fuel s := by
  induction fuel generalizing s with
  | zero => rfl
  | succ fuel ih =>
    rw [attrLoop, headerLoop]
    cases readHeader data s.pos s.consecutiveLineBreaks with
    | ok h => simp only [ih]; rfl
    | error e => rfl
    | panic => rfl
    | timeout => rfl

theorem isValidNameByte_stops (c : Nat) (h : isValidNameByte c = true) :
    c ≠ 0 ∧ c ≠ 10 ∧ c ≠ 13 ∧ c ≠ 32 := by
  refine ⟨?_, ?_, ?_, ?_⟩ <;> (intro hc; subst hc; revert h; decide)

theorem isValidName_cons (name : Bytes) (h : isValidName name = true) :
    ∃ c rest, name = c :: rest ∧ isValidNameByte c = true := by
  cases name with
  | nil => exact absurd h (by decide)
  | cons c rest =>
    exact ⟨c, rest, rfl, isValidName_all _ h c (List.mem_cons_self _ _)⟩

theorem stops_line (nl : LineBreak) (n : Nat) (h : Header) (hwf : h.WF) (X : Bytes) :
    Stops n (h.line nl ++ X) := by
  obtain ⟨c, rest, hc, hv⟩ := isValidName_cons h.name hwf.1
  obtain ⟨h0, h10, h13, h32⟩ := isValidNameByte_stops c hv
  simp only [Header.line, Header.text, hc, List.cons_append, Stops]
  exact ⟨h0, h10, h13, fun h => absurd h h32⟩

theorem stops_linesOf (nl : LineBreak) (n : Nat) (hs : List Header) (hwf : ∀ h ∈ hs, h.WF) (R
    : Bytes)
    (hR : Stops n R) : Stops n (linesOf nl hs ++ R) := by
  cases hs with
  | nil => simpa [linesOf] using hR
  | cons h hs =>
    have : linesOf nl (h :: hs) ++ R = h.line nl ++ (linesOf nl hs ++ R) := by simp [linesOf]
    rw [this]
    exact stops_line nl n h (hwf h (List.mem_cons_self _ _)) _

theorem headerLoop_lines (nl : LineBreak) (data : Bytes) (upd : manifest → Bytes → Bytes → manifest)
    (hs : List Header) :
    ∀ (A R : Bytes) (s : ParseState) (fuel : Nat),
      data = A ++ linesOf nl hs ++ R → (∀ h ∈ hs, h.WF) → Stops 1 R →
      s.pos = A.length → s.consecutiveLineBreaks ≤ 1 →
      headerLoop data upd (hs.length + fuel) s =
        headerLoop data upd fuel
          ⟨A.length + (linesOf nl hs).length,
            if hs = [] then s.consecutiveLineBreaks else 1,
            storeAll upd s.man hs⟩ := by
  induction hs with
  | nil =>
    intro A R s fuel _ _ _ hpos _
    simp [linesOf, storeAll, ← hpos]
  | cons h hs ih =>
    intro A R s fuel hdata hwf hR hpos hn
    have hwf' : ∀ h' ∈ hs, h'.WF := fun h' hh => hwf h' (List.mem_cons_of_mem _ hh)
    have hh : h.WF := hwf h (List.mem_cons_self _ _)
    have hdata1 : data = A ++ h.text nl ++ (lineBreaks nl 1 ++ (linesOf nl hs ++ R)) := by
      rw [hdata]; simp [linesOf, Header.line]
    have hread := readHeader_text nl data A (linesOf nl hs ++ R) h 1 s.consecutiveLineBreaks hh
      hdata1 (le_refl _) (stops_linesOf nl 1 hs hwf' R hR) hn
    have hdata2 : data = (A ++ h.line nl) ++ linesOf nl hs ++ R := by
      rw [hdata]; simp [linesOf]
    have hstep := ih (A ++ h.line nl) R
      ⟨A.length + (h.text nl).length + (lineBreaks nl 1).length, 1,
        upd s.man (toLower h.name) h.value⟩ fuel hdata2 hwf' hR
      (by simp [Header.line]; omega) (le_refl _)
    rw [show (h :: hs).length + fuel = (hs.length + fuel) + 1 by simp; omega, headerLoop,
      hpos, hread]
    simp only [Bool.not_true, Bool.false_eq_true, if_false]
    rw [hstep, if_neg (List.cons_ne_nil h hs)]
    congr 1
    simp only [ParseState.mk.injEq]
    refine ⟨?_, ?_, ?_⟩
    · simp [linesOf, Header.line]; omega
    · split <;> rfl
    · simp [storeAll]

theorem headerLoop_blockEnd (data : Bytes) (upd : manifest → Bytes → Bytes → manifest)
    (s : ParseState) (fuel : Nat) (h : s.consecutiveLineBreaks > 1) :
    headerLoop data upd (fuel + 1) s = .ok { s with consecutiveLineBreaks := 0 } := by
  rw [headerLoop, readHeader, if_pos h]
  rfl

theorem headerLoop_block (nl : LineBreak) (data : Bytes) (upd : manifest → Bytes → Bytes → manifest)
    (hs : List Header) (A R : Bytes) (s : ParseState) (fuel : Nat)
    (hdata : data = A ++ blockText nl hs ++ R) (hne : hs ≠ []) (hwf : ∀ h ∈ hs, h.WF)
    (hR : Stops 2 R) (hpos : s.pos = A.length) (hn : s.consecutiveLineBreaks ≤ 1)
    (hfuel : hs.length + 1 ≤ fuel) :
    headerLoop data upd fuel s =
      .ok ⟨A.length + (blockText nl hs).length, 0, storeAll upd s.man hs⟩ := by
  obtain ⟨init, h, rfl⟩ : ∃ init h, hs = init ++ [h] :=
    ⟨hs.dropLast, hs.getLast hne, (List.dropLast_append_getLast hne).symm⟩
  have hwfi : ∀ h' ∈ init, h'.WF := fun h' hh => hwf h' (List.mem_append_left _ hh)
  have hh : h.WF := hwf h (List.mem_append_right _ (List.mem_singleton_self h))
  obtain ⟨f, rfl⟩ : ∃ f, fuel = init.length + (f + 2) :=
    ⟨fuel - (init.length + 2), by simp at hfuel; omega⟩
  have hdata1 : data = A ++ linesOf nl init ++ (h.line nl ++ (nl.bytes ++ R)) := by
    rw [hdata]; simp [blockText, linesOf]
  rw [headerLoop_lines nl data upd init A (h.line nl ++ (nl.bytes ++ R)) s (f + 2) hdata1 hwfi
    (stops_line nl 1 h hh _) hpos hn]
  have hdata2 : data = (A ++ linesOf nl init) ++ h.text nl ++ (lineBreaks nl 2 ++ R) := by
    rw [hdata]; simp [blockText, linesOf, Header.line, List.replicate]
  have hread := readHeader_text nl data (A ++ linesOf nl init) R h 2
    (if init = [] then s.consecutiveLineBreaks else 1) hh hdata2 (by omega) hR
    (by split <;> omega)
  rw [headerLoop]
  simp only [← List.length_append, hread, Bool.not_true, Bool.false_eq_true, if_false]
  rw [headerLoop_blockEnd _ _ _ _ (by simp)]
  congr 1
  simp only [ParseState.mk.injEq, true_and]
  refine ⟨?_, ?_⟩
  · simp [blockText, linesOf, Header.line]
  · simp [storeAll]

/-! ## The entry loop of `parse` on a well-formed block -/

theorem readHeader_atEnd (data : Bytes) (n : Nat) (hn : n ≤ 1) :
    readHeader data data.length n = .ok ⟨[], [], false, data.length, 0⟩ := by
  unfold readHeader
  rw [if_neg (by omega), List.drop_length]
  simp [scanName, readValue, scanValue]

theorem length_le_linesOf (nl : LineBreak) (hs : List Header) : hs.length ≤ (linesOf nl hs).length
    := by
  induction hs with
  | nil => simp
  | cons h hs ih =>
    have : (linesOf nl (h :: hs)).length = (h.line nl).length + (linesOf nl hs).length := by
      simp [linesOf]
    have h1 : 1 ≤ (h.line nl).length := by
      have := bytes_length_pos nl
      simp only [Header.line, List.length_append]
      omega
    rw [this, List.length_cons]
    omega

theorem storeAll_updEntry (name : Bytes) (attrs : List Header) (man : manifest) :
    storeAll (updEntry name) man attrs =
      { man with entries :=
          attrs.foldl (fun E h => entrySet E name (toLower h.name) h.value) man.entries } := by
  induction attrs generalizing man with
  | nil => rfl
  | cons h hs ih => simp only [storeAll, List.foldl_cons] at ih ⊢; rw [ih]; rfl

theorem storeAll_updMain (hs : List Header) (man : manifest) :
    storeAll updMain man hs =
      { man with main :=
          hs.foldl (fun m h => mapSet m (toLower h.name) h.value) man.main } := by
  induction hs generalizing man with
  | nil => rfl
  | cons h hs ih => simp only [storeAll, List.foldl_cons] at ih ⊢; rw [ih]; rfl

/-- The header that names an entry, followed by the attributes of the block and the blank
line: what `readHeader` and then the innermost loop do. -/
theorem entry_head (nl : LineBreak) (data A R : Bytes) (nh : Header) (attrs : List Header) (n : Nat)
    (hdata : data = A ++ blockText nl (nh :: attrs) ++ R)
    (hnh : nh.WF) (hwf : ∀ h ∈ attrs, h.WF) (hR : Stops 2 R) (hn : n ≤ 1) :
    ∃ pos' n',
      readHeader data A.length n = .ok ⟨toLower nh.name, nh.value, true, pos', n'⟩ ∧
      ∀ man, attrLoop data nh.value (data.length + 1) ⟨pos', n', man⟩ =
        .ok ⟨A.length + (blockText nl (nh :: attrs)).length, 0,
          storeAll (updEntry nh.value) man attrs⟩ := by
  by_cases hat : attrs = []
  · subst hat
    have hdata1 : data = A ++ nh.text nl ++ (lineBreaks nl 2 ++ R) := by
      rw [hdata]; simp [blockText, linesOf, Header.line, List.replicate]
    refine ⟨_, _, readHeader_text nl data A R nh 2 n hnh hdata1 (by omega) hR hn, ?_⟩
    intro man
    rw [attrLoop_eq, headerLoop_blockEnd _ _ _ _ (by simp)]
    congr 1
    simp [blockText, linesOf, Header.line, storeAll]
    omega
  · have hdata1 : data = A ++ nh.text nl ++ (lineBreaks nl 1 ++ (blockText nl attrs ++ R)) := by
      rw [hdata]; simp [blockText, linesOf, Header.line]
    have hstop : Stops 1 (blockText nl attrs ++ R) := by
      have : blockText nl attrs ++ R = linesOf nl attrs ++ (nl.bytes ++ R) := by simp [blockText]
      rw [this]
      obtain ⟨h, hs, rfl⟩ := List.exists_cons_of_ne_nil hat
      have : linesOf nl (h :: hs) ++ (nl.bytes ++ R) =
          h.line nl ++ (linesOf nl hs ++ (nl.bytes ++ R)) := by
        simp [linesOf]
      rw [this]
      exact stops_line nl 1 h (hwf h (List.mem_cons_self _ _)) _
    refine ⟨_, _, readHeader_text nl data A _ nh 1 n hnh hdata1 (le_refl _) hstop hn, ?_⟩
    intro man
    have hdata2 : data = (A ++ nh.line nl) ++ blockText nl attrs ++ R := by
      rw [hdata]; simp [blockText, linesOf]
    have hfuel : attrs.length + 1 ≤ data.length + 1 := by
      have := length_le_linesOf nl attrs
      rw [hdata2]
      simp only [blockText, List.length_append]
      omega
    rw [attrLoop_eq, headerLoop_block nl data _ attrs (A ++ nh.line nl) R _ _ hdata2 hat hwf hR
      (by simp [Header.line]; omega) (le_refl _) hfuel]
    congr 1
    simp [blockText, linesOf]
    omega

theorem entryLoop_block (nl : LineBreak) (data A R : Bytes) (wc : Bool) (nh : Header) (attrs
    : List Header)
    (fuel mark : Nat) (s : ParseState)
    (hdata : data = A ++ blockText nl (nh :: attrs) ++ R)
    (hnh : nh.WF) (hname : toLower nh.name = attrName) (hwf : ∀ h ∈ attrs, h.WF)
    (hR : Stops 2 R) (hpos : s.pos = A.length) (hn : s.consecutiveLineBreaks ≤ 1) :
    entryLoop data wc (fuel + 1) mark s =
      if wc then
        match mapGet s.man.chunks nh.value with
        | some _ => .error .duplicateEntryName
        | none =>
          match slice data mark (A.length + (blockText nl (nh :: attrs)).length) with
          | none => .panic
          | some chunk =>
            entryLoop data wc fuel (A.length + (blockText nl (nh :: attrs)).length)
              ⟨A.length + (blockText nl (nh :: attrs)).length, 0,
                { s.man with
                    entries := storeEntry s.man.entries nh.value attrs,
                    chunks := mapSet s.man.chunks nh.value chunk }⟩
      else
        entryLoop data wc fuel mark
          ⟨A.length + (blockText nl (nh :: attrs)).length, 0,
            { s.man with entries := storeEntry s.man.entries nh.value attrs }⟩ := by
  obtain ⟨pos', n', hread, hattr⟩ :=
    entry_head nl data A R nh attrs s.consecutiveLineBreaks hdata hnh hwf hR hn
  rw [entryLoop, hpos, hread]
  simp only [Bool.not_true, Bool.false_eq_true, if_false, hname, ne_eq, not_true_eq_false,
    hattr, storeAll_updEntry]
  rfl

theorem entryLoop_atEnd (data : Bytes) (wc : Bool) (fuel mark : Nat) (s : ParseState)
    (hpos : s.pos = data.length) (hn : s.consecutiveLineBreaks ≤ 1) :
    entryLoop data wc (fuel + 1) mark s = .ok { s with consecutiveLineBreaks := 0 } := by
  rw [entryLoop, hpos, readHeader_atEnd data _ hn]
  simp [← hpos]

/-! ## Association lists -/

theorem mapGet_append_absent {β : Type} (m : List (Bytes × β)) (k : Bytes) (v : β)
    (h : mapGet m k = none) : mapGet (m ++ [(k, v)]) k = some v := by
  induction m with
  | nil => simp [mapGet]
  | cons p m ih =>
    obtain ⟨k', v'⟩ := p
    simp only [mapGet] at h
    split at h
    · exact absurd h (by simp)
    · next hk => simp only [List.cons_append, mapGet, if_neg hk]; exact ih h

theorem mapGet_append_ne {β : Type} (m : List (Bytes × β)) (k k' : Bytes) (v : β)
    (hk : k ≠ k') : mapGet (m ++ [(k, v)]) k' = mapGet m k' := by
  induction m with
  | nil => simp [mapGet, hk]
  | cons p m ih =>
    obtain ⟨k0, v0⟩ := p
    simp only [List.cons_append, mapGet]
    split
    · rfl
    · exact ih

theorem mapSet_absent {β : Type} (m : List (Bytes × β)) (k : Bytes) (v : β)
    (h : mapGet m k = none) : mapSet m k v = m ++ [(k, v)] := by
  induction m with
  | nil => rfl
  | cons p m ih =>
    obtain ⟨k', v'⟩ := p
    simp only [mapGet] at h
    split at h
    · exact absurd h (by simp)
    · next hk => simp only [mapSet, if_neg hk, List.cons_append, ih h]

theorem mapSet_append_last {β : Type} (m : List (Bytes × β)) (k : Bytes) (v w : β)
    (h : mapGet m k = none) : mapSet (m ++ [(k, v)]) k w = m ++ [(k, w)] := by
  induction m with
  | nil => simp [mapSet]
  | cons p m ih =>
    obtain ⟨k', v'⟩ := p
    simp only [mapGet] at h
    split at h
    · exact absurd h (by simp)
    · next hk =>
      show mapSet ((k', v') :: (m ++ [(k, v)])) k w = (k', v') :: (m ++ [(k, w)])
      rw [mapSet, if_neg hk, ih h]

theorem mapGet_eq_none_iff {β : Type} (m : List (Bytes × β)) (k : Bytes) :
    mapGet m k = none ↔ k ∉ mapKeys m := by
  induction m with
  | nil => simp [mapGet, mapKeys]
  | cons p m ih =>
    obtain ⟨k', v'⟩ := p
    simp only [mapGet, mapKeys, List.map_cons, List.mem_cons, not_or]
    split
    · next hk => simp [hk]
    · next hk =>
      rw [ih]
      simp only [mapKeys]
      constructor
      · intro h; exact ⟨fun e => hk e.symm, h⟩
      · intro h; exact h.2

theorem foldl_mapSet_nodup (hs : List Header) (m : List (Bytes × Bytes))
    (hnd : (mapKeys m ++ hs.map (fun h => toLower h.name)).Nodup) :
    hs.foldl (fun m h => mapSet m (toLower h.name) h.value) m =
      m ++ hs.map (fun h => (toLower h.name, h.value)) := by
  induction hs generalizing m with
  | nil => simp
  | cons h hs ih =>
    have hk : mapGet m (toLower h.name) = none := by
      rw [mapGet_eq_none_iff]
      intro hmem
      have := List.nodup_append.mp hnd
      exact this.2.2 hmem (by simp)
    simp only [List.foldl_cons, mapSet_absent m _ _ hk]
    rw [ih]
    · simp
    · simpa [mapKeys] using hnd

theorem attrsMap_nodup (hs : List Header) (hnd : (hs.map (fun h => toLower h.name)).Nodup) :
    attrsMap hs = hs.map (fun h => (toLower h.name, h.value)) := by
  have := foldl_mapSet_nodup hs [] (by simpa [mapKeys] using hnd)
  simpa [attrsMap] using this

theorem storeEntry_absent (E : List (Bytes × List (Bytes × Bytes))) (name : Bytes)
    (attrs : List Header) (h : mapGet E name = none) :
    storeEntry E name attrs = E ++ [(name, attrsMap attrs)] := by
  have key : ∀ (hs : List Header) (em : List (Bytes × Bytes)),
      hs.foldl (fun E h => entrySet E name (toLower h.name) h.value) (E ++ [(name, em)]) =
        E ++ [(name, hs.foldl (fun m h => mapSet m (toLower h.name) h.value) em)] := by
    intro hs
    induction hs with
    | nil => intro em; rfl
    | cons a hs ih =>
      intro em
      simp only [List.foldl_cons, entrySet, mapGet_append_absent E name em h, Option.getD_some,
        mapSet_append_last E name _ _ h]
      exact ih _
  simp only [storeEntry, ensureEntry, h, mapSet_absent E name [] h]
  exact key attrs []

theorem mapGet_mapSet_ne {β : Type} (m : List (Bytes × β)) (k k' : Bytes) (v : β)
    (hk : k ≠ k') : mapGet (mapSet m k v) k' = mapGet m k' := by
  induction m with
  | nil => simp [mapSet, mapGet, hk]
  | cons p m ih =>
    obtain ⟨k0, v0⟩ := p
    simp only [mapSet]
    split
    · next h0 => subst h0; simp [mapGet, hk]
    · next h0 => simp only [mapGet]; split <;> simp [ih]

theorem mapGet_mapSet_same {β : Type} (m : List (Bytes × β)) (k : Bytes) (v : β) :
    mapGet (mapSet m k v) k = some v := by
  induction m with
  | nil => simp [mapSet, mapGet]
  | cons p m ih =>
    obtain ⟨k0, v0⟩ := p
    simp only [mapSet]
    split
    · simp [mapGet]
    · next h0 => simp [mapGet, h0, ih]

/-! ## The entry loop on a well-formed list of entry blocks -/

theorem stops_docText (nl : LineBreak) (n : Nat) (bs : List (List Header)) (hwf
    : ∀ b ∈ bs, EntryWF b)
    (R : Bytes) (hR : Stops n R) : Stops n (docText nl bs ++ R) := by
  cases bs with
  | nil => simpa [docText] using hR
  | cons b bs =>
    cases b with
    | nil => exact absurd (hwf [] (List.mem_cons_self _ _)) (by simp [EntryWF])
    | cons nh attrs =>
      have : docText nl ((nh :: attrs) :: bs) ++ R =
          nh.line nl ++ (linesOf nl attrs ++ nl.bytes ++ (docText nl bs ++ R)) := by
        simp [docText, blockText, linesOf]
      rw [this]
      exact stops_line nl n _ (hwf _ (List.mem_cons_self _ _)).1 _

theorem entryLoop_entries (nl : LineBreak) (data : Bytes) (wc : Bool) (bs : List (List Header)) :
    ∀ (A R : Bytes) (s : ParseState) (fuel mark : Nat),
      data = A ++ docText nl bs ++ R → (∀ b ∈ bs, EntryWF b) → Stops 2 R →
      s.pos = A.length → s.consecutiveLineBreaks = 0 →
      (wc = true → mark = A.length ∧ (∀ b ∈ bs, mapGet s.man.chunks (blockName b) = none) ∧
        (bs.map blockName).Nodup) →
      entryLoop data wc (bs.length + fuel) mark s =
        entryLoop data wc fuel (if wc then A.length + (docText nl bs).length else mark)
          ⟨A.length + (docText nl bs).length, 0,
            { s.man with
                entries := entriesAfter s.man.entries bs,
                chunks := if wc then chunksAfter nl s.man.chunks bs else s.man.chunks }⟩ := by
  induction bs with
  | nil =>
    intro A R s fuel mark _ _ _ hpos hn hwc
    obtain ⟨pos, n, man⟩ := s
    simp only at hpos hn
    subst hpos hn
    cases wc with
    | false => simp [docText, entriesAfter]
    | true => simp [docText, entriesAfter, chunksAfter, (hwc rfl).1]
  | cons b bs ih =>
    intro A R s fuel mark hdata hwf hR hpos hn hwc
    have hwf' : ∀ b' ∈ bs, EntryWF b' := fun b' hb => hwf b' (List.mem_cons_of_mem _ hb)
    have hb := hwf b (List.mem_cons_self _ _)
    cases b with
    | nil => exact absurd hb (by simp [EntryWF])
    | cons nh attrs =>
    obtain ⟨hnh, hname, hattrs⟩ := hb
    have hdata1 : data = A ++ blockText nl (nh :: attrs) ++ (docText nl bs ++ R) := by
      rw [hdata]; simp [docText]
    have hdata2 : data = (A ++ blockText nl (nh :: attrs)) ++ docText nl bs ++ R := by
      rw [hdata]; simp [docText]
    have hlen : (A ++ blockText nl (nh :: attrs)).length + (docText nl bs).length =
        A.length + (docText nl ((nh :: attrs) :: bs)).length := by
      simp [docText]; omega
    have hstep := entryLoop_block nl data A (docText nl bs ++ R) wc nh attrs
      (bs.length + fuel) mark s hdata1 hnh hname hattrs (stops_docText nl 2 bs hwf' R hR) hpos
      (by omega)
    rw [show ((nh :: attrs) :: bs).length + fuel = (bs.length + fuel) + 1 by simp; omega, hstep]
    cases wc with
    | false =>
      simp only [Bool.false_eq_true, if_false]
      rw [ih (A ++ blockText nl (nh :: attrs)) R _ fuel mark hdata2 hwf' hR (by simp) rfl
        (by intro h; exact absurd h (by simp))]
      simp only [Bool.false_eq_true, if_false, hlen]
      rfl
    | true =>
      obtain ⟨hmark, hfresh, hnd⟩ := hwc rfl
      have hslice : slice data mark (A.length + (blockText nl (nh :: attrs)).length) =
          some (blockText nl (nh :: attrs)) := by
        rw [hmark, hdata1]
        exact slice_mid A _ _
      have hnd' : blockName (nh :: attrs) ∉ bs.map blockName ∧ (bs.map blockName).Nodup :=
        List.nodup_cons.mp hnd
      have hf : mapGet s.man.chunks nh.value = none :=
        hfresh (nh :: attrs) (List.mem_cons_self _ _)
      simp only [if_true, hf, hslice]
      rw [ih (A ++ blockText nl (nh :: attrs)) R _ fuel _ hdata2 hwf' hR (by simp) rfl ?_]
      · simp only [if_true, hlen]
        rfl
      · intro _
        refine ⟨by simp, ?_, hnd'.2⟩
        intro b' hb'
        have hne : blockName (nh :: attrs) ≠ blockName b' := by
          intro heq
          exact hnd'.1 (heq ▸ List.mem_map_of_mem blockName hb')
        exact (mapGet_mapSet_ne s.man.chunks _ (blockName b') _ hne).trans
          (hfresh b' (List.mem_cons_of_mem _ hb'))

/-! ## `parse` on a well-formed manifest text -/

theorem length_le_docText (nl : LineBreak) (bs : List (List Header)) : bs.length ≤
    (docText nl bs).length := by
  induction bs with
  | nil => simp
  | cons b bs ih =>
    have : (docText nl (b :: bs)).length = (blockText nl b).length + (docText nl bs).length := by
      simp [docText]
    have h1 : 1 ≤ (blockText nl b).length := by
      have := bytes_length_pos nl
      simp only [blockText, List.length_append]
      omega
    rw [this, List.length_cons]
    omega

theorem parse_upto (nl : LineBreak) (data R : Bytes) (wc : Bool) (main : List Header)
    (bs : List (List Header))
    (hdata : data = docText nl (main :: bs) ++ R) (hne : main ≠ []) (hmain : ∀ h ∈ main, h.WF)
    (hbs : ∀ b ∈ bs, EntryWF b) (hR : Stops 2 R)
    (hnd : wc = true → (bs.map blockName).Nodup) :
    ∃ fuel, bs.length + (fuel + 1) = data.length + 1 ∧
      parse data wc =
        entryLoop data wc (fuel + 1)
          (if wc then (docText nl (main :: bs)).length else (blockText nl main).length)
          (stateAfter nl data wc main bs) := by
  have hdata1 : data = [] ++ blockText nl main ++ (docText nl bs ++ R) := by
    rw [hdata]; simp [docText]
  have hlenm : main.length + 1 ≤ data.length + 1 := by
    have := length_le_linesOf nl main
    rw [hdata1]
    simp only [blockText, List.length_append, List.nil_append]
    omega
  have hlenb : bs.length + 1 ≤ data.length := by
    have := length_le_docText nl bs
    have h1 : 1 ≤ (blockText nl main).length := by
      have := bytes_length_pos nl
      simp only [blockText, List.length_append]
      omega
    rw [hdata1]
    simp only [List.length_append, List.nil_append]
    omega
  have hmainLoop := headerLoop_block nl data updMain main [] (docText nl bs ++ R) (initialState data)
    (data.length + 1) hdata1 hne hmain (stops_docText nl 2 bs hbs R hR) rfl (by simp [initialState])
    hlenm
  refine ⟨data.length - bs.length, by omega, ?_⟩
  have hdata2 : data = blockText nl main ++ docText nl bs ++ R := by
    rw [hdata]; simp [docText]
  have hentries := entryLoop_entries nl data wc bs (blockText nl main) R
    ⟨(blockText nl main).length, 0,
      { (storeAll updMain (initialState data).man main) with
          mainAttributtesEnd := (blockText nl main).length }⟩
    (data.length - bs.length + 1) (blockText nl main).length hdata2 hbs hR rfl rfl
    (fun h => ⟨rfl, fun _ _ => by simp [storeAll_updMain, initialState, mapGet], hnd h⟩)
  have hfuel : data.length + 1 = bs.length + (data.length - bs.length + 1) := by omega
  unfold parse
  rw [mainLoop_eq, hmainLoop]
  simp only [List.length_nil, Nat.zero_add]
  rw [hfuel, hentries]
  have hlen : (blockText nl main).length + (docText nl bs).length = (docText nl (main :: bs)).length := by
    simp [docText]
  simp only [hlen, stateAfter, storeAll_updMain, initialState, attrsMap]

theorem parse_doc (nl : LineBreak) (wc : Bool) (main : List Header) (bs : List (List Header))
    (hne : main ≠ []) (hmain : ∀ h ∈ main, h.WF) (hbs : ∀ b ∈ bs, EntryWF b)
    (hnd : wc = true → (bs.map blockName).Nodup) :
    parse (docText nl (main :: bs)) wc = .ok (stateAfter nl (docText nl (main :: bs)) wc main bs)
    := by
  obtain ⟨fuel, _, hparse⟩ := parse_upto nl (docText nl (main :: bs)) [] wc main bs (by simp) hne
    hmain hbs (by simp [Stops]) hnd
  rw [hparse, entryLoop_atEnd _ _ _ _ _ (by simp [stateAfter]) (by simp [stateAfter])]
  rfl

/-! ## Canonical serialisation -/

theorem attrHeader_line (a : Bytes × Bytes) : (attrHeader a).line .lf = serialiseAttr a := by
  simp [attrHeader, Header.line, Header.text, foldParts, serialiseAttr, ascii, LineBreak.bytes]

theorem linesOf_attrHeader (attrs : List (Bytes × Bytes)) :
    linesOf .lf (attrs.map attrHeader) = serialiseAttrs attrs := by
  simp [linesOf, serialiseAttrs, List.map_map, Function.comp_def, attrHeader_line]

theorem blockText_entryBlock (e : Bytes × List (Bytes × Bytes)) :
    blockText .lf (entryBlock e) = serialiseEntry e := by
  have h1 : linesOf .lf (entryBlock e) =
      ascii "Name: " ++ e.1 ++ ascii "\n" ++ serialiseAttrs e.2 := by
    rw [← linesOf_attrHeader]
    simp [linesOf, entryBlock, Header.line, Header.text, foldParts, ascii, LineBreak.bytes]
  rw [blockText, h1, serialiseEntry]
  rfl

theorem docText_serialise (main : List (Bytes × Bytes))
    (entries : List (Bytes × List (Bytes × Bytes))) :
    docText .lf (main.map attrHeader :: entries.map entryBlock) = serialise main entries := by
  have h1 : blockText .lf (main.map attrHeader) = serialiseMain main := by
    rw [blockText, linesOf_attrHeader, serialiseMain]; rfl
  simp [docText, serialise, h1, List.map_map, Function.comp_def, blockText_entryBlock]

theorem attrHeader_WF (a : Bytes × Bytes) (hn : isValidName a.1 = true) (hv : Clean a.2) :
    (attrHeader a).WF := by
  refine ⟨hn, by simp [attrHeader], ?_, by simp [attrHeader, InnerNonempty]⟩
  intro q hq
  simp only [attrHeader, List.mem_singleton] at hq
  rw [hq]
  exact hv

theorem entryBlock_WF (e : Bytes × List (Bytes × Bytes)) (he : Clean e.1)
    (ha : ∀ a ∈ e.2, isValidName a.1 = true ∧ Clean a.2) : EntryWF (entryBlock e) := by
  have hvalid : isValidName (ascii "Name") = true := by decide
  have hlower : toLower (ascii "Name") = attrName := by decide
  refine ⟨attrHeader_WF (ascii "Name", e.1) hvalid he, hlower, ?_⟩
  intro h hh
  obtain ⟨a, ha', rfl⟩ := List.mem_map.mp hh
  exact attrHeader_WF a (ha a ha').1 (ha a ha').2

theorem entriesAfter_nodup (bs : List (List Header)) (E : List (Bytes × List (Bytes × Bytes)))
    (hnd : (mapKeys E ++ bs.map blockName).Nodup) :
    entriesAfter E bs = E ++ bs.map (fun b => (blockName b, attrsMap b.tail)) := by
  induction bs generalizing E with
  | nil => simp [entriesAfter]
  | cons b bs ih =>
    have hk : mapGet E (blockName b) = none := by
      rw [mapGet_eq_none_iff]
      intro hmem
      exact (List.nodup_append.mp hnd).2.2 hmem (by simp)
    simp only [entriesAfter, List.foldl_cons, storeEntry_absent E _ _ hk]
    have := ih (E ++ [(blockName b, attrsMap b.tail)]) (by simpa [mapKeys] using hnd)
    simp only [entriesAfter] at this
    rw [this]
    simp

theorem chunksAfter_nodup (nl : LineBreak) (bs : List (List Header)) (C : List (Bytes × Bytes))
    (hnd : (mapKeys C ++ bs.map blockName).Nodup) :
    chunksAfter nl C bs = C ++ bs.map (fun b => (blockName b, blockText nl b)) := by
  induction bs generalizing C with
  | nil => simp [chunksAfter]
  | cons b bs ih =>
    have hk : mapGet C (blockName b) = none := by
      rw [mapGet_eq_none_iff]
      intro hmem
      exact (List.nodup_append.mp hnd).2.2 hmem (by simp)
    simp only [chunksAfter, List.foldl_cons, mapSet_absent C _ _ hk]
    have := ih (C ++ [(blockName b, blockText nl b)]) (by simpa [mapKeys] using hnd)
    simp only [chunksAfter] at this
    rw [this]
    simp

/-- Claim C1. `parse` undoes canonical serialisation: for a non-empty list of main
attributes and a list of entries with pairwise distinct names, attribute names valid and
pairwise distinct after lower-casing within their block, values and entry names free of CR,
LF and NUL, `parse` with `withChunks = true` succeeds on the serialised text, `main` maps
each lower-cased name to its value, `entries` maps each entry name to its lower-cased
attributes, and the chunk of each entry is the serialised text of its block, blank line
included. -/
theorem parse_serialise (main : List (Bytes × Bytes))
    (entries : List (Bytes × List (Bytes × Bytes)))
    (hne : main ≠ [])
    (hmain : ∀ a ∈ main, isValidName a.1 = true ∧ Clean a.2)
    (hmainDistinct : (main.map (fun a => toLower a.1)).Nodup)
    (hentries : ∀ e ∈ entries, Clean e.1 ∧ (∀ a ∈ e.2, isValidName a.1 = true ∧ Clean a.2) ∧
      (e.2.map (fun a => toLower a.1)).Nodup)
    (hentriesDistinct : (entries.map Prod.fst).Nodup) :
    parse (serialise main entries) true =
      .ok ⟨(serialise main entries).length, 0,
        ⟨serialise main entries,
          main.map lowerAttr,
          entries.map (fun e => (e.1, e.2.map lowerAttr)),
          entries.map (fun e => (e.1, serialiseEntry e)),
          (serialiseMain main).length⟩⟩ := by
  have hnames : (entries.map entryBlock).map blockName = entries.map Prod.fst := by
    simp [List.map_map, Function.comp_def, entryBlock, blockName, Header.value]
  have hparse := parse_doc .lf true (main.map attrHeader) (entries.map entryBlock)
    (by simpa using hne)
    (by
      intro h hh
      obtain ⟨a, ha, rfl⟩ := List.mem_map.mp hh
      exact attrHeader_WF a (hmain a ha).1 (hmain a ha).2)
    (by
      intro b hb
      obtain ⟨e, he, rfl⟩ := List.mem_map.mp hb
      exact entryBlock_WF e (hentries e he).1 (hentries e he).2.1)
    (by intro _; rw [hnames]; exact hentriesDistinct)
  rw [docText_serialise] at hparse
  rw [hparse, stateAfter, docText_serialise]
  have hm : attrsMap (main.map attrHeader) = main.map lowerAttr := by
    rw [attrsMap_nodup]
    · simp [List.map_map, Function.comp_def, attrHeader, Header.value, lowerAttr]
    · simpa [List.map_map, Function.comp_def, attrHeader] using hmainDistinct
  have he : entriesAfter [] (entries.map entryBlock) =
      entries.map (fun e => (e.1, e.2.map lowerAttr)) := by
    rw [entriesAfter_nodup _ _ (by simpa [mapKeys, hnames] using hentriesDistinct)]
    simp only [List.nil_append, List.map_map]
    apply List.map_congr_left
    intro e he
    simp only [Function.comp, entryBlock, blockName, Header.value, List.tail_cons,
      List.flatten_cons, List.flatten_nil, List.append_nil, Prod.mk.injEq, true_and]
    rw [attrsMap_nodup]
    · simp [List.map_map, Function.comp_def, attrHeader, Header.value, lowerAttr]
    · simpa [List.map_map, Function.comp_def, attrHeader] using (hentries e he).2.2
  have hc : chunksAfter .lf [] (entries.map entryBlock) =
      entries.map (fun e => (e.1, serialiseEntry e)) := by
    rw [chunksAfter_nodup .lf _ _ (by simpa [mapKeys, hnames] using hentriesDistinct)]
    simp only [List.nil_append, List.map_map]
    apply List.map_congr_left
    intro e _
    simp only [Function.comp, blockText_entryBlock]
    simp [entryBlock, blockName, Header.value]
  have hb : blockText .lf (main.map attrHeader) = serialiseMain main := by
    rw [blockText, linesOf_attrHeader, serialiseMain]; rfl
  simp only [hm, he, hc, hb, if_true]

theorem parse_serialise_witness :
    parse (ascii "Manifest-Version: 1.0\n\nName: a.txt\nSHA-256-Digest: AAAA\n\n") true =
      .ok ⟨57, 0,
        ⟨ascii "Manifest-Version: 1.0\n\nName: a.txt\nSHA-256-Digest: AAAA\n\n",
          [(ascii "manifest-version", ascii "1.0")],
          [(ascii "a.txt", [(ascii "sha-256-digest", ascii "AAAA")])],
          [(ascii "a.txt", ascii "Name: a.txt\nSHA-256-Digest: AAAA\n\n")],
          23⟩⟩ :=
  parse_serialise [(ascii "Manifest-Version", ascii "1.0")]
    [(ascii "a.txt", [(ascii "SHA-256-Digest", ascii "AAAA")])]
    (by decide) (by decide) (by decide) (by decide) (by decide)

theorem exists_first_repetition {β : Type} (f : β → Bytes) (l : List β)
    (h : ¬ (l.map f).Nodup) :
    ∃ l1 b l2, l = l1 ++ b :: l2 ∧ (l1.map f).Nodup ∧ f b ∈ l1.map f := by
  induction l using List.reverseRecOn with
  | nil => exact absurd List.nodup_nil h
  | append_singleton l b ih =>
    by_cases hl : (l.map f).Nodup
    · refine ⟨l, b, [], rfl, hl, ?_⟩
      by_contra hmem
      apply h
      rw [List.map_append, List.nodup_append]
      refine ⟨hl, by simp, ?_⟩
      intro x hx hx'
      simp only [List.map_cons, List.map_nil, List.mem_singleton] at hx'
      exact hmem (hx' ▸ hx)
    · obtain ⟨l1, b', l2, hl', hnd, hmem⟩ := ih hl
      exact ⟨l1, b', l2 ++ [b], by rw [hl']; simp, hnd, hmem⟩

/-- Duplicate entry names in a manifest written with one line break throughout. With
chunk capture enabled a repeated entry name is a hard error: on the
text of a manifest (written with LF, CR LF or CR line breaks) whose blocks are well-formed
but whose entry names are not pairwise distinct, `parse` with `withChunks = true` returns
the error `More than one entry with the same name!`. -/
theorem parse_duplicate_entry (nl : LineBreak) (main : List Header) (bs : List (List Header))
    (hne : main ≠ []) (hmain : ∀ h ∈ main, h.WF) (hbs : ∀ b ∈ bs, EntryWF b)
    (hdup : ¬ (bs.map blockName).Nodup) :
    parse (docText nl (main :: bs)) true = .error .duplicateEntryName := by
  obtain ⟨bs1, b, bs2, rfl, hnd, hmem⟩ := exists_first_repetition blockName bs hdup
  have hbs1 : ∀ b' ∈ bs1, EntryWF b' := fun b' hb' => hbs b' (List.mem_append_left _ hb')
  have hb : EntryWF b := hbs b (List.mem_append_right _ (List.mem_cons_self _ _))
  have hbs2 : ∀ b' ∈ bs2, EntryWF b' :=
    fun b' hb' => hbs b' (List.mem_append_right _ (List.mem_cons_of_mem _ hb'))
  have hdata : docText nl (main :: (bs1 ++ b :: bs2)) =
      docText nl (main :: bs1) ++ docText nl (b :: bs2) := by
    simp [docText]
  obtain ⟨fuel, _, hparse⟩ := parse_upto nl (docText nl (main :: (bs1 ++ b :: bs2)))
    (docText nl (b :: bs2)) true main bs1 hdata hne hmain hbs1
    (by
      have := stops_docText nl 2 (b :: bs2) (by
        intro b' hb'
        rcases List.mem_cons.mp hb' with h | h
        · exact h ▸ hb
        · exact hbs2 b' h) [] (by simp [Stops])
      simpa using this)
    (fun _ => hnd)
  rw [hparse]
  cases b with
  | nil => exact absurd hb (by simp [EntryWF])
  | cons nh attrs =>
    obtain ⟨hnh, hname, hattrs⟩ := hb
    have hdata1 : docText nl (main :: (bs1 ++ (nh :: attrs) :: bs2)) =
        docText nl (main :: bs1) ++ blockText nl (nh :: attrs) ++ docText nl bs2 := by
      simp [docText]
    rw [entryLoop_block nl _ (docText nl (main :: bs1))
    (docText nl bs2) true nh attrs fuel _ _ hdata1
      hnh hname hattrs (by
        have := stops_docText nl 2 bs2 hbs2 [] (by simp [Stops])
        simpa using this) (by simp [stateAfter]) (by simp [stateAfter])]
    have hchunks : mapGet (chunksAfter nl [] bs1) nh.value ≠ none := by
      rw [Ne, mapGet_eq_none_iff, chunksAfter_nodup nl _ _ (by simpa [mapKeys] using hnd)]
      simpa [mapKeys, List.map_map, Function.comp_def, blockName] using hmem
    simp only [stateAfter, if_true]
    cases hget : mapGet (chunksAfter nl [] bs1) nh.value with
    | none => exact absurd hget hchunks
    | some v => rfl

theorem parse_duplicate_entry_witness :
    parse (ascii "Manifest-Version: 1.0\n\nName: a.txt\nX: 1\n\nName: a.txt\nY: 2\n\n") true =
      .error .duplicateEntryName :=
  parse_duplicate_entry .lf [⟨ascii "Manifest-Version", [ascii "1.0"]⟩]
    [[⟨ascii "Name", [ascii "a.txt"]⟩, ⟨ascii "X", [ascii "1"]⟩],
     [⟨ascii "Name", [ascii "a.txt"]⟩, ⟨ascii "Y", [ascii "2"]⟩]]
    (by decide) (by decide) (by decide) (by decide)

theorem entryLoop_notNamed (nl : LineBreak) (data A R : Bytes) (wc : Bool) (h : Header) (attrs
    : List Header)
    (fuel mark : Nat) (s : ParseState)
    (hdata : data = A ++ blockText nl (h :: attrs) ++ R)
    (hh : h.WF) (hname : toLower h.name ≠ attrName) (hwf : ∀ a ∈ attrs, a.WF)
    (hR : Stops 2 R) (hpos : s.pos = A.length) (hn : s.consecutiveLineBreaks ≤ 1) :
    entryLoop data wc (fuel + 1) mark s = .error .entryNotNamed := by
  obtain ⟨pos', n', hread, _⟩ :=
    entry_head nl data A R h attrs s.consecutiveLineBreaks hdata hh hwf hR hn
  rw [entryLoop, hpos, hread]
  simp only [Bool.not_true, Bool.false_eq_true, if_false]
  rw [if_pos hname]

/-- The first header of an entry block, in a manifest written with one line break
throughout. A well-formed main block, its blank line, and a block of well-formed headers
whose first header has the name `N` (the text written with LF, CR LF or CR line breaks):
if `N` lower-cased is not `name`, `parse` returns the error `Entry is not named`; if it is
`name` (whatever the letter case of `N`), `parse` succeeds and `entries` has the value of
that header as its key. -/
theorem parse_first_header_of_entry (nl : LineBreak) (wc : Bool) (main : List Header) (h : Header)
    (attrs : List Header) (hne : main ≠ []) (hmain : ∀ a ∈ main, a.WF) (hh : h.WF)
    (hattrs : ∀ a ∈ attrs, a.WF) :
    (toLower h.name ≠ attrName →
      parse (docText nl [main, h :: attrs]) wc = .error .entryNotNamed) ∧
    (toLower h.name = attrName →
      ∃ s, parse (docText nl [main, h :: attrs]) wc = .ok s ∧
        s.man.entries = [(h.value, attrsMap attrs)]) := by
  constructor
  · intro hname
    obtain ⟨fuel, _, hparse⟩ := parse_upto nl (docText nl [main, h :: attrs])
      (blockText nl (h :: attrs)) wc main [] (by simp [docText]) hne hmain (by simp)
      (by
        have : blockText nl (h :: attrs) = h.line nl ++ (linesOf nl attrs ++ nl.bytes) := by
          simp [blockText, linesOf]
        rw [this]
        exact stops_line nl 2 h hh _)
      (by simp)
    rw [hparse]
    exact entryLoop_notNamed nl _ (docText nl [main]) [] wc h attrs fuel _ _ (by simp [docText]) hh
      hname hattrs (by simp [Stops]) (by simp [stateAfter]) (by simp [stateAfter])
  · intro hname
    refine ⟨_, parse_doc nl wc main [h :: attrs] hne hmain ?_ (by simp), ?_⟩
    · intro b hb
      rw [List.mem_singleton] at hb
      rw [hb]
      exact ⟨hh, hname, hattrs⟩
    · simp only [stateAfter, entriesAfter, List.foldl_cons, List.foldl_nil, blockName,
        List.tail_cons]
      rw [storeEntry_absent [] h.value attrs rfl]
      rfl

theorem parse_first_header_of_entry_witness :
    parse (ascii "Manifest-Version: 1.0\n\nFoo: bar\n\n") true = .error .entryNotNamed ∧
    ∃ s, parse (ascii "Manifest-Version: 1.0\n\nNAME: a.txt\n\n") true = .ok s ∧
      s.man.entries = [(ascii "a.txt", [])] :=
  ⟨(parse_first_header_of_entry .lf true [⟨ascii "Manifest-Version", [ascii "1.0"]⟩]
      ⟨ascii "Foo", [ascii "bar"]⟩ [] (by decide) (by decide) (by decide) (by decide)).1
      (by decide),
    (parse_first_header_of_entry .lf true [⟨ascii "Manifest-Version", [ascii "1.0"]⟩]
      ⟨ascii "NAME", [ascii "a.txt"]⟩ [] (by decide) (by decide) (by decide) (by decide)).2
      (by decide)⟩

/-! ## Where a malformed header surfaces -/

theorem headerLoop_error (nl : LineBreak) (data A X : Bytes) (upd
    : manifest → Bytes → Bytes → manifest)
    (hs : List Header) (s : ParseState) (fuel : Nat) (e : ManifestError)
    (hdata : data = A ++ linesOf nl hs ++ X) (hwf : ∀ h ∈ hs, h.WF) (hX : Stops 1 X)
    (hread : ∀ (B : Bytes) (n : Nat), n ≤ 1 → data = B ++ X →
      readHeader data B.length n = .error e)
    (hpos : s.pos = A.length) (hn : s.consecutiveLineBreaks ≤ 1)
    (hfuel : hs.length + 1 ≤ fuel) :
    headerLoop data upd fuel s = .error e := by
  obtain ⟨f, rfl⟩ : ∃ f, fuel = hs.length + (f + 1) := ⟨fuel - (hs.length + 1), by omega⟩
  rw [headerLoop_lines nl data upd hs A X s (f + 1) hdata hwf hX hpos hn, headerLoop]
  simp only [← List.length_append]
  rw [hread (A ++ linesOf nl hs) _ (by split <;> omega) hdata]

theorem entryLoop_error (nl : LineBreak) (data A X : Bytes) (wc : Bool) (hs : List Header) (s
    : ParseState)
    (fuel mark : Nat) (e : ManifestError)
    (hdata : data = A ++ linesOf nl hs ++ X) (hwf : hs = [] ∨ EntryWF hs) (hX : Stops 1 X)
    (hread : ∀ (B : Bytes) (n : Nat), n ≤ 1 → data = B ++ X →
      readHeader data B.length n = .error e)
    (hpos : s.pos = A.length) (hn : s.consecutiveLineBreaks ≤ 1) :
    entryLoop data wc (fuel + 1) mark s = .error e := by
  cases hs with
  | nil =>
    rw [entryLoop, hpos, hread A _ hn (by simpa [linesOf] using hdata)]
  | cons nh attrs =>
    rcases hwf with h | h
    · exact absurd h (List.cons_ne_nil _ _)
    obtain ⟨hnh, hname, hattrs⟩ := h
    have hdata1 : data = A ++ nh.text nl ++ (lineBreaks nl 1 ++ (linesOf nl attrs ++ X)) := by
      rw [hdata]; simp [linesOf, Header.line]
    have hhead := readHeader_text nl data A (linesOf nl attrs ++ X) nh 1 s.consecutiveLineBreaks hnh
      hdata1 (le_refl _) (stops_linesOf nl 1 attrs hattrs X hX) hn
    have hdata2 : data = (A ++ nh.line nl) ++ linesOf nl attrs ++ X := by
      rw [hdata]; simp [linesOf]
    have hfuel : attrs.length + 1 ≤ data.length + 1 := by
      have := length_le_linesOf nl attrs
      rw [hdata2]
      simp only [List.length_append]
      omega
    rw [entryLoop, hpos, hhead]
    simp only [Bool.not_true, Bool.false_eq_true, if_false, hname, ne_eq, not_true_eq_false]
    rw [attrLoop_eq, headerLoop_error nl data
    (A ++ nh.line nl) X _ attrs _ _ e hdata2 hattrs hX hread
      (by simp [Header.line]; omega) (le_refl _) hfuel]

theorem parse_error_at (nl : LineBreak) (data X : Bytes) (wc : Bool) (blocks : List (List Header))
    (hs : List Header) (e : ManifestError)
    (hdata : data = docText nl blocks ++ linesOf nl hs ++ X) (hwf : ReadsUpTo wc blocks hs)
    (hX : ∀ n, Stops n X)
    (hread : ∀ (B : Bytes) (n : Nat), n ≤ 1 → data = B ++ X →
      readHeader data B.length n = .error e) :
    parse data wc = .error e := by
  cases blocks with
  | nil =>
    have hdata1 : data = [] ++ linesOf nl hs ++ X := by rw [hdata]; simp [docText]
    have hfuel : hs.length + 1 ≤ data.length + 1 := by
      have := length_le_linesOf nl hs
      rw [hdata1]
      simp only [List.length_append]
      omega
    unfold parse
    rw [mainLoop_eq, headerLoop_error nl data [] X _ hs _ _ e hdata1 hwf (hX 1) hread rfl
      (by simp [initialState]) hfuel]
  | cons main bs =>
    obtain ⟨hne, hmain, hbs, hnd, hhs⟩ := hwf
    have hdata1 : data = docText nl (main :: bs) ++ (linesOf nl hs ++ X) := by
      rw [hdata]; simp
    have hstop : Stops 2 (linesOf nl hs ++ X) := by
      rcases hhs with h | h
      · rw [h]; simpa [linesOf] using hX 2
      · cases hs with
        | nil => simpa [linesOf] using hX 2
        | cons nh attrs =>
          have : linesOf nl (nh :: attrs) ++ X = nh.line nl ++ (linesOf nl attrs ++ X) := by
            simp [linesOf]
          rw [this]
          exact stops_line nl 2 nh h.1 _
    obtain ⟨fuel, _, hparse⟩ := parse_upto nl data (linesOf nl hs ++ X) wc main bs hdata1 hne hmain
      hbs hstop hnd
    rw [hparse]
    exact entryLoop_error nl data (docText nl (main :: bs)) X wc hs _ fuel _ e hdata hhs
      (hX 1) hread (by simp [stateAfter]) (by simp [stateAfter])

/-! ## A NUL byte behind a well-formed header text -/

theorem scanValue_breaks_nul (data : Bytes) (nl : LineBreak) (m : Nat) (T : Bytes)
    (pos mark last : Nat) (lc : Bool) (n : Nat) (value : Bytes)
    (hlc : lc = true → nl = .cr) :
    scanValue data (lineBreaks nl m ++ 0 :: T) ⟨pos, mark, last, lc, n, value⟩ =
      .error .nulCharacter := by
  induction m generalizing pos lc n with
  | zero => simp [scanValue]
  | succ m ih =>
    rw [lineBreaks_succ, List.append_assoc, scanValue_break data nl _ _ _ _ _ _ _ hlc,
      ih _ _ _ (lastCr_ok nl)]

theorem stops_text (nl : LineBreak) (n : Nat) (h : Header) (hwf : h.WF) (X : Bytes) :
    Stops n (h.text nl ++ X) := by
  obtain ⟨c, rest, hc, hv⟩ := isValidName_cons h.name hwf.1
  obtain ⟨h0, h10, h13, h32⟩ := isValidNameByte_stops c hv
  simp only [Header.text, hc, List.cons_append, Stops]
  exact ⟨h0, h10, h13, fun h => absurd h h32⟩

theorem readHeader_text_nul (nl : LineBreak) (data A T : Bytes) (h : Header) (m n : Nat)
    (hwf : h.WF) (hdata : data = A ++ h.text nl ++ (lineBreaks nl m ++ 0 :: T)) (hn : n ≤ 1) :
    readHeader data A.length n = .error .nulCharacter := by
  obtain ⟨name, parts⟩ := h
  obtain ⟨hname, hne, hclean, hinner⟩ := hwf
  simp only at hname hne hclean hinner
  obtain ⟨p, ps, rfl⟩ := List.exists_cons_of_ne_nil hne
  simp only [Header.text] at hdata
  have hdata1 : data = A ++ name ++
      (58 :: 32 :: (foldParts nl (p :: ps) ++ (lineBreaks nl m ++ 0 :: T))) := by
    rw [hdata]; simp
  have hdrop : data.drop A.length = name ++
      58 :: (32 :: (foldParts nl (p :: ps) ++ (lineBreaks nl m ++ 0 :: T))) := by
    rw [hdata1, List.append_assoc, List.drop_left]
  have hslice : slice data A.length (A.length + name.length) = some name := by
    rw [hdata1]; exact slice_mid A name _
  have hindex : index data (A.length + name.length + 1) = some 32 := by
    have := index_mid (A ++ name ++ [58])
      (foldParts nl (p :: ps) ++ (lineBreaks nl m ++ 0 :: T)) 32
    rw [hdata1]
    simpa using this
  have hlen : ¬ (A.length + name.length + 1 > data.length) := by
    rw [hdata1]; simp; omega
  have hdata2 : data = (A ++ name ++ [58, 32]) ++ foldParts nl (p :: ps) ++
      (lineBreaks nl m ++ 0 :: T) := by
    rw [hdata1]; simp
  obtain ⟨mark', last', value', lc', hscan, hlc', _⟩ :=
    scanValue_folded data nl ps p (A ++ name ++ [58, 32]) (lineBreaks nl m ++ 0 :: T)
      (A ++ name ++ [58, 32]).length false [] hdata2 hclean (le_refl _) (by simp)
      (Or.inr ⟨rfl, hinner⟩)
  have hdrop2 : data.drop (A ++ name ++ [58, 32]).length =
      foldParts nl (p :: ps) ++ (lineBreaks nl m ++ 0 :: T) := by
    have h := List.drop_left (A ++ name ++ [58, 32])
      (foldParts nl (p :: ps) ++ (lineBreaks nl m ++ 0 :: T))
    rwa [← List.append_assoc (A ++ name ++ [58, 32]) (foldParts nl (p :: ps)), ← hdata2] at h
  have hval : readValue data (toLower name) (A ++ name ++ [58, 32]).length =
      .error .nulCharacter := by
    unfold readValue
    rw [hdrop2, hscan, scanValue_breaks_nul data nl m T _ _ _ _ _ _ hlc']
  have e1 : (A ++ name ++ [58, 32]).length = A.length + name.length + 2 := by
    simp only [List.length_append, List.length_cons, List.length_nil]
  unfold readHeader
  rw [if_neg (by omega), hdrop, scanName_found _ _ _ (isValidName_no_colon _ hname)]
  simp only [hslice, if_neg hlen, hindex]
  rw [if_neg (by simp), hname]
  simp only [Bool.not_true, Bool.false_eq_true, if_false]
  rw [← e1, hval]

theorem parse_nul_after (nl : LineBreak) (data T : Bytes) (wc : Bool) (blocks : List (List Header))
    (hs : List Header) (h : Header) (m : Nat)
    (hdata : data = docText nl blocks ++ linesOf nl hs ++ (h.text nl ++ (lineBreaks nl m ++ 0
    :: T)))
    (hwf : ReadsUpTo wc blocks hs) (hh : h.WF) :
    parse data wc = .error .nulCharacter := by
  apply parse_error_at nl data _ wc blocks hs _ hdata hwf (fun n => stops_text nl n h hh _)
  intro B n hn hB
  exact readHeader_text_nul nl data B T h m n hh (by rw [hB]; simp) hn

/-! ## Well-formed manifests with one header singled out -/

theorem readsUpTo_of_wellFormed (wc : Bool) (preB : List (List Header)) (hsB : List Header)
    (h : Header) (hsA : List Header) (postB : List (List Header))
    (hwf : WellFormed wc (preB ++ (hsB ++ h :: hsA) :: postB)) :
    ReadsUpTo wc preB hsB ∧ h.WF := by
  obtain ⟨hdoc, hnd⟩ := hwf
  cases preB with
  | nil =>
    obtain ⟨_, hmain, _⟩ := hdoc
    exact ⟨fun a ha => hmain a (List.mem_append_left _ ha),
      hmain h (List.mem_append_right _ (List.mem_cons_self _ _))⟩
  | cons main bs =>
    obtain ⟨hne, hmain, hbs⟩ := hdoc
    have hblk : EntryWF (hsB ++ h :: hsA) :=
      hbs _ (List.mem_append_right _ (List.mem_cons_self _ _))
    have hnd' : wc = true → (bs.map blockName).Nodup := by
      intro hw
      have := hnd hw
      simp only [List.cons_append, List.tail_cons, List.map_append] at this
      exact (List.nodup_append.mp this).1
    refine ⟨⟨hne, hmain, fun b hb => hbs b (List.mem_append_left _ hb), hnd', ?_⟩, ?_⟩
    · cases hsB with
      | nil => exact Or.inl rfl
      | cons nh attrs =>
        right
        exact ⟨hblk.1, hblk.2.1, fun a ha => hblk.2.2 a (List.mem_append_left _ ha)⟩
    · cases hsB with
      | nil => exact hblk.1
      | cons nh attrs =>
        exact hblk.2.2 h (List.mem_append_right _ (List.mem_cons_self _ _))

theorem docText_split (nl : LineBreak) (preB : List (List Header)) (hsB : List Header) (h : Header)
    (hsA : List Header) (postB : List (List Header)) :
    docText nl (preB ++ (hsB ++ h :: hsA) :: postB) =
      docText nl preB ++ linesOf nl hsB ++ (h.text nl ++ nl.bytes ++
    (linesOf nl hsA ++ nl.bytes ++ docText nl postB)) := by
  simp [docText, blockText, linesOf, Header.line]

theorem foldParts_cons (nl : LineBreak) (b : Bytes) (l : List Bytes) (hl : l ≠ []) :
    foldParts nl (b :: l) = b ++ nl.bytes ++ 32 :: foldParts nl l := by
  obtain ⟨q, r, rfl⟩ := List.exists_cons_of_ne_nil hl
  rfl

theorem foldParts_split (nl : LineBreak) (psB : List Bytes) (pa pb : Bytes) (c : Nat) (psA
    : List Bytes) :
    ∃ T, foldParts nl (psB ++ (pa ++ c :: pb) :: psA) = foldParts nl (psB ++ [pa]) ++ c :: T := by
  induction psB with
  | nil =>
    cases psA with
    | nil => exact ⟨pb, by simp [foldParts]⟩
    | cons q r => exact ⟨pb ++ nl.bytes ++ 32 :: foldParts nl (q :: r), by simp [foldParts]⟩
  | cons b psB ih =>
    obtain ⟨T, hT⟩ := ih
    refine ⟨T, ?_⟩
    rw [List.cons_append, List.cons_append, foldParts_cons nl _ _ (by simp),
      foldParts_cons nl _ _ (by simp), hT]
    simp

theorem innerNonempty_cons (a : Bytes) (l : List Bytes) (hl : l ≠ []) :
    InnerNonempty (a :: l) ↔ a ≠ [] ∧ InnerNonempty l := by
  obtain ⟨q, r, rfl⟩ := List.exists_cons_of_ne_nil hl
  rfl

theorem innerNonempty_init (xs : List Bytes) (x y : Bytes) (ys : List Bytes)
    (h : InnerNonempty (xs ++ x :: ys)) : InnerNonempty (xs ++ [y]) := by
  induction xs with
  | nil => simp [InnerNonempty]
  | cons a xs ih =>
    rw [List.cons_append, innerNonempty_cons _ _ (by simp)] at h ⊢
    exact ⟨h.1, ih h.2⟩

/-- The header whose value ends where a byte was inserted into a part. -/
theorem cut_WF (name : Bytes) (psB : List Bytes) (pa pb : Bytes) (psA : List Bytes)
    (h : (Header.mk name (psB ++ (pa ++ pb) :: psA)).WF) :
    (Header.mk name (psB ++ [pa])).WF := by
  obtain ⟨hname, _, hclean, hinner⟩ := h
  simp only at hname hclean hinner
  refine ⟨hname, by simp, ?_, ?_⟩
  · intro q hq
    simp only [List.mem_append, List.mem_singleton] at hq
    rcases hq with hq | hq
    · exact hclean q (List.mem_append_left _ hq)
    · have := hclean (pa ++ pb) (List.mem_append_right _ (List.mem_cons_self _ _))
      rw [hq]
      exact fun c hc => this c (List.mem_append_left _ hc)
  · cases psB with
    | nil => simp [InnerNonempty]
    | cons b psB =>
      simp only [List.cons_append, List.tail_cons] at hinner ⊢
      exact innerNonempty_init psB _ pa psA hinner

/-- Claim C7. In a well-formed manifest (written with LF, CR LF or CR line breaks) take
any header (of the main block or of an entry block, the `name` header included), any part
of its value (first line or continuation line) and any position in that part: with a NUL
byte inserted there, `parse` returns the error `NUL character in manifest`. -/
theorem parse_nul_in_value (nl : LineBreak) (wc : Bool) (preB : List (List Header)) (hsB
    : List Header)
    (name : Bytes) (psB : List Bytes) (pa pb : Bytes) (psA : List Bytes) (hsA : List Header)
    (postB : List (List Header))
    (hwf : WellFormed wc
      (preB ++ (hsB ++ ⟨name, psB ++ (pa ++ pb) :: psA⟩ :: hsA) :: postB)) :
    parse (docText nl (preB ++ (hsB ++ ⟨name, psB ++ (pa ++ 0 :: pb) :: psA⟩ :: hsA) :: postB)) wc =
      .error .nulCharacter := by
  obtain ⟨hreads, hh⟩ := readsUpTo_of_wellFormed wc preB hsB _ hsA postB hwf
  obtain ⟨T, hT⟩ := foldParts_split nl psB pa pb 0 psA
  apply parse_nul_after nl _ (T ++ nl.bytes ++ (linesOf nl hsA ++ nl.bytes ++ docText nl postB)) wc preB hsB
    ⟨name, psB ++ [pa]⟩ 0 ?_ hreads (cut_WF name psB pa pb psA hh)
  rw [docText_split]
  simp [Header.text, hT]

theorem parse_nul_in_value_witness :
    parse (ascii
      "Manifest-Version: 1.0\r\n\r\nName: a.txt\r\nSHA-256-Digest: AA\r\n A\x00A\r\n\r\n")
      true = .error .nulCharacter :=
  parse_nul_in_value .crlf true [[⟨ascii "Manifest-Version", [ascii "1.0"]⟩]]
    [⟨ascii "Name", [ascii "a.txt"]⟩] (ascii "SHA-256-Digest") [ascii "AA"] (ascii "A")
    (ascii "A") [] [] [] (by decide)

theorem readHeader_bad_name (data A s T : Bytes) (n : Nat)
    (hdata : data = A ++ s ++ 58 :: 32 :: T) (hs : ∀ d ∈ s, d ≠ 58)
    (hbad : isValidName s = false) (hn : n ≤ 1) :
    readHeader data A.length n = .error (.invalidAttributeName s) := by
  have hdrop : data.drop A.length = s ++ 58 :: (32 :: T) := by
    rw [hdata, List.append_assoc, List.drop_left]
  have hslice : slice data A.length (A.length + s.length) = some s := by
    rw [hdata]; exact slice_mid A s _
  have hindex : index data (A.length + s.length + 1) = some 32 := by
    have := index_mid (A ++ s ++ [58]) T 32
    rw [hdata]
    simpa using this
  have hlen : ¬ (A.length + s.length + 1 > data.length) := by
    rw [hdata]; simp; omega
  unfold readHeader
  rw [if_neg (by omega), hdrop, scanName_found _ _ _ hs]
  simp only [hslice, if_neg hlen, hindex]
  rw [if_neg (by simp), hbad]
  rfl

theorem exists_concat_of_ne_nil {α : Type} (l : List α) (h : l ≠ []) :
    ∃ init last, l = init ++ [last] :=
  ⟨l.dropLast, l.getLast h, (List.dropLast_append_getLast h).symm⟩

/-- An invalid name in a manifest written with one line break throughout. In a
well-formed manifest (written with LF, CR LF or CR line breaks) replace the name of any header (main block or entry block, first header or not) by a
non-empty string `s` without `:`, CR and LF that does not start with a space and fails
`isValidName`: `parse` returns an error, namely `Invalid attribute name in manifest` for
`s`, or `NUL character in manifest` when `s` starts with a NUL byte that the header in
front of it runs into. -/
theorem parse_invalid_name (nl : LineBreak) (wc : Bool) (preB : List (List Header)) (hsB
    : List Header)
    (h : Header) (hsA : List Header) (postB : List (List Header)) (s : Bytes)
    (hwf : WellFormed wc (preB ++ (hsB ++ h :: hsA) :: postB))
    (hne : s ≠ []) (hchars : ∀ c ∈ s, c ≠ 58 ∧ c ≠ 13 ∧ c ≠ 10)
    (hspace : s.head? ≠ some 32) (hbad : isValidName s = false) :
    parse (docText nl (preB ++ (hsB ++ ⟨s, h.parts⟩ :: hsA) :: postB)) wc =
        .error (.invalidAttributeName s) ∨
    parse (docText nl (preB ++ (hsB ++ ⟨s, h.parts⟩ :: hsA) :: postB)) wc =
        .error .nulCharacter := by
  have hcolon : ∀ d ∈ s, d ≠ 58 := fun d hd => (hchars d hd).1
  obtain ⟨c, s', rfl⟩ := List.exists_cons_of_ne_nil hne
  have hc := hchars c (List.mem_cons_self _ _)
  have hc32 : c ≠ 32 := by
    intro h32
    apply hspace
    simp [h32]
  obtain ⟨T, hT⟩ : ∃ T, T = foldParts nl h.parts ++ nl.bytes ++ (linesOf nl hsA ++ nl.bytes ++ docText nl postB) :=
    ⟨_, rfl⟩
  have htext : docText nl (preB ++ (hsB ++ ⟨c :: s', h.parts⟩ :: hsA) :: postB) =
      docText nl preB ++ linesOf nl hsB ++ ((c :: s') ++ 58 :: 32 :: T) := by
    rw [docText_split, hT]
    simp [Header.text]
  by_cases hc0 : c = 0
  · -- the name starts with NUL: the header in front of it, if any, fails on that byte
    subst hc0
    rcases List.eq_nil_or_concat hsB with hB | ⟨hsB', prev, hB⟩
    · subst hB
      rcases List.eq_nil_or_concat preB with hP | ⟨preB', blk, hP⟩
      · subst hP
        left
        have htext' : docText nl ([] ++ ([] ++ ⟨0 :: s', h.parts⟩ :: hsA) :: postB) =
            [] ++ (0 :: s') ++ 58 :: 32 :: T := by
          rw [htext]; simp [docText, linesOf]
        have hread := readHeader_bad_name _ [] (0 :: s') T 0 htext' hcolon hbad (by omega)
        unfold parse
        rw [mainLoop]
        simp only [initialState]
        simp only [List.length_nil] at hread
        rw [hread]
      · right
        simp only [List.concat_eq_append] at hP
        subst hP
        have hblk : blk ≠ [] := by
          obtain ⟨hdoc, _⟩ := hwf
          cases preB' with
          | nil => exact hdoc.1
          | cons main bs =>
            have hb : EntryWF blk := hdoc.2.2 blk (by simp)
            intro hnil
            rw [hnil] at hb
            exact hb
        obtain ⟨hs, prev, rfl⟩ := exists_concat_of_ne_nil blk hblk
        have hwf' : WellFormed wc (preB' ++ (hs ++ prev :: []) :: ((h :: hsA) :: postB)) := by
          simpa using hwf
        obtain ⟨hreads, hprev⟩ := readsUpTo_of_wellFormed wc preB' hs prev [] _ hwf'
        apply parse_nul_after nl _ (s' ++ 58 :: 32 :: T) wc preB' hs prev 2 ?_ hreads hprev
        rw [htext]
        simp [docText, blockText, linesOf, Header.line, List.replicate]
    · right
      simp only [List.concat_eq_append] at hB
      subst hB
      have hwf' : WellFormed wc (preB ++ (hsB' ++ prev :: (h :: hsA)) :: postB) := by
        simpa using hwf
      obtain ⟨hreads, hprev⟩ := readsUpTo_of_wellFormed wc preB hsB' prev _ postB hwf'
      apply parse_nul_after nl _ (s' ++ 58 :: 32 :: T) wc preB hsB' prev 1 ?_ hreads hprev
      rw [htext]
      simp [linesOf, Header.line, List.replicate]
  · left
    obtain ⟨hreads, _⟩ := readsUpTo_of_wellFormed wc preB hsB h hsA postB hwf
    apply parse_error_at nl _ _ wc preB hsB _ htext hreads
    · intro n
      exact ⟨hc0, hc.2.2, hc.2.1, fun h32 => absurd h32 hc32⟩
    · intro B n hn hB
      exact readHeader_bad_name _ B (c :: s') T n (by rw [hB]; simp) hcolon hbad hn

theorem parse_invalid_name_witness :
    parse (ascii "Manifest-Version: 1.0\r\rName: a.txt\rbad name: AAAA\r\r") true =
        .error (.invalidAttributeName (ascii "bad name")) ∨
    parse (ascii "Manifest-Version: 1.0\r\rName: a.txt\rbad name: AAAA\r\r") true =
        .error .nulCharacter :=
  parse_invalid_name .cr true [[⟨ascii "Manifest-Version", [ascii "1.0"]⟩]]
    [⟨ascii "Name", [ascii "a.txt"]⟩] ⟨ascii "SHA-256-Digest", [ascii "AAAA"]⟩ [] []
    (ascii "bad name") (by decide) (by decide) (by decide) (by decide) (by decide)

theorem isValidNameByte_iff (c : Nat) :
    isValidNameByte c = true ↔ (isLetter c ∨ isDigit c ∨ c = 45 ∨ c = 95) := by
  simp only [isValidNameByte, isLetter, isDigit, Bool.or_eq_true, Bool.and_eq_true,
    decide_eq_true_eq, beq_iff_eq]
  omega

/-- Claim C5. `isValidName name` holds exactly when `name` has between 1 and 70 bytes,
each an ASCII letter, an ASCII digit, `-` or `_`; `Digest-SHA` is accepted, `bad name` is
rejected, and so is every name of 71 bytes or more. -/
theorem isValidName_iff :
    (∀ name : Bytes, isValidName name = true ↔
      (1 ≤ name.length ∧ name.length ≤ 70 ∧
        ∀ c ∈ name, isLetter c ∨ isDigit c ∨ c = 45 ∨ c = 95)) ∧
    isValidName (ascii "Digest-SHA") = true ∧
    isValidName (ascii "bad name") = false ∧
    (∀ name : Bytes, 71 ≤ name.length → isValidName name = false) := by
  have key : ∀ name : Bytes, isValidName name = true ↔
      (1 ≤ name.length ∧ name.length ≤ 70 ∧
        ∀ c ∈ name, isLetter c ∨ isDigit c ∨ c = 45 ∨ c = 95) := by
    intro name
    unfold isValidName
    split
    · next h => simp only [Bool.false_eq_true, false_iff]; omega
    · next h =>
      rw [List.all_eq_true]
      simp only [isValidNameByte_iff]
      constructor
      · intro hall; exact ⟨by omega, by omega, hall⟩
      · intro hall; exact hall.2.2
  refine ⟨key, by decide, by decide, ?_⟩
  intro name hlen
  cases hv : isValidName name with
  | false => rfl
  | true => have := (key name).mp hv; omega

theorem readHeader_bad_separator (data A N rest : Bytes) (c n : Nat)
    (hdata : data = A ++ N ++ 58 :: c :: rest) (hN : ∀ d ∈ N, d ≠ 58) (hc : c ≠ 32)
    (hn : n ≤ 1) :
    readHeader data A.length n = .error (.invalidHeaderStructure N) := by
  have hdrop : data.drop A.length = N ++ 58 :: (c :: rest) := by
    rw [hdata, List.append_assoc, List.drop_left]
  have hslice : slice data A.length (A.length + N.length) = some N := by
    rw [hdata]; exact slice_mid A N _
  have hindex : index data (A.length + N.length + 1) = some c := by
    have := index_mid (A ++ N ++ [58]) rest c
    rw [hdata]
    simpa using this
  have hlen : ¬ (A.length + N.length + 1 > data.length) := by
    rw [hdata]; simp; omega
  unfold readHeader
  rw [if_neg (by omega), hdrop, scanName_found _ _ _ hN]
  simp only [hslice, if_neg hlen, hindex]
  rw [if_pos hc]

/-- Claim C10. The separator must be `": "`: for a valid name `N`, a byte `c` other than
the space and any bytes `rest`, `parse` of `N ++ ":" ++ [c] ++ rest` returns the error
`Invalid header structure` for `N`. -/
theorem parse_bad_separator (N rest : Bytes) (c : Nat) (withChunks : Bool)
    (hN : isValidName N = true) (hc : c ≠ 32) :
    parse (N ++ 58 :: c :: rest) withChunks = .error (.invalidHeaderStructure N) := by
  have hread := readHeader_bad_separator (N ++ 58 :: c :: rest) [] N rest c 0 rfl
    (isValidName_no_colon N hN) hc (by omega)
  unfold parse
  rw [mainLoop]
  simp only [initialState]
  simp only [List.length_nil] at hread
  rw [hread]

theorem parse_bad_separator_witness :
    parse (ascii "A:x") true = .error (.invalidHeaderStructure (ascii "A")) :=
  parse_bad_separator (ascii "A") [] 120 true (by decide) (by decide)

/-- Claim C2, at the input `A:`. The colon is the last byte of the buffer, the guard
`ctx.pos+1 > len(ctx.data)` of `readHeader` does not fire, and `ctx.data[ctx.pos+1]`
indexes the buffer out of range: `parse` panics instead of returning
`Invalid header structure`. -/
theorem parse_colon_last_byte_panics :
    parse (ascii "A:") true = .panic ∧ parse (ascii "A:") false = .panic := by
  decide

/-- Claim C4, at the input `"A: x\n \n y\n"` (the parts `x`, the empty part and `y`).
At the second continuation space `mark` is behind `last`, the slice `ctx.data[mark:last]`
is out of range and `parse` panics instead of storing `xy`. The witness of the claim,
`"A: first part\n second part\n"`, is read as `first partsecond part`. -/
theorem parse_empty_continuation_panics :
    parse (ascii "A: x\n \n y\n") true = .panic ∧
    parse (ascii "A: x\n \n y\n") false = .panic ∧
    parse (ascii "A: first part\n second part\n") true =
      .ok ⟨27, 0, ⟨ascii "A: first part\n second part\n",
        [(ascii "a", ascii "first partsecond part")], [], [], 27⟩⟩ := by
  decide

/-! ## Positions only move forward, and stay inside the buffer -/

theorem scanName_bounds (rest : Bytes) (pos : Nat) :
    pos ≤ (scanName rest pos).1 ∧ (scanName rest pos).1 ≤ pos + rest.length ∧
      ((scanName rest pos).2 = true → (scanName rest pos).1 < pos + rest.length) := by
  induction rest generalizing pos with
  | nil => simp [scanName]
  | cons c rest ih =>
    rw [scanName]
    split
    · simp
    · have := ih (pos + 1)
      simp only [List.length_cons]
      refine ⟨by omega, by omega, fun h => ?_⟩
      have := this.2.2 h
      omega

theorem scanValue_pos (data rest : Bytes) (st st' : ValueScan)
    (h : scanValue data rest st = .ok st') :
    st.pos ≤ st'.pos ∧ st'.pos ≤ st.pos + rest.length := by
  induction rest generalizing st with
  | nil =>
    simp only [scanValue, Outcome.ok.injEq] at h
    subst h
    simp
  | cons next rest ih =>
    rw [scanValue] at h
    simp only [List.length_cons]
    split_ifs at h with h0 h10 hcr h13 hsp hge
    · have := ih _ h
      simp only at this
      omega
    · have := ih _ h
      simp only at this
      omega
    · have := ih _ h
      simp only at this
      omega
    · split at h
      · exact absurd h (by simp)
      · have := ih _ h
        simp only at this
        omega
    · simp only [Outcome.ok.injEq] at h
      subst h
      simp
    · have := ih _ h
      simp only at this
      omega

theorem readValue_pos (data name : Bytes) (pos : Nat) (h : HeaderRead)
    (hr : readValue data name pos = .ok h) (hpos : pos ≤ data.length) :
    pos ≤ h.pos ∧ h.pos ≤ data.length := by
  unfold readValue at hr
  split at hr
  · next st hst =>
    have hb := scanValue_pos _ _ _ _ hst
    simp only [List.length_drop] at hb
    split at hr
    · split at hr
      · exact absurd hr (by simp)
      · simp only [Outcome.ok.injEq] at hr
        subst hr
        simp only
        omega
    · simp only [Outcome.ok.injEq] at hr
      subst hr
      simp only
      omega
  · exact absurd hr (by simp)
  · exact absurd hr (by simp)
  · exact absurd hr (by simp)

theorem readHeader_pos (data : Bytes) (pos n : Nat) (h : HeaderRead)
    (hr : readHeader data pos n = .ok h) (hpos : pos ≤ data.length) :
    pos ≤ h.pos ∧ h.pos ≤ data.length := by
  unfold readHeader at hr
  split at hr
  · simp only [Outcome.ok.injEq] at hr
    subst hr
    simp [hpos]
  · have hb := scanName_bounds (data.drop pos) pos
    simp only [List.length_drop] at hb
    split at hr
    · next p hp =>
      rw [hp] at hb
      simp only [true_implies] at hb
      split at hr
      · exact absurd hr (by simp)
      · split at hr
        · exact absurd hr (by simp)
        · split at hr
          · exact absurd hr (by simp)
          · next c hc =>
            have hlt : p + 1 < data.length := by
              unfold index at hc
              rw [List.get?_eq_some] at hc
              exact hc.1
            split at hr
            · exact absurd hr (by simp)
            · split at hr
              · exact absurd hr (by simp)
              · have := readValue_pos _ _ _ _ hr (by omega)
                omega
    · next p hp =>
      rw [hp] at hb
      have := readValue_pos _ _ _ _ hr (by omega)
      omega

theorem headerLoop_inv (data : Bytes) (upd : manifest → Bytes → Bytes → manifest)
    (hupd : KeepsChunks upd) (fuel : Nat) (s s' : ParseState)
    (h : headerLoop data upd fuel s = .ok s') (hpos : s.pos ≤ data.length) :
    s.pos ≤ s'.pos ∧ s'.pos ≤ data.length ∧ s'.man.chunks = s.man.chunks ∧
      s'.man.mainAttributtesEnd = s.man.mainAttributtesEnd ∧
      s'.man.rawData = s.man.rawData := by
  induction fuel generalizing s with
  | zero => exact absurd h (by simp [headerLoop])
  | succ fuel ih =>
    rw [headerLoop] at h
    split at h
    · next hd hread =>
      have hb := readHeader_pos _ _ _ _ hread hpos
      split at h
      · simp only [Outcome.ok.injEq] at h
        subst h
        simp only [and_self, and_true]
        exact hb
      · have := ih _ h hb.2
        simp only at this
        obtain ⟨h1, h2, h3⟩ := hupd s.man hd.name hd.value
        refine ⟨by omega, this.2.1, ?_, ?_, ?_⟩
        · rw [this.2.2.1, h1]
        · rw [this.2.2.2.1, h2]
        · rw [this.2.2.2.2, h3]
    · exact absurd h (by simp)
    · exact absurd h (by simp)
    · exact absurd h (by simp)

theorem chunksAt_append (data : Bytes) (cs : List Bytes) (start mark p : Nat) (c : Bytes)
    (h : ChunksAt data start cs mark) (hc : slice data mark p = some c) :
    ChunksAt data start (cs ++ [c]) p := by
  have hlen : mark + c.length = p := by
    unfold slice at hc
    split at hc
    · next hb =>
      simp only [Option.some.injEq] at hc
      rw [← hc, List.length_take, List.length_drop]
      omega
    · exact absurd hc (by simp)
  induction cs generalizing start with
  | nil =>
    simp only [ChunksAt] at h
    subst h
    simp only [List.nil_append, ChunksAt, hlen, hc, and_self]
  | cons d cs ih =>
    exact ⟨h.1, ih _ h.2⟩

theorem chunksAt_flatten (data : Bytes) (cs : List Bytes) (start p : Nat)
    (h : ChunksAt data start cs p) (hstart : start ≤ data.length) :
    start ≤ p ∧ p ≤ data.length ∧ cs.flatten = (data.drop start).take (p - start) := by
  induction cs generalizing start with
  | nil =>
    simp only [ChunksAt] at h
    subst h
    simp [hstart]
  | cons c cs ih =>
    obtain ⟨hc, hrest⟩ := h
    have hb : start + c.length ≤ data.length ∧
        c = (data.drop start).take c.length := by
      unfold slice at hc
      split at hc
      · next hb =>
        simp only [Option.some.injEq] at hc
        refine ⟨hb.2, ?_⟩
        rw [← hc, List.length_take, List.length_drop]
        congr 1
        omega
      · exact absurd hc (by simp)
    obtain ⟨h1, h2, h3⟩ := ih _ hrest hb.1
    refine ⟨by omega, h2, ?_⟩
    have e1 : data.drop (start + c.length) = (data.drop start).drop c.length := by
      rw [List.drop_drop, Nat.add_comm]
    have e2 : p - start = c.length + (p - (start + c.length)) := by omega
    rw [List.flatten_cons, h3, e1, e2, List.take_add]
    congr 1
    exact hb.2

theorem entryLoop_chunks (data : Bytes) (fuel : Nat) (mark start : Nat) (s s' : ParseState)
    (h : entryLoop data true fuel mark s = .ok s')
    (hchunks : ChunksAt data start (s.man.chunks.map Prod.snd) mark)
    (hmark : mark ≤ s.pos) (hpos : s.pos ≤ data.length) :
    (∃ p, ChunksAt data start (s'.man.chunks.map Prod.snd) p) ∧
      s'.man.mainAttributtesEnd = s.man.mainAttributtesEnd ∧
      s'.man.rawData = s.man.rawData := by
  induction fuel generalizing mark s with
  | zero => exact absurd h (by simp [entryLoop])
  | succ fuel ih =>
    rw [entryLoop] at h
    split at h
    · next hd hread =>
      have hb := readHeader_pos _ _ _ _ hread hpos
      split at h
      · simp only [Outcome.ok.injEq] at h
        subst h
        exact ⟨⟨mark, hchunks⟩, rfl, rfl⟩
      · split at h
        · exact absurd h (by simp)
        · simp only at h
          split at h
          · next s1 hattr =>
            rw [attrLoop_eq] at hattr
            have hinv := headerLoop_inv data (updEntry hd.value) (fun _ _ _ => ⟨rfl, rfl, rfl⟩)
              _ _ _ hattr hb.2
            simp only at hinv
            obtain ⟨hp1, hp2, hc1, he1, hr1⟩ := hinv
            simp only [if_true] at h
            split at h
            · exact absurd h (by simp)
            · next hfresh =>
              split at h
              · exact absurd h (by simp)
              · next chunk hslice =>
                have := ih _ _ h (by
                  simp only
                  rw [mapSet_absent _ _ _ hfresh, List.map_append, hc1]
                  exact chunksAt_append data _ start mark s1.pos chunk hchunks hslice)
                  (le_refl _) hp2
                simp only at this
                exact ⟨this.1, this.2.1.trans he1, this.2.2.trans hr1⟩
          · exact absurd h (by simp)
          · exact absurd h (by simp)
          · exact absurd h (by simp)
    · exact absurd h (by simp)
    · exact absurd h (by simp)
    · exact absurd h (by simp)

/-- Claim C3. When `parse` with `withChunks = true` succeeds, the chunks, in the order in
which their blocks appear, are consecutive slices of `rawData`: the first starts at
`mainAttributtesEnd`, each later one where the one before it ended, and their
concatenation is `rawData[mainAttributtesEnd : p]` for a `p` with
`mainAttributtesEnd ≤ p ≤ len(rawData)`. -/
theorem parse_chunks_contiguous (data : Bytes) (s : ParseState)
    (h : parse data true = .ok s) :
    s.man.rawData = data ∧
    ∃ p, s.man.mainAttributtesEnd ≤ p ∧ p ≤ data.length ∧
      ChunksAt data s.man.mainAttributtesEnd (s.man.chunks.map Prod.snd) p ∧
      (s.man.chunks.map Prod.snd).flatten =
        (data.drop s.man.mainAttributtesEnd).take (p - s.man.mainAttributtesEnd) := by
  unfold parse at h
  split at h
  · next s0 hmain =>
    rw [mainLoop_eq] at hmain
    have hinv := headerLoop_inv data updMain (fun _ _ _ => ⟨rfl, rfl, rfl⟩) _ _ _ hmain
      (by simp [initialState])
    obtain ⟨_, hp0, hc0, _, hr0⟩ := hinv
    have hres := entryLoop_chunks data _ s0.pos s0.pos _ s h
      (by simp only [hc0, initialState, List.map_nil, ChunksAt]) (le_refl _) hp0
    simp only at hres
    obtain ⟨⟨p, hp⟩, hend, hraw⟩ := hres
    refine ⟨by rw [hraw, hr0]; rfl, p, ?_⟩
    rw [hend]
    have := chunksAt_flatten data _ _ p hp hp0
    exact ⟨this.1, this.2.1, hp, this.2.2⟩
  · exact absurd h (by simp)
  · exact absurd h (by simp)
  · exact absurd h (by simp)

theorem parse_chunks_contiguous_witness :
    (ParseState.mk 29 0
      ⟨ascii "M: 1\n\nName: a\nX: 1\n\nName: b\n\n", [(ascii "m", ascii "1")],
        [(ascii "a", [(ascii "x", ascii "1")]), (ascii "b", [])],
        [(ascii "a", ascii "Name: a\nX: 1\n\n"), (ascii "b", ascii "Name: b\n\n")], 6⟩).man.rawData =
      ascii "M: 1\n\nName: a\nX: 1\n\nName: b\n\n" ∧
    ∃ p, 6 ≤ p ∧ p ≤ 29 ∧
      ChunksAt (ascii "M: 1\n\nName: a\nX: 1\n\nName: b\n\n") 6
        [ascii "Name: a\nX: 1\n\n", ascii "Name: b\n\n"] p ∧
      [ascii "Name: a\nX: 1\n\n", ascii "Name: b\n\n"].flatten =
        ((ascii "M: 1\n\nName: a\nX: 1\n\nName: b\n\n").drop 6).take (p - 6) :=
  parse_chunks_contiguous (ascii "M: 1\n\nName: a\nX: 1\n\nName: b\n\n")
    ⟨29, 0,
      ⟨ascii "M: 1\n\nName: a\nX: 1\n\nName: b\n\n", [(ascii "m", ascii "1")],
        [(ascii "a", [(ascii "x", ascii "1")]), (ascii "b", [])],
        [(ascii "a", ascii "Name: a\nX: 1\n\n"), (ascii "b", ascii "Name: b\n\n")], 6⟩⟩
    (by decide)

/-! ## A folded header alone in the buffer, and a colon at the end of the buffer -/

/-- Folding on a buffer that holds one header: when no continuation line before the last
one is empty, the parts are glued together without the line break and the space. -/
theorem parse_folded_value (nl : LineBreak) (h : Header) (wc : Bool) (hwf : h.WF) :
    parse (h.line nl) wc =
      .ok ⟨(h.line nl).length, 0,
        ⟨h.line nl, [(toLower h.name, h.value)], [], [], (h.line nl).length⟩⟩ := by
  have hdata : h.line nl = [] ++ h.text nl ++ (lineBreaks nl 1 ++ []) := by
    simp [Header.line]
  have hread := readHeader_text nl (h.line nl) [] [] h 1 0 hwf hdata (le_refl _)
    (by simp [Stops]) (by omega)
  have hlen : 0 + (h.text nl).length + (lineBreaks nl 1).length = (h.line nl).length := by
    simp [Header.line]
  simp only [List.length_nil] at hread
  rw [hlen] at hread
  have hfuel : (h.line nl).length + 1 = ((h.line nl).length - 1) + 1 + 1 := by
    have := bytes_length_pos nl
    have : 1 ≤ (h.line nl).length := by
      simp only [Header.line, List.length_append]
      omega
    omega
  unfold parse
  rw [hfuel, mainLoop]
  simp only [initialState, hread, Bool.not_true, Bool.false_eq_true, if_false]
  rw [mainLoop]
  simp only [readHeader_atEnd (h.line nl) 1 (le_refl _), Bool.not_false, if_true]
  rw [entryLoop_atEnd _ _ _ _ _ rfl (by simp)]
  rfl

/-- A valid name followed by a colon that is the last byte of the buffer: `readHeader`
indexes one byte behind the buffer. -/
theorem parse_name_colon_panics (N : Bytes) (wc : Bool) (hN : isValidName N = true) :
    parse (N ++ [58]) wc = .panic := by
  have hscan : scanName (N ++ [58]) 0 = (N.length, true) := by
    have := scanName_found N [] 0 (isValidName_no_colon N hN)
    simpa using this
  have hslice : slice (N ++ [58]) 0 N.length = some N := by
    have := slice_mid [] N [58]
    simpa using this
  have hindex : index (N ++ [58]) (N.length + 1) = none := by
    unfold index
    rw [List.get?_eq_none]
    simp
  have hread : readHeader (N ++ [58]) 0 0 = .panic := by
    unfold readHeader
    rw [if_neg (by omega), List.drop_zero, hscan]
    simp only [hslice, hindex]
    rw [if_neg (by simp)]
  unfold parse
  rw [mainLoop]
  simp only [initialState, hread]

/-! ## What a successful iteration of a loop of `parse` did -/

theorem scanName_not_found (rest : Bytes) (pos : Nat) (h : (scanName rest pos).2 = false) :
    (scanName rest pos).1 = pos + rest.length := by
  induction rest generalizing pos with
  | nil => simp [scanName]
  | cons c rest ih =>
    rw [scanName] at h ⊢
    split
    · next hc => rw [if_pos hc] at h; exact absurd h (by simp)
    · next hc =>
      rw [if_neg hc] at h
      rw [ih _ h, List.length_cons]
      omega

theorem readValue_name (data name : Bytes) (pos : Nat) (h : HeaderRead)
    (hr : readValue data name pos = .ok h) : h.name = name := by
  unfold readValue at hr
  split at hr
  · split at hr
    · split at hr
      · exact absurd hr (by simp)
      · simp only [Outcome.ok.injEq] at hr
        rw [← hr]
    · simp only [Outcome.ok.injEq] at hr
      rw [← hr]
  · exact absurd hr (by simp)
  · exact absurd hr (by simp)
  · exact absurd hr (by simp)

theorem readValue_atEnd (data name : Bytes) (pos : Nat) (h : HeaderRead)
    (hpos : data.length ≤ pos) (hr : readValue data name pos = .ok h) :
    h.singleBlock = false := by
  unfold readValue at hr
  rw [List.drop_eq_nil_of_le hpos] at hr
  simp only [scanValue, lt_self_iff_false, if_false, Outcome.ok.injEq] at hr
  rw [← hr]
  simp

/-- A header that `readHeader` reports with `singleBlock` has a name that passed
`isValidName` and was lower-cased. -/
theorem readHeader_name (data : Bytes) (pos n : Nat) (h : HeaderRead)
    (hr : readHeader data pos n = .ok h) (hsb : h.singleBlock = true) :
    ∃ N, isValidName N = true ∧ h.name = toLower N := by
  unfold readHeader at hr
  split at hr
  · simp only [Outcome.ok.injEq] at hr
    rw [← hr] at hsb
    exact absurd hsb (by simp)
  · split at hr
    · split at hr
      · exact absurd hr (by simp)
      · next name _ =>
        split at hr
        · exact absurd hr (by simp)
        · split at hr
          · exact absurd hr (by simp)
          · split at hr
            · exact absurd hr (by simp)
            · split at hr
              · exact absurd hr (by simp)
              · next hv =>
                refine ⟨name, by simpa using hv, readValue_name _ _ _ _ hr⟩
    · next p hp =>
      have hnf := scanName_not_found (data.drop pos) pos (by rw [hp])
      rw [hp, List.length_drop] at hnf
      have := readValue_atEnd data [] p h (by simp only at hnf; omega) hr
      rw [this] at hsb
      exact absurd hsb (by simp)

theorem headerLoop_ok_step (data : Bytes) (upd : manifest → Bytes → Bytes → manifest)
    (fuel : Nat) (s s' : ParseState) (h : headerLoop data upd (fuel + 1) s = .ok s') :
    ∃ hd, readHeader data s.pos s.consecutiveLineBreaks = .ok hd ∧
      ((hd.singleBlock = false ∧ s' = ⟨hd.pos, hd.consecutiveLineBreaks, s.man⟩) ∨
       (hd.singleBlock = true ∧
         headerLoop data upd fuel
           ⟨hd.pos, hd.consecutiveLineBreaks, upd s.man hd.name hd.value⟩ = .ok s')) := by
  rw [headerLoop] at h
  split at h
  · next hd hread =>
    refine ⟨hd, hread, ?_⟩
    cases hsb : hd.singleBlock with
    | false =>
      left
      simp only [hsb, Bool.not_false, if_true, Outcome.ok.injEq] at h
      exact ⟨rfl, h.symm⟩
    | true =>
      right
      simp only [hsb, Bool.not_true, Bool.false_eq_true, if_false] at h
      exact ⟨rfl, h⟩
  · exact absurd h (by simp)
  · exact absurd h (by simp)
  · exact absurd h (by simp)

theorem entryLoop_ok_step (data : Bytes) (wc : Bool) (fuel mark : Nat) (s s' : ParseState)
    (h : entryLoop data wc (fuel + 1) mark s = .ok s') :
    ∃ hd, readHeader data s.pos s.consecutiveLineBreaks = .ok hd ∧
      ((hd.singleBlock = false ∧ s' = ⟨hd.pos, hd.consecutiveLineBreaks, s.man⟩) ∨
       (hd.singleBlock = true ∧ hd.name = attrName ∧
         ∃ s1, attrLoop data hd.value (data.length + 1)
             ⟨hd.pos, hd.consecutiveLineBreaks,
               { s.man with entries := ensureEntry s.man.entries hd.value }⟩ = .ok s1 ∧
           ((wc = true ∧ mapGet s1.man.chunks hd.value = none ∧
              ∃ chunk, slice data mark s1.pos = some chunk ∧
                entryLoop data wc fuel s1.pos
                  { s1 with man := { s1.man with
                      chunks := mapSet s1.man.chunks hd.value chunk } } = .ok s') ∨
            (wc = false ∧ entryLoop data wc fuel mark s1 = .ok s')))) := by
  rw [entryLoop] at h
  split at h
  · next hd hread =>
    refine ⟨hd, hread, ?_⟩
    cases hsb : hd.singleBlock with
    | false =>
      left
      simp only [hsb, Bool.not_false, if_true, Outcome.ok.injEq] at h
      exact ⟨rfl, h.symm⟩
    | true =>
      right
      simp only [hsb, Bool.not_true, Bool.false_eq_true, if_false] at h
      split at h
      · exact absurd h (by simp)
      · next hname =>
        refine ⟨rfl, by simpa using hname, ?_⟩
        split at h
        · next s1 hattr =>
          refine ⟨s1, hattr, ?_⟩
          cases wc with
          | false =>
            right
            simp only [Bool.false_eq_true, if_false] at h
            exact ⟨rfl, h⟩
          | true =>
            left
            simp only [if_true] at h
            split at h
            · exact absurd h (by simp)
            · next hfresh =>
              split at h
              · exact absurd h (by simp)
              · next chunk hslice => exact ⟨rfl, hfresh, chunk, hslice, h⟩
        · exact absurd h (by simp)
        · exact absurd h (by simp)
        · exact absurd h (by simp)
  · exact absurd h (by simp)
  · exact absurd h (by simp)
  · exact absurd h (by simp)

theorem headerLoop_preserves (P : manifest → Prop) (data : Bytes)
    (upd : manifest → Bytes → Bytes → manifest)
    (hupd : ∀ man N v, isValidName N = true → P man → P (upd man (toLower N) v))
    (fuel : Nat) (s s' : ParseState) (h : headerLoop data upd fuel s = .ok s')
    (hP : P s.man) : P s'.man := by
  induction fuel generalizing s with
  | zero => exact absurd h (by simp [headerLoop])
  | succ fuel ih =>
    obtain ⟨hd, hread, hcase⟩ := headerLoop_ok_step data upd fuel s s' h
    rcases hcase with ⟨_, hs'⟩ | ⟨hsb, hrec⟩
    · rw [hs']
      exact hP
    · obtain ⟨N, hN, hname⟩ := readHeader_name data _ _ hd hread hsb
      apply ih _ hrec
      simp only [hname]
      exact hupd _ N _ hN hP

/-! ## The keys of the attribute maps -/

theorem toLowerByte_valid (c : Nat) (h : isValidNameByte c = true) :
    isValidNameByte (toLowerByte c) = true ∧ ¬ (65 ≤ toLowerByte c ∧ toLowerByte c ≤ 90) := by
  simp only [isValidNameByte, Bool.or_eq_true, Bool.and_eq_true, decide_eq_true_eq,
    beq_iff_eq] at h
  unfold toLowerByte
  split
  · simp only [isValidNameByte, Bool.or_eq_true, Bool.and_eq_true, decide_eq_true_eq,
      beq_iff_eq]
    omega
  · simp only [isValidNameByte, Bool.or_eq_true, Bool.and_eq_true, decide_eq_true_eq,
      beq_iff_eq]
    omega

theorem lowerName_toLower (N : Bytes) (h : isValidName N = true) : LowerName (toLower N) := by
  have hall := isValidName_all N h
  constructor
  · unfold isValidName at h ⊢
    simp only [toLower, List.length_map]
    split at h
    · exact absurd h (by simp)
    · next hlen =>
      rw [if_neg hlen, List.all_eq_true]
      intro c hc
      obtain ⟨d, hd, rfl⟩ := List.mem_map.mp hc
      exact (toLowerByte_valid d (hall d hd)).1
  · intro c hc
    obtain ⟨d, hd, rfl⟩ := List.mem_map.mp hc
    exact (toLowerByte_valid d (hall d hd)).2

theorem mem_mapSet {β : Type} (m : List (Bytes × β)) (k : Bytes) (v : β) (p : Bytes × β)
    (h : p ∈ mapSet m k v) : p = (k, v) ∨ p ∈ m := by
  induction m with
  | nil => simpa [mapSet] using h
  | cons q m ih =>
    obtain ⟨k', v'⟩ := q
    simp only [mapSet] at h
    split at h
    · rcases List.mem_cons.mp h with h1 | h1
      · exact Or.inl h1
      · exact Or.inr (List.mem_cons_of_mem _ h1)
    · rcases List.mem_cons.mp h with h1 | h1
      · exact Or.inr (h1 ▸ List.mem_cons_self _ _)
      · rcases ih h1 with h2 | h2
        · exact Or.inl h2
        · exact Or.inr (List.mem_cons_of_mem _ h2)

theorem mem_mapKeys_mapSet {β : Type} (m : List (Bytes × β)) (k : Bytes) (v : β) (k' : Bytes)
    (h : k' ∈ mapKeys (mapSet m k v)) : k' = k ∨ k' ∈ mapKeys m := by
  obtain ⟨p, hp, rfl⟩ := List.mem_map.mp h
  rcases mem_mapSet m k v p hp with h1 | h1
  · left; rw [h1]
  · right; exact List.mem_map_of_mem _ h1

theorem mapGet_some_mem {β : Type} (m : List (Bytes × β)) (k : Bytes) (v : β)
    (h : mapGet m k = some v) : (k, v) ∈ m := by
  induction m with
  | nil => exact absurd h (by simp [mapGet])
  | cons q m ih =>
    obtain ⟨k', v'⟩ := q
    simp only [mapGet] at h
    split at h
    · next hk =>
      simp only [Option.some.injEq] at h
      rw [hk, h]
      exact List.mem_cons_self _ _
    · exact List.mem_cons_of_mem _ (ih h)

theorem keysLower_updMain (man : manifest) (N v : Bytes) (hN : isValidName N = true)
    (h : KeysLower man) : KeysLower (updMain man (toLower N) v) := by
  refine ⟨?_, h.2⟩
  intro k hk
  rcases mem_mapKeys_mapSet _ _ _ _ hk with h1 | h1
  · rw [h1]; exact lowerName_toLower N hN
  · exact h.1 k h1

theorem keysLower_ensureEntry (man : manifest) (name : Bytes) (h : KeysLower man) :
    KeysLower { man with entries := ensureEntry man.entries name } := by
  refine ⟨h.1, ?_⟩
  intro e he
  simp only [ensureEntry] at he
  split at he
  · rcases mem_mapSet _ _ _ _ he with h1 | h1
    · rw [h1]; intro k hk; exact absurd hk (by simp [mapKeys])
    · exact h.2 e h1
  · exact h.2 e he

theorem keysLower_updEntry (name : Bytes) (man : manifest) (N v : Bytes)
    (hN : isValidName N = true) (h : KeysLower man) :
    KeysLower (updEntry name man (toLower N) v) := by
  refine ⟨h.1, ?_⟩
  intro e he
  rcases mem_mapSet _ _ _ _ he with h1 | h1
  · rw [h1]
    intro k hk
    rcases mem_mapKeys_mapSet _ _ _ _ hk with h2 | h2
    · rw [h2]; exact lowerName_toLower N hN
    · cases hg : mapGet man.entries name with
      | none => rw [hg] at h2; exact absurd h2 (by simp [mapKeys])
      | some em =>
        rw [hg] at h2
        exact h.2 (name, em) (mapGet_some_mem _ _ _ hg) k h2
  · exact h.2 e h1

theorem entryLoop_keysLower (data : Bytes) (wc : Bool) (fuel mark : Nat) (s s' : ParseState)
    (h : entryLoop data wc fuel mark s = .ok s') (hP : KeysLower s.man) : KeysLower s'.man := by
  induction fuel generalizing mark s with
  | zero => exact absurd h (by simp [entryLoop])
  | succ fuel ih =>
    obtain ⟨hd, _, hcase⟩ := entryLoop_ok_step data wc fuel mark s s' h
    rcases hcase with ⟨_, hs'⟩ | ⟨_, _, s1, hattr, hrest⟩
    · rw [hs']
      exact hP
    · rw [attrLoop_eq] at hattr
      have h1 : KeysLower s1.man :=
        headerLoop_preserves KeysLower data _ (keysLower_updEntry hd.value) _ _ _ hattr
          (keysLower_ensureEntry s.man hd.value hP)
      rcases hrest with ⟨_, _, chunk, _, hrec⟩ | ⟨_, hrec⟩
      · exact ih _ _ hrec h1
      · exact ih _ _ hrec h1

theorem parse_ok_stages (data : Bytes) (wc : Bool) (s : ParseState)
    (h : parse data wc = .ok s) :
    ∃ s0, headerLoop data updMain (data.length + 1) (initialState data) = .ok s0 ∧
      entryLoop data wc (data.length + 1) s0.pos
        { s0 with man := { s0.man with mainAttributtesEnd := s0.pos } } = .ok s := by
  unfold parse at h
  split at h
  · next s0 hmain =>
    rw [mainLoop_eq] at hmain
    exact ⟨s0, hmain, h⟩
  · exact absurd h (by simp)
  · exact absurd h (by simp)
  · exact absurd h (by simp)

/-- Claim C11. On every buffer on which `parse` succeeds, every key of `main` and every
key of the attribute map of every entry is a validated, lower-cased name: it passes
`isValidName` and holds no upper-case letter. The rule is the same for all names,
`Manifest-Version` included (see the witness). -/
theorem parse_keys_lower (data : Bytes) (wc : Bool) (s : ParseState)
    (h : parse data wc = .ok s) :
    (∀ k ∈ mapKeys s.man.main, isValidName k = true ∧ ∀ c ∈ k, ¬ (65 ≤ c ∧ c ≤ 90)) ∧
    (∀ e ∈ s.man.entries, ∀ k ∈ mapKeys e.2,
      isValidName k = true ∧ ∀ c ∈ k, ¬ (65 ≤ c ∧ c ≤ 90)) := by
  obtain ⟨s0, hmain, hentries⟩ := parse_ok_stages data wc s h
  have h0 : KeysLower s0.man :=
    headerLoop_preserves KeysLower data updMain keysLower_updMain _ _ _ hmain
      ⟨fun k hk => absurd hk (by simp [initialState, mapKeys]),
        fun e he => absurd he (by simp [initialState])⟩
  exact entryLoop_keysLower data wc _ _ _ s hentries h0

theorem parse_keys_lower_witness :
    (∀ k ∈ mapKeys [(ascii "manifest-version", ascii "1.0")],
      isValidName k = true ∧ ∀ c ∈ k, ¬ (65 ≤ c ∧ c ≤ 90)) ∧
    (∀ e ∈ ([] : List (Bytes × List (Bytes × Bytes))), ∀ k ∈ mapKeys e.2,
      isValidName k = true ∧ ∀ c ∈ k, ¬ (65 ≤ c ∧ c ≤ 90)) :=
  parse_keys_lower (ascii "Manifest-Version: 1.0\n") true
    ⟨22, 0, ⟨ascii "Manifest-Version: 1.0\n", [(ascii "manifest-version", ascii "1.0")], [], [],
      22⟩⟩ (by decide)

/-! ## The keys of `chunks` -/

theorem mapKeys_mapSet_mem {β : Type} (m : List (Bytes × β)) (k : Bytes) (v : β)
    (h : k ∈ mapKeys m) : mapKeys (mapSet m k v) = mapKeys m := by
  induction m with
  | nil => exact absurd h (by simp [mapKeys])
  | cons q m ih =>
    obtain ⟨k', v'⟩ := q
    simp only [mapSet]
    split
    · next hk => simp [mapKeys, hk]
    · next hk =>
      have : k ∈ mapKeys m := by
        simp only [mapKeys, List.map_cons, List.mem_cons] at h
        rcases h with h1 | h1
        · exact absurd h1.symm hk
        · exact h1
      simp only [mapKeys, List.map_cons, List.cons.injEq, true_and]
      exact ih this

theorem mapKeys_mapSet_absent {β : Type} (m : List (Bytes × β)) (k : Bytes) (v : β)
    (h : k ∉ mapKeys m) : mapKeys (mapSet m k v) = mapKeys m ++ [k] := by
  rw [mapSet_absent m k v ((mapGet_eq_none_iff m k).mpr h)]
  simp [mapKeys]

theorem mem_mapKeys_of_mapGet {β : Type} (m : List (Bytes × β)) (k : Bytes) (v : β)
    (h : mapGet m k = some v) : k ∈ mapKeys m := by
  by_contra hk
  rw [(mapGet_eq_none_iff m k).mpr hk] at h
  exact absurd h (by simp)

theorem mapKeys_ensureEntry (E : List (Bytes × List (Bytes × Bytes))) (name : Bytes) :
    name ∈ mapKeys (ensureEntry E name) ∧
    (name ∈ mapKeys E → mapKeys (ensureEntry E name) = mapKeys E) ∧
    (name ∉ mapKeys E → mapKeys (ensureEntry E name) = mapKeys E ++ [name]) := by
  unfold ensureEntry
  cases hg : mapGet E name with
  | none =>
    have hk : name ∉ mapKeys E := (mapGet_eq_none_iff E name).mp hg
    simp only
    rw [mapKeys_mapSet_absent E name [] hk]
    exact ⟨by simp, fun h => absurd h hk, fun _ => rfl⟩
  | some em =>
    have hk : name ∈ mapKeys E := mem_mapKeys_of_mapGet E name em hg
    exact ⟨hk, fun _ => rfl, fun h => absurd hk h⟩

theorem entryLoop_chunkKeys (data : Bytes) (wc : Bool) (fuel mark : Nat) (s s' : ParseState)
    (h : entryLoop data wc fuel mark s = .ok s') (hP : ChunkKeys wc s.man) :
    ChunkKeys wc s'.man := by
  induction fuel generalizing mark s with
  | zero => exact absurd h (by simp [entryLoop])
  | succ fuel ih =>
    obtain ⟨hd, _, hcase⟩ := entryLoop_ok_step data wc fuel mark s s' h
    rcases hcase with ⟨_, hs'⟩ | ⟨_, _, s1, hattr, hrest⟩
    · rw [hs']
      exact hP
    · rw [attrLoop_eq] at hattr
      obtain ⟨hmem, hsame, hnew⟩ := mapKeys_ensureEntry s.man.entries hd.value
      have h1 : mapKeys s1.man.entries = mapKeys (ensureEntry s.man.entries hd.value) ∧
          s1.man.chunks = s.man.chunks :=
        headerLoop_preserves
          (fun man => mapKeys man.entries = mapKeys (ensureEntry s.man.entries hd.value) ∧
            man.chunks = s.man.chunks) data _
          (by
            intro man N v _ hman
            refine ⟨?_, hman.2⟩
            have hk : hd.value ∈ mapKeys man.entries := by rw [hman.1]; exact hmem
            show mapKeys (mapSet man.entries hd.value _) = _
            rw [mapKeys_mapSet_mem _ _ _ hk, hman.1])
          _ _ _ hattr ⟨rfl, rfl⟩
      rcases hrest with ⟨hwc, hfresh, chunk, _, hrec⟩ | ⟨hwc, hrec⟩
      · apply ih _ _ hrec
        refine ⟨fun _ => ?_, fun hf => absurd hwc (by simp [hf])⟩
        have hk : hd.value ∉ mapKeys s.man.chunks := by
          rw [← h1.2]
          exact (mapGet_eq_none_iff _ _).mp hfresh
        have hk' : hd.value ∉ mapKeys s.man.entries := by rw [← hP.1 hwc]; exact hk
        show mapKeys (mapSet s1.man.chunks hd.value chunk) = mapKeys s1.man.entries
        rw [h1.2, mapKeys_mapSet_absent _ _ _ hk, h1.1, hnew hk', hP.1 hwc]
      · apply ih _ _ hrec
        refine ⟨fun ht => absurd hwc (by simp [ht]), fun hf => ?_⟩
        rw [h1.2]
        exact hP.2 hf

/-- Claim C12. On every buffer on which `parse` succeeds: with `withChunks = true` the keys
of `chunks` are the keys of `entries`, in the same order of insertion (one chunk per entry,
one entry per chunk); with `withChunks = false` the map `chunks` is empty. -/
theorem parse_chunk_keys (data : Bytes) (wc : Bool) (s : ParseState)
    (h : parse data wc = .ok s) :
    (wc = true → mapKeys s.man.chunks = mapKeys s.man.entries) ∧
    (wc = false → s.man.chunks = []) := by
  obtain ⟨s0, hmain, hentries⟩ := parse_ok_stages data wc s h
  have h0 : s0.man.entries = [] ∧ s0.man.chunks = [] :=
    headerLoop_preserves (fun man => man.entries = [] ∧ man.chunks = []) data updMain
      (fun _ _ _ _ hman => hman) _ _ _ hmain ⟨rfl, rfl⟩
  exact entryLoop_chunkKeys data wc _ _ _ s hentries
    ⟨fun _ => by rw [h0.1, h0.2]; rfl, fun _ => h0.2⟩

theorem parse_chunk_keys_witness :
    (true = true → mapKeys [(ascii "a", ascii "Name: a\nB: c\n")] =
      mapKeys [(ascii "a", [(ascii "b", ascii "c")])]) ∧
    (true = false → [(ascii "a", ascii "Name: a\nB: c\n")] = []) :=
  parse_chunk_keys (ascii "A: x\n\nName: a\nB: c\n") true
    ⟨19, 0, ⟨ascii "A: x\n\nName: a\nB: c\n", [(ascii "a", ascii "x")],
      [(ascii "a", [(ascii "b", ascii "c")])], [(ascii "a", ascii "Name: a\nB: c\n")], 6⟩⟩
    (by decide)

theorem entryLoop_rawData (data : Bytes) (wc : Bool) (fuel mark : Nat) (s s' : ParseState)
    (h : entryLoop data wc fuel mark s = .ok s') : s'.man.rawData = s.man.rawData := by
  induction fuel generalizing mark s with
  | zero => exact absurd h (by simp [entryLoop])
  | succ fuel ih =>
    obtain ⟨hd, _, hcase⟩ := entryLoop_ok_step data wc fuel mark s s' h
    rcases hcase with ⟨_, hs'⟩ | ⟨_, _, s1, hattr, hrest⟩
    · rw [hs']
    · rw [attrLoop_eq] at hattr
      have h1 : s1.man.rawData = s.man.rawData :=
        headerLoop_preserves (fun man => man.rawData = s.man.rawData) data _
          (fun _ _ _ _ hman => hman) _ _ _ hattr rfl
      rcases hrest with ⟨_, _, chunk, _, hrec⟩ | ⟨_, hrec⟩
      · exact (ih _ _ hrec).trans h1
      · exact (ih _ _ hrec).trans h1

theorem parse_rawData (data : Bytes) (wc : Bool) (s : ParseState)
    (h : parse data wc = .ok s) : s.man.rawData = data := by
  obtain ⟨s0, hmain, hentries⟩ := parse_ok_stages data wc s h
  have h0 : s0.man.rawData = data :=
    headerLoop_preserves (fun man => man.rawData = data) data updMain
      (fun _ _ _ _ hman => hman) _ _ _ hmain rfl
  exact (entryLoop_rawData data wc _ _ _ s hentries).trans h0

/-! ## A stale `lastCr` -/

/-- Claim C14, at the buffer of the claim. The line feed that ends the continuation line
`" y"` is not counted: `lastCr`, set by the CR that ended the first line, is still set
(only a line feed clears it), so the scan goes on into the next line and `main` holds the
single attribute `a` with the value `"xy\nB: z"`, where the claim says
`a = "xy"` and `b = "z"`. With one kind of line break throughout, the same three lines
give the two attributes. -/
theorem parse_stale_lastCr :
    parse (ascii "A: x\r y\nB: z\n") true =
      .ok ⟨13, 0, ⟨ascii "A: x\r y\nB: z\n", [(ascii "a", ascii "xy\nB: z")], [], [], 13⟩⟩ ∧
    parse (ascii "A: x\n y\nB: z\n") true =
      .ok ⟨13, 0, ⟨ascii "A: x\n y\nB: z\n", [(ascii "a", ascii "xy"), (ascii "b", ascii "z")],
        [], [], 13⟩⟩ ∧
    parse (ascii "A: x\r y\rB: z\r") true =
      .ok ⟨13, 0, ⟨ascii "A: x\r y\rB: z\r", [(ascii "a", ascii "xy"), (ascii "b", ascii "z")],
        [], [], 13⟩⟩ := by
  decide

/-! ## A last block that ends with the buffer -/

theorem headerLoop_lines_atEnd (nl : LineBreak) (data : Bytes)
    (upd : manifest → Bytes → Bytes → manifest) (hs : List Header) (A : Bytes) (s : ParseState)
    (fuel : Nat) (hdata : data = A ++ linesOf nl hs) (hwf : ∀ h ∈ hs, h.WF)
    (hpos : s.pos = A.length) (hn : s.consecutiveLineBreaks ≤ 1)
    (hfuel : hs.length + 1 ≤ fuel) :
    headerLoop data upd fuel s = .ok ⟨data.length, 0, storeAll upd s.man hs⟩ := by
  obtain ⟨f, rfl⟩ : ∃ f, fuel = hs.length + (f + 1) := ⟨fuel - (hs.length + 1), by omega⟩
  rw [headerLoop_lines nl data upd hs A [] s (f + 1) (by simp [hdata]) hwf trivial hpos hn]
  have hlen : A.length + (linesOf nl hs).length = data.length := by simp [hdata]
  rw [headerLoop, hlen]
  simp only
  rw [readHeader_atEnd data _ (by split <;> omega)]
  rfl

theorem entryLoop_lastBlock (nl : LineBreak) (data A : Bytes) (wc : Bool) (nh : Header)
    (attrs : List Header) (fuel mark : Nat) (s : ParseState)
    (hdata : data = A ++ linesOf nl (nh :: attrs))
    (hnh : nh.WF) (hname : toLower nh.name = attrName) (hwf : ∀ h ∈ attrs, h.WF)
    (hpos : s.pos = A.length) (hn : s.consecutiveLineBreaks ≤ 1)
    (hwc : wc = true → mark = A.length ∧ mapGet s.man.chunks nh.value = none) :
    entryLoop data wc (fuel + 2) mark s =
      .ok ⟨data.length, 0,
        { s.man with
            entries := storeEntry s.man.entries nh.value attrs,
            chunks := if wc then mapSet s.man.chunks nh.value (linesOf nl (nh :: attrs))
              else s.man.chunks }⟩ := by
  have hdata1 : data = A ++ nh.text nl ++ (lineBreaks nl 1 ++ (linesOf nl attrs ++ [])) := by
    rw [hdata]; simp [linesOf, Header.line]
  have hread := readHeader_text nl data A (linesOf nl attrs ++ []) nh 1 s.consecutiveLineBreaks
    hnh hdata1 (le_refl _) (stops_linesOf nl 1 attrs hwf [] trivial) hn
  have hdata2 : data = (A ++ nh.line nl) ++ linesOf nl attrs := by
    rw [hdata]; simp [linesOf]
  have hfuel : attrs.length + 1 ≤ data.length + 1 := by
    have := length_le_linesOf nl attrs
    rw [hdata2]
    simp only [List.length_append]
    omega
  have hattr : ∀ man, attrLoop data nh.value (data.length + 1)
      ⟨A.length + (nh.text nl).length + (lineBreaks nl 1).length, 1, man⟩ =
        .ok ⟨data.length, 0, storeAll (updEntry nh.value) man attrs⟩ := by
    intro man
    rw [attrLoop_eq]
    exact headerLoop_lines_atEnd nl data _ attrs (A ++ nh.line nl) _ _ hdata2 hwf
      (by simp [Header.line]; omega) (le_refl _) hfuel
  rw [entryLoop, hpos, hread]
  simp only [Bool.not_true, Bool.false_eq_true, if_false, hname, ne_eq, not_true_eq_false,
    hattr, storeAll_updEntry]
  cases wc with
  | false =>
    simp only [Bool.false_eq_true, if_false]
    rw [entryLoop_atEnd _ _ _ _ _ rfl (by simp)]
    rfl
  | true =>
    obtain ⟨hmark, hfresh⟩ := hwc rfl
    have hslice : slice data mark data.length = some (linesOf nl (nh :: attrs)) := by
      have := slice_mid A (linesOf nl (nh :: attrs)) []
      simp only [List.append_nil] at this
      rw [hmark, hdata]
      simpa using this
    simp only [if_true, hfresh, hslice]
    rw [entryLoop_atEnd _ _ _ _ _ rfl (by simp)]
    rfl

theorem take_dropFinalBreak (nl : LineBreak) (X : Bytes) :
    dropFinalBreak nl (X ++ nl.bytes) = X := by
  unfold dropFinalBreak
  exact List.take_left' (by simp)

theorem docText_concat (nl : LineBreak) (bs : List (List Header)) (b : List Header) :
    dropFinalBreak nl (docText nl (bs ++ [b])) = docText nl bs ++ linesOf nl b := by
  have : docText nl (bs ++ [b]) = (docText nl bs ++ linesOf nl b) ++ nl.bytes := by
    simp [docText, blockText]
  rw [this, take_dropFinalBreak]

/-- A manifest written with one line break throughout, without its final line break. The
last block need not end with a blank line. For every well-formed
manifest that ends with a blank line, written with LF, CR LF or CR line breaks, `parse`
succeeds on the text and on the text without its final line break, with the same `main`
and the same `entries`, and it reads the shortened buffer to its end. With
`withChunks = true` the shortened buffer is the blocks before the last one followed by the
lines of the last block `b`, and the chunk stored for `b` is those lines: the slice of the
buffer from the first byte of the block to the end of the buffer. -/
theorem parse_without_final_break (nl : LineBreak) (wc : Bool) (main : List Header)
    (bs : List (List Header)) (hwf : WellFormed wc (main :: bs)) :
    ∃ s s', parse (docText nl (main :: bs)) wc = .ok s ∧
      parse (dropFinalBreak nl (docText nl (main :: bs))) wc = .ok s' ∧
      s'.man.main = s.man.main ∧ s'.man.entries = s.man.entries ∧
      s'.pos = (dropFinalBreak nl (docText nl (main :: bs))).length ∧
      (wc = true → ∀ b, bs.getLast? = some b →
        dropFinalBreak nl (docText nl (main :: bs)) =
          docText nl (main :: bs.dropLast) ++ linesOf nl b ∧
        mapGet s'.man.chunks (blockName b) = some (linesOf nl b) ∧
        slice (dropFinalBreak nl (docText nl (main :: bs)))
          (docText nl (main :: bs.dropLast)).length
          (dropFinalBreak nl (docText nl (main :: bs))).length = some (linesOf nl b)) := by
  obtain ⟨⟨hne, hmain, hbs⟩, hnd⟩ := hwf
  have h := parse_doc nl wc main bs hne hmain hbs hnd
  suffices hs : ∃ s', parse (dropFinalBreak nl (docText nl (main :: bs))) wc = .ok s' ∧
      s'.man.main = attrsMap main ∧ s'.man.entries = entriesAfter [] bs ∧
      s'.pos = (dropFinalBreak nl (docText nl (main :: bs))).length ∧
      (wc = true → ∀ b, bs.getLast? = some b →
        dropFinalBreak nl (docText nl (main :: bs)) =
          docText nl (main :: bs.dropLast) ++ linesOf nl b ∧
        mapGet s'.man.chunks (blockName b) = some (linesOf nl b) ∧
        slice (dropFinalBreak nl (docText nl (main :: bs)))
          (docText nl (main :: bs.dropLast)).length
          (dropFinalBreak nl (docText nl (main :: bs))).length = some (linesOf nl b)) by
    obtain ⟨s', h1, h2, h3, h4, h5⟩ := hs
    exact ⟨_, s', h, h1, h2, h3, h4, h5⟩
  clear h
  have hcases : bs = [] ∨ ∃ bs0 b, bs = bs0 ++ [b] := by
    by_cases hb : bs = []
    · exact Or.inl hb
    · exact Or.inr (exists_concat_of_ne_nil bs hb)
  rcases hcases with rfl | ⟨bs0, b, rfl⟩
  · have hdata : dropFinalBreak nl (docText nl [main]) = linesOf nl main := by
      have := docText_concat nl [] main
      simpa [docText] using this
    rw [hdata]
    have hlen : main.length + 1 ≤ (linesOf nl main).length + 1 := by
      have := length_le_linesOf nl main
      omega
    have hloop := headerLoop_lines_atEnd nl (linesOf nl main) updMain main []
      (initialState (linesOf nl main)) ((linesOf nl main).length + 1) (by simp) hmain rfl
      (by simp [initialState]) hlen
    refine ⟨⟨(linesOf nl main).length, 0, ⟨linesOf nl main, attrsMap main, [], [],
      (linesOf nl main).length⟩⟩, ?_, rfl, rfl, rfl, ?_⟩
    · unfold parse
      rw [mainLoop_eq, hloop]
      simp only
      rw [entryLoop_atEnd _ _ _ _ _ rfl (by simp)]
      simp [storeAll_updMain, initialState, attrsMap]
    · intro _ b hb
      simp at hb
  · cases b with
    | nil => exact absurd (hbs [] (by simp)) (by simp [EntryWF])
    | cons nh attrs =>
    obtain ⟨hnh, hname, hattrs⟩ := hbs (nh :: attrs) (by simp)
    have hbs0 : ∀ b ∈ bs0, EntryWF b := fun b hb => hbs b (List.mem_append_left _ hb)
    have hnd0 : wc = true → (bs0.map blockName).Nodup ∧ blockName (nh :: attrs) ∉ bs0.map blockName := by
      intro h
      have := hnd h
      simp only [List.tail_cons, List.map_append, List.map_cons, List.map_nil] at this
      have h2 := List.nodup_append.mp this
      exact ⟨h2.1, fun hmem => h2.2.2 hmem (by simp)⟩
    have hdata : dropFinalBreak nl (docText nl (main :: (bs0 ++ [nh :: attrs]))) =
        docText nl (main :: bs0) ++ linesOf nl (nh :: attrs) := by
      have := docText_concat nl (main :: bs0) (nh :: attrs)
      simpa using this
    rw [hdata]
    have hstops : Stops 2 (linesOf nl (nh :: attrs)) := by
      have : linesOf nl (nh :: attrs) = nh.line nl ++ linesOf nl attrs := by simp [linesOf]
      rw [this]
      exact stops_line nl 2 nh hnh _
    obtain ⟨fuel, hfuel, hparse⟩ := parse_upto nl _ (linesOf nl (nh :: attrs)) wc main bs0 rfl hne
      hmain hbs0 hstops (fun h => (hnd0 h).1)
    have hlen := length_le_docText nl (main :: bs0)
    have hlines : 1 ≤ (linesOf nl (nh :: attrs)).length := by
      have := length_le_linesOf nl (nh :: attrs)
      simp only [List.length_cons] at this
      omega
    obtain ⟨f, rfl⟩ : ∃ f, fuel = f + 1 := ⟨fuel - 1, by
      simp only [List.length_append, List.length_cons] at hfuel hlen
      omega⟩
    have hlast := entryLoop_lastBlock nl _ (docText nl (main :: bs0)) wc nh attrs f
      (if wc then (docText nl (main :: bs0)).length else (blockText nl main).length)
      (stateAfter nl (docText nl (main :: bs0) ++ linesOf nl (nh :: attrs)) wc main bs0) rfl hnh
      hname hattrs rfl (by simp [stateAfter]) (by
        intro h
        subst h
        refine ⟨rfl, ?_⟩
        simp only [stateAfter, if_true]
        rw [chunksAfter_nodup nl bs0 [] (by simpa [mapKeys] using (hnd0 rfl).1),
          mapGet_eq_none_iff]
        simpa [mapKeys, Function.comp_def, blockName] using (hnd0 rfl).2)
    rw [hparse, hlast]
    refine ⟨_, rfl, rfl, ?_, rfl, ?_⟩
    · simp [stateAfter, entriesAfter, List.foldl_append, blockName]
    · intro h b hb
      subst h
      rw [List.getLast?_concat] at hb
      simp only [Option.some.injEq] at hb
      subst hb
      rw [List.dropLast_concat]
      refine ⟨rfl, ?_, ?_⟩
      · simp only [if_true, blockName]
        exact mapGet_mapSet_same _ _ _
      · have := slice_mid (docText nl (main :: bs0)) (linesOf nl (nh :: attrs)) []
        simpa using this

theorem parse_without_final_break_witness :
    ∃ s s', parse (docText .lf [[⟨ascii "A", [ascii "x"]⟩], [⟨ascii "Name", [ascii "a"]⟩]]) true
        = .ok s ∧
      parse (dropFinalBreak .lf
        (docText .lf [[⟨ascii "A", [ascii "x"]⟩], [⟨ascii "Name", [ascii "a"]⟩]])) true
          = .ok s' ∧
      s'.man.main = s.man.main ∧ s'.man.entries = s.man.entries ∧
      s'.pos = (dropFinalBreak .lf
        (docText .lf [[⟨ascii "A", [ascii "x"]⟩], [⟨ascii "Name", [ascii "a"]⟩]])).length ∧
      (true = true → ∀ b, [[⟨ascii "Name", [ascii "a"]⟩]].getLast? = some b →
        dropFinalBreak .lf
            (docText .lf [[⟨ascii "A", [ascii "x"]⟩], [⟨ascii "Name", [ascii "a"]⟩]]) =
          docText .lf ([⟨ascii "A", [ascii "x"]⟩] :: [[⟨ascii "Name", [ascii "a"]⟩]].dropLast)
            ++ linesOf .lf b ∧
        mapGet s'.man.chunks (blockName b) = some (linesOf .lf b) ∧
        slice (dropFinalBreak .lf
            (docText .lf [[⟨ascii "A", [ascii "x"]⟩], [⟨ascii "Name", [ascii "a"]⟩]]))
          (docText .lf
            ([⟨ascii "A", [ascii "x"]⟩] :: [[⟨ascii "Name", [ascii "a"]⟩]].dropLast)).length
          (dropFinalBreak .lf
            (docText .lf [[⟨ascii "A", [ascii "x"]⟩], [⟨ascii "Name", [ascii "a"]⟩]])).length
            = some (linesOf .lf b)) :=
  parse_without_final_break .lf true [⟨ascii "A", [ascii "x"]⟩] [[⟨ascii "Name", [ascii "a"]⟩]]
    (by decide)

/-! ## `parseManifest`: the retry over the candidates -/

theorem candidateLoop_all_fail (name : Bytes) (wc : Bool) (cs : List (Except IOError Bytes))
    (err : Option OpenError) (hfail : ∀ c ∈ cs, (candidateError wc c).isSome = true) :
    candidateLoop name wc cs err = .error (lastError name wc cs err) := by
  induction cs generalizing err with
  | nil => cases err <;> rfl
  | cons c cs ih =>
    have hc := hfail c (List.mem_cons_self _ _)
    have hcs : ∀ c' ∈ cs, (candidateError wc c').isSome = true :=
      fun c' h => hfail c' (List.mem_cons_of_mem _ h)
    have hlast : ∀ e, candidateError wc c = some e →
        lastError name wc cs (some e) = lastError name wc (c :: cs) err := by
      intro e he
      cases cs with
      | nil => simp [lastError, he]
      | cons d ds =>
        have hx : (d :: ds).getLast? = some ((d :: ds).getLast (List.cons_ne_nil d ds)) :=
          List.getLast?_eq_getLast _ _
        simp only [lastError, List.getLast?_cons_cons, hx]
    cases c with
    | error e =>
      rw [candidateLoop, ih _ hcs, hlast (.io e) rfl]
    | ok data =>
      simp only [candidateError] at hc
      cases hp : Manifest.parse data wc with
      | ok s => rw [hp] at hc; exact absurd hc (by simp)
      | error e =>
        rw [candidateLoop]
        simp only [hp]
        rw [ih _ hcs, hlast (.parse e) (by simp [candidateError, hp])]
      | panic => rw [hp] at hc; exact absurd hc (by simp)
      | timeout => rw [hp] at hc; exact absurd hc (by simp)

theorem candidateLoop_first_success (name : Bytes) (wc : Bool)
    (pre post : List (Except IOError Bytes)) (data : Bytes) (s : ParseState)
    (err : Option OpenError) (hpre : ∀ c ∈ pre, (candidateError wc c).isSome = true)
    (hparse : Manifest.parse data wc = .ok s) :
    candidateLoop name wc (pre ++ .ok data :: post) err = .ok s.man := by
  induction pre generalizing err with
  | nil =>
    rw [List.nil_append, candidateLoop]
    simp only [hparse]
  | cons c pre ih =>
    have hc := hpre c (List.mem_cons_self _ _)
    have hcs : ∀ c' ∈ pre, (candidateError wc c').isSome = true :=
      fun c' h => hpre c' (List.mem_cons_of_mem _ h)
    cases c with
    | error e => rw [List.cons_append, candidateLoop, ih _ hcs]
    | ok d =>
      simp only [candidateError] at hc
      cases hp : Manifest.parse d wc with
      | ok s => rw [hp] at hc; exact absurd hc (by simp)
      | error e =>
        rw [List.cons_append, candidateLoop]
        simp only [hp]
        exact ih _ hcs
      | panic => rw [hp] at hc; exact absurd hc (by simp)
      | timeout => rw [hp] at hc; exact absurd hc (by simp)

/-- Claim C17, at an archive entry with the two candidates `"A:"` and `"A: x\n"`. The
second candidate reads and parses, but `parse` panics on the first one (the colon is its
last byte) and `parseManifest` has no `recover`: the call ends in the panic, it returns
neither the manifest of the second candidate nor an error. The same holds when `"A:"` is
the only candidate, where the claim says an error is returned. -/
theorem parseManifest_panic_ends_retry :
    parse (ascii "A: x\n") true =
      .ok ⟨5, 0, ⟨ascii "A: x\n", [(ascii "a", ascii "x")], [], [], 5⟩⟩ ∧
    parseManifest ⟨ascii "META-INF/MANIFEST.MF", none, [.ok (ascii "A:"), .ok (ascii "A: x\n")]⟩
      true = .panic ∧
    parseManifest ⟨ascii "META-INF/MANIFEST.MF", none, [.ok (ascii "A:")]⟩ true = .panic := by
  decide

/-- Claim C18 fails for an archive entry whose only candidate is `"A:x"`: `parse` rejects
it, and `parseManifest` returns that error, `Invalid header structure 'A'`, not
`Failed to open META-INF/MANIFEST.MF`. -/
theorem parseManifest_keeps_parse_error :
    parseManifest ⟨ascii "META-INF/MANIFEST.MF", none, [.ok (ascii "A:x")]⟩ true =
      .error (.parse (.invalidHeaderStructure (ascii "A"))) ∧
    parseManifest ⟨ascii "META-INF/MANIFEST.MF", none, [.ok (ascii "A:x")]⟩ true ≠
      .error (.failedToOpen (ascii "META-INF/MANIFEST.MF")) := by
  decide

/-- Claim C18, amended. Let `Open` succeed and let every candidate fail with an error (its
read fails, or `parse` returns an error). When there is no candidate, `parseManifest`
returns `Failed to open <entry name>`; when there are candidates, it returns the error of
the last candidate, which does not name the entry. -/
theorem parseManifest_error_of_last_candidate (f : ZipReaderFile) (wc : Bool)
    (hopen : f.openErr = none)
    (hfail : ∀ c ∈ f.candidates, (candidateError wc c).isSome = true) :
    (f.candidates = [] → parseManifest f wc = .error (.failedToOpen f.Name)) ∧
    (∀ c, f.candidates.getLast? = some c →
      ∃ e, candidateError wc c = some e ∧ parseManifest f wc = .error e) := by
  have h := candidateLoop_all_fail f.Name wc f.candidates none hfail
  unfold parseManifest
  rw [hopen]
  simp only
  rw [h]
  constructor
  · intro hnil
    simp [lastError, hnil]
  · intro c hc
    have hmem : c ∈ f.candidates := List.mem_of_getLast?_eq_some hc
    have hsome := hfail c hmem
    obtain ⟨e, he⟩ := Option.isSome_iff_exists.mp hsome
    exact ⟨e, he, by simp [lastError, hc, he]⟩

theorem parseManifest_error_of_last_candidate_witness :
    parseManifest ⟨ascii "M", none, [.ok (ascii "A:x"), .error (ascii "EOF")]⟩ true =
      .error (.io (ascii "EOF")) := by
  obtain ⟨e, he, h⟩ := (parseManifest_error_of_last_candidate
    ⟨ascii "M", none, [.ok (ascii "A:x"), .error (ascii "EOF")]⟩ true rfl (by decide)).2
    (.error (ascii "EOF")) rfl
  simp only [candidateError, Option.some.injEq] at he
  rw [h, ← he]

theorem parseManifest_first_success (f : ZipReaderFile) (wc : Bool)
    (pre post : List (Except IOError Bytes)) (data : Bytes) (s : ParseState)
    (hopen : f.openErr = none) (hcs : f.candidates = pre ++ .ok data :: post)
    (hpre : ∀ c ∈ pre, (candidateError wc c).isSome = true)
    (hparse : Manifest.parse data wc = .ok s) :
    parseManifest f wc = .ok s.man := by
  unfold parseManifest
  rw [hopen, hcs]
  exact candidateLoop_first_success f.Name wc pre post data s none hpre hparse

/-! ## Termination: every stored header consumes at least one byte -/

theorem headerLoopT_snd (data : Bytes) (upd : manifest → Bytes → Bytes → manifest)
    (fuel : Nat) (s : ParseState) (t : Tally) :
    (headerLoopT data upd fuel s t).2 = headerLoop data upd fuel s := by
  induction fuel generalizing s t with
  | zero => rfl
  | succ fuel ih =>
    rw [headerLoopT, headerLoop]
    cases hr : readHeader data s.pos s.consecutiveLineBreaks with
    | ok h =>
      simp only
      split
      · rfl
      · exact ih _ _
    | error e => rfl
    | panic => rfl
    | timeout => rfl

theorem entryLoopT_snd (data : Bytes) (wc : Bool) (fuel mark : Nat) (s : ParseState)
    (t : Tally) : (entryLoopT data wc fuel mark s t).2 = entryLoop data wc fuel mark s := by
  induction fuel generalizing mark s t with
  | zero => rfl
  | succ fuel ih =>
    rw [entryLoopT, entryLoop]
    cases hr : readHeader data s.pos s.consecutiveLineBreaks with
    | error e => rfl
    | panic => rfl
    | timeout => rfl
    | ok h =>
      simp only
      split
      · rfl
      · split
        · rfl
        · have hinner := headerLoopT_snd data (updEntry h.value) (data.length + 1)
            { pos := h.pos, consecutiveLineBreaks := h.consecutiveLineBreaks,
              man := { s.man with entries := ensureEntry s.man.entries h.value } }
            ⟨t.calls + 1, t.stored + 1⟩
          rw [← attrLoop_eq] at hinner
          change _ = (match attrLoop data h.value (data.length + 1)
            { pos := h.pos, consecutiveLineBreaks := h.consecutiveLineBreaks,
              man := { s.man with entries := ensureEntry s.man.entries h.value } } with
            | .ok s1 => _
            | .error e => _
            | .panic => _
            | .timeout => _)
          rw [← hinner]
          rcases headerLoopT data (updEntry h.value) (data.length + 1)
            { pos := h.pos, consecutiveLineBreaks := h.consecutiveLineBreaks,
              man := { s.man with entries := ensureEntry s.man.entries h.value } }
            ⟨t.calls + 1, t.stored + 1⟩ with ⟨t1, o⟩
          cases o with
          | error e => rfl
          | panic => rfl
          | timeout => rfl
          | ok s1 =>
            simp only
            cases wc with
            | false => exact ih _ _ _
            | true =>
              simp only [if_true]
              cases mapGet s1.man.chunks h.value with
              | some _ => rfl
              | none =>
                simp only
                cases slice data mark s1.pos with
                | none => rfl
                | some chunk => exact ih _ _ _

theorem parseT_snd (data : Bytes) (wc : Bool) : (parseT data wc).2 = parse data wc := by
  unfold parseT parse
  rw [mainLoop_eq, ← headerLoopT_snd data updMain (data.length + 1) (initialState data) ⟨0, 0⟩]
  rcases headerLoopT data updMain (data.length + 1) (initialState data) ⟨0, 0⟩ with ⟨t, o⟩
  cases o with
  | error e => rfl
  | panic => rfl
  | timeout => rfl
  | ok s => exact entryLoopT_snd _ _ _ _ _ _

theorem scanValue_ne_timeout (data rest : Bytes) (st : ValueScan) :
    scanValue data rest st ≠ .timeout := by
  induction rest generalizing st with
  | nil => simp [scanValue]
  | cons next rest ih =>
    rw [scanValue]
    split_ifs
    · simp
    · exact ih _
    · exact ih _
    · exact ih _
    · split
      · simp
      · exact ih _
    · simp
    · exact ih _

theorem readValue_ne_timeout (data name : Bytes) (pos : Nat) :
    readValue data name pos ≠ .timeout := by
  unfold readValue
  split
  · split
    · split <;> simp
    · simp
  · simp
  · simp
  · next h => exact absurd h (scanValue_ne_timeout _ _ _)

theorem readHeader_ne_timeout (data : Bytes) (pos n : Nat) :
    readHeader data pos n ≠ .timeout := by
  unfold readHeader
  split
  · simp
  · split
    · split
      · simp
      · split
        · simp
        · split
          · simp
          · split
            · simp
            · split
              · simp
              · exact readValue_ne_timeout _ _ _
    · exact readValue_ne_timeout _ _ _

theorem readHeader_advances (data : Bytes) (pos n : Nat) (h : HeaderRead)
    (hr : readHeader data pos n = .ok h) (hpos : pos ≤ data.length)
    (hsb : h.singleBlock = true) : pos < h.pos := by
  unfold readHeader at hr
  split at hr
  · simp only [Outcome.ok.injEq] at hr
    subst hr
    exact absurd hsb (by simp)
  · have hb := scanName_bounds (data.drop pos) pos
    simp only [List.length_drop] at hb
    split at hr
    · next p hp =>
      rw [hp] at hb
      simp only [true_implies] at hb
      split at hr
      · exact absurd hr (by simp)
      · split at hr
        · exact absurd hr (by simp)
        · split at hr
          · exact absurd hr (by simp)
          · next c hc =>
            have hlt : p + 1 < data.length := by
              unfold index at hc
              rw [List.get?_eq_some] at hc
              exact hc.1
            split at hr
            · exact absurd hr (by simp)
            · split at hr
              · exact absurd hr (by simp)
              · have := readValue_pos _ _ _ _ hr (by omega)
                omega
    · next p hp =>
      have hnf := scanName_not_found (data.drop pos) pos (by rw [hp])
      rw [hp] at hnf
      simp only [List.length_drop] at hnf
      have := readValue_atEnd data [] p h (by omega) hr
      rw [this] at hsb
      exact absurd hsb (by simp)

theorem headerLoopT_bound (data : Bytes) (upd : manifest → Bytes → Bytes → manifest)
    (fuel : Nat) (s : ParseState) (t : Tally) (hpos : s.pos ≤ data.length)
    (hfuel : data.length - s.pos < fuel) :
    (headerLoopT data upd fuel s t).2 ≠ .timeout ∧
    s.pos ≤ endPos data (headerLoopT data upd fuel s t).2 ∧
    endPos data (headerLoopT data upd fuel s t).2 ≤ data.length ∧
    t.stored ≤ (headerLoopT data upd fuel s t).1.stored ∧
    (headerLoopT data upd fuel s t).1.stored + s.pos ≤
      t.stored + endPos data (headerLoopT data upd fuel s t).2 ∧
    (headerLoopT data upd fuel s t).1.calls + t.stored =
      t.calls + (headerLoopT data upd fuel s t).1.stored + 1 := by
  induction fuel generalizing s t with
  | zero => omega
  | succ fuel ih =>
    rw [headerLoopT]
    cases hr : readHeader data s.pos s.consecutiveLineBreaks with
    | error e => simp only [endPos]; refine ⟨by simp, ?_⟩; omega
    | panic => simp only [endPos]; refine ⟨by simp, ?_⟩; omega
    | timeout => exact absurd hr (readHeader_ne_timeout _ _ _)
    | ok h =>
      have hb := readHeader_pos _ _ _ _ hr hpos
      simp only
      split
      · simp only [endPos]; refine ⟨by simp, ?_⟩; omega
      · next hsb =>
        have hadv := readHeader_advances _ _ _ _ hr hpos (by simpa using hsb)
        have := ih ⟨h.pos, h.consecutiveLineBreaks, upd s.man h.name h.value⟩
          ⟨t.calls + 1, t.stored + 1⟩ hb.2 (by simp only; omega)
        simp only at this
        refine ⟨this.1, ?_⟩
        omega

theorem entryLoopT_bound (data : Bytes) (wc : Bool) (fuel mark : Nat) (s : ParseState)
    (t : Tally) (hpos : s.pos ≤ data.length) (hfuel : data.length - s.pos < fuel) :
    (entryLoopT data wc fuel mark s t).2 ≠ .timeout ∧
    (entryLoopT data wc fuel mark s t).1.stored + s.pos ≤ t.stored + data.length ∧
    (entryLoopT data wc fuel mark s t).1.calls + 2 * s.pos ≤ t.calls + 2 * data.length + 1 := by
  induction fuel generalizing mark s t with
  | zero => omega
  | succ fuel ih =>
    rw [entryLoopT]
    cases hr : readHeader data s.pos s.consecutiveLineBreaks with
    | error e => refine ⟨by simp, ?_⟩; simp only; omega
    | panic => refine ⟨by simp, ?_⟩; simp only; omega
    | timeout => exact absurd hr (readHeader_ne_timeout _ _ _)
    | ok h =>
      have hb := readHeader_pos _ _ _ _ hr hpos
      simp only
      split
      · refine ⟨by simp, ?_⟩; simp only; omega
      · next hsb =>
        have hadv := readHeader_advances _ _ _ _ hr hpos (by simpa using hsb)
        split
        · refine ⟨by simp, ?_⟩; simp only; omega
        · have hin := headerLoopT_bound data (updEntry h.value) (data.length + 1)
            { pos := h.pos, consecutiveLineBreaks := h.consecutiveLineBreaks,
              man := { s.man with entries := ensureEntry s.man.entries h.value } }
            ⟨t.calls + 1, t.stored + 1⟩ hb.2 (by simp only; omega)
          rcases hres : headerLoopT data (updEntry h.value) (data.length + 1)
            { pos := h.pos, consecutiveLineBreaks := h.consecutiveLineBreaks,
              man := { s.man with entries := ensureEntry s.man.entries h.value } }
            ⟨t.calls + 1, t.stored + 1⟩ with ⟨t1, o⟩
          rw [hres] at hin
          simp only at hin
          cases o with
          | error e => simp only [endPos] at hin; refine ⟨by simp, ?_⟩; simp only; omega
          | panic => simp only [endPos] at hin; refine ⟨by simp, ?_⟩; simp only; omega
          | timeout => exact absurd rfl hin.1
          | ok s1 =>
            simp only [endPos] at hin
            simp only
            cases wc with
            | false =>
              have := ih mark s1 t1 hin.2.2.1 (by omega)
              simp only [Bool.false_eq_true, if_false]
              refine ⟨this.1, ?_⟩
              omega
            | true =>
              simp only [if_true]
              cases mapGet s1.man.chunks h.value with
              | some _ => refine ⟨by simp, ?_⟩; simp only; omega
              | none =>
                simp only
                cases slice data mark s1.pos with
                | none => refine ⟨by simp, ?_⟩; simp only; omega
                | some chunk =>
                  have := ih s1.pos ⟨s1.pos, s1.consecutiveLineBreaks,
                    { s1.man with chunks := mapSet s1.man.chunks h.value chunk }⟩ t1 hin.2.2.1
                    (by simp only; omega)
                  simp only at this ⊢
                  refine ⟨this.1, ?_⟩
                  omega

theorem parseT_bound (data : Bytes) (wc : Bool) :
    (parseT data wc).2 ≠ .timeout ∧ (parseT data wc).1.stored ≤ data.length ∧
    (parseT data wc).1.calls ≤ 2 * data.length + 2 := by
  unfold parseT
  have hin := headerLoopT_bound data updMain (data.length + 1) (initialState data) ⟨0, 0⟩
    (by simp [initialState]) (by simp [initialState])
  rcases hres : headerLoopT data updMain (data.length + 1) (initialState data) ⟨0, 0⟩
    with ⟨t, o⟩
  rw [hres] at hin
  simp only [initialState] at hin
  cases o with
  | error e => simp only [endPos] at hin; refine ⟨by simp, ?_⟩; simp only; omega
  | panic => simp only [endPos] at hin; refine ⟨by simp, ?_⟩; simp only; omega
  | timeout => exact absurd rfl hin.1
  | ok s =>
    simp only [endPos] at hin
    have := entryLoopT_bound data wc (data.length + 1) s.pos
      { s with man := { s.man with mainAttributtesEnd := s.pos } } t hin.2.2.1
      (by simp only; omega)
    simp only at this ⊢
    refine ⟨this.1, ?_⟩
    omega

theorem parseT_example :
    parseT (ascii "A: x\n\nName: a\nB: c\n") true =
      (⟨6, 3⟩, parse (ascii "A: x\n\nName: a\nB: c\n") true) := by
  decide

/-- Claim C20. `parse` terminates on every buffer. A `readHeader` call started at a
position `pos` within the buffer returns (it never runs on: the two loops of `readHeader`
walk the bytes behind `pos` once), it leaves the scan position between `pos` and
`len(data)`, and a call that returns `singleBlock = true` advances the position by at
least one byte. So no loop of `parse` uses up the budget of `len(data) + 1` iterations,
at most `len(data)` header records are stored, and the three loops together make at most
`2 * len(data) + 2` calls of `readHeader`. The tally is that of `parseT`, which is `parse`
with the two counters added. -/
theorem parse_terminates (data : Bytes) (wc : Bool) :
    (∀ pos n, readHeader data pos n ≠ .timeout) ∧
    (∀ pos n h, pos ≤ data.length → readHeader data pos n = .ok h →
      pos ≤ h.pos ∧ h.pos ≤ data.length ∧ (h.singleBlock = true → pos < h.pos)) ∧
    parse data wc ≠ .timeout ∧
    (parseT data wc).2 = parse data wc ∧
    (parseT data wc).1.stored ≤ data.length ∧
    (parseT data wc).1.calls ≤ 2 * data.length + 2 := by
  have hb := parseT_bound data wc
  rw [parseT_snd] at hb
  refine ⟨fun pos n => readHeader_ne_timeout data pos n, ?_, hb.1, parseT_snd data wc,
    hb.2.1, hb.2.2⟩
  intro pos n h hpos hr
  have := readHeader_pos data pos n h hr hpos
  exact ⟨this.1, this.2, fun hsb => readHeader_advances data pos n h hr hpos hsb⟩

/-! ## `readHeader` reads the unread bytes only -/

theorem slice_append (data X Y : Bytes) (a b c : Nat) (h1 : slice data a b = some X)
    (h2 : slice data b c = some Y) : slice data a c = some (X ++ Y) := by
  unfold slice at *
  split at h1
  · next hab =>
    split at h2
    · next hbc =>
      simp only [Option.some.injEq] at h1 h2
      rw [if_pos ⟨by omega, hbc.2⟩, ← h1, ← h2]
      congr 1
      have : c - a = (b - a) + (c - b) := by omega
      rw [this, List.take_add, List.drop_drop]
      congr 3
      omega
    · exact absurd h2 (by simp)
  · exact absurd h1 (by simp)

theorem slice_one (data rest : Bytes) (pos c : Nat) (h : data.drop pos = c :: rest) :
    slice data pos (pos + 1) = some [c] := by
  have hlt : pos < data.length := by
    by_contra hn
    rw [List.drop_eq_nil_of_le (by omega)] at h
    exact absurd h (by simp)
  unfold slice
  rw [if_pos ⟨by omega, by omega⟩, h]
  simp

theorem slice_le (data X : Bytes) (a b : Nat) (h : slice data a b = some X) :
    a ≤ b ∧ b ≤ data.length := by
  unfold slice at h
  split at h
  · next hab => exact hab
  · exact absurd h (by simp)

theorem slice_nil_of_eq (data X : Bytes) (a : Nat) (h : slice data a a = some X) : X = [] := by
  unfold slice at h
  split at h
  · simp at h; exact h
  · exact absurd h (by simp)

theorem drop_succ_of_drop (data rest : Bytes) (pos c : Nat) (h : data.drop pos = c :: rest) :
    data.drop (pos + 1) = rest := by
  rw [← List.drop_drop, h]
  rfl

theorem scanValue_free (data : Bytes) (rest : Bytes) (st : ValueScan) (fs : FreeScan)
    (h : ScanAt data rest st fs) :
    match scanValueF rest fs with
    | .ok (fs', rest') => ∃ st', scanValue data rest st = .ok st' ∧ ScanAt data rest' st' fs'
    | .error e => scanValue data rest st = .error e
    | .panic => scanValue data rest st = .panic
    | .timeout => scanValue data rest st = .timeout := by
  induction rest generalizing st fs with
  | nil =>
    simp only [scanValueF, scanValue]
    exact ⟨st, rfl, h⟩
  | cons next rest ih =>
    obtain ⟨hlen, hdrop, hval, hcr, hclb, hpart⟩ := h
    have hdrop' : data.drop (st.pos + 1) = rest := drop_succ_of_drop data rest st.pos next hdrop
    have hlen' : st.pos + 1 + rest.length = data.length := by
      simp only [List.length_cons] at hlen; omega
    have hone : slice data st.pos (st.pos + 1) = some [next] := slice_one data rest st.pos next hdrop
    have hpend : ∀ (m l : Nat), (match fs.part with
        | some P => slice data m l = some P ∧ slice data l st.pos = some fs.pend
        | none => l < m ∧ slice data m st.pos = some fs.pend) →
        (match fs.part with
        | some P => slice data m l = some P ∧ slice data l (st.pos + 1) = some (fs.pend ++ [next])
        | none => l < m ∧ slice data m (st.pos + 1) = some (fs.pend ++ [next])) := by
      intro m l hp
      cases hfp : fs.part with
      | none =>
        rw [hfp] at hp
        exact ⟨hp.1, slice_append _ _ _ _ _ _ hp.2 hone⟩
      | some P =>
        rw [hfp] at hp
        exact ⟨hp.1, slice_append _ _ _ _ _ _ hp.2 hone⟩
    rw [scanValueF, scanValue]
    simp only [← hcr, ← hclb]
    by_cases h0 : next = 0
    · simp only [h0, if_true]
    · simp only [h0, if_false]
      by_cases h10 : next = 10
      · simp only [h10, if_true]
        by_cases hl : st.lastCr = true
        · simp only [hl, if_true]
          exact ih _ _ ⟨hlen', hdrop', hval, rfl, rfl, by simpa [h10] using hpend _ _ hpart⟩
        · simp only [hl, if_false, Bool.false_eq_true]
          exact ih _ _ ⟨hlen', hdrop', hval, rfl, rfl,
            by simpa [h10] using hpend _ _ hpart⟩
      · simp only [h10, if_false]
        by_cases h13 : next = 13
        · simp only [h13, if_true]
          exact ih _ _ ⟨hlen', hdrop', hval, rfl, rfl,
            by simpa [h13] using hpend _ _ hpart⟩
        · simp only [h13, if_false]
          by_cases hsp : next = 32 ∧ st.consecutiveLineBreaks = 1
          · simp only [hsp, and_self, if_true]
            cases hfp : fs.part with
            | none =>
              rw [hfp] at hpart
              simp only
              have : slice data st.mark st.last = none := by
                unfold slice
                rw [if_neg (by omega)]
              rw [this]
            | some P =>
              rw [hfp] at hpart
              simp only [hpart.1]
              have hle := slice_le _ _ _ _ hpart.2
              exact ih _ _ ⟨hlen', hdrop', by simp [hval], rfl, rfl, by
                simp only
                exact ⟨by omega, slice_self data (st.pos + 1) (by omega)⟩⟩
          · simp only [hsp, if_false]
            by_cases hge : st.consecutiveLineBreaks ≥ 1
            · simp only [hge, if_true]
              refine ⟨_, rfl, ?_⟩
              simp only [Nat.add_sub_cancel]
              exact ⟨hlen, hdrop, hval, hcr, hclb, hpart⟩
            · simp only [hge, if_false]
              refine ih _ _ ⟨hlen', hdrop', hval, rfl, rfl, ?_⟩
              simp only
              cases hfp : fs.part with
              | none =>
                rw [hfp] at hpart
                simp only [Option.getD_none, List.nil_append]
                exact ⟨slice_append _ _ _ _ _ _ hpart.2 hone,
                  slice_self data (st.pos + 1) (by omega)⟩
              | some P =>
                rw [hfp] at hpart
                simp only [Option.getD_some]
                refine ⟨?_, slice_self data (st.pos + 1) (by omega)⟩
                rw [List.append_assoc]
                exact slice_append _ _ _ _ _ _ hpart.1
                  (slice_append _ _ _ _ _ _ hpart.2 hone)

theorem readValue_free (data name : Bytes) (pos : Nat) (hpos : pos ≤ data.length) :
    readValue data name pos =
      (readValueF name (data.drop pos)).map (FreeRead.toHeaderRead data) := by
  have hat : ScanAt data (data.drop pos) ⟨pos, pos, pos, false, 0, []⟩
      ⟨[], some [], [], false, 0⟩ :=
    ⟨by simp only [List.length_drop]; omega, rfl, rfl, rfl, rfl,
      slice_self data pos hpos, slice_self data pos hpos⟩
  have h := scanValue_free data _ _ _ hat
  unfold readValue readValueF
  cases hf : scanValueF (data.drop pos) ⟨[], some [], [], false, 0⟩ with
  | error e => rw [hf] at h; simp only at h; rw [h]; rfl
  | panic => rw [hf] at h; simp only at h; rw [h]; rfl
  | timeout => rw [hf] at h; simp only at h; rw [h]; rfl
  | ok r =>
    obtain ⟨fs', rest'⟩ := r
    rw [hf] at h
    obtain ⟨st', hscan, hlen, hdrop, hval, hcr, hclb, hpart⟩ := h
    rw [hscan]
    have hp : st'.pos = data.length - rest'.length := by omega
    simp only [Outcome.map, FreeRead.toHeaderRead]
    cases hfp : fs'.part with
    | none =>
      rw [hfp] at hpart
      rw [if_neg (by omega)]
      simp [hval, hclb, hp]
    | some P =>
      rw [hfp] at hpart
      have hle := slice_le _ _ _ _ hpart.1
      by_cases hgt : st'.last > st'.mark
      · rw [if_pos hgt]
        simp only [hpart.1]
        simp [hval, hclb, hp]
      · rw [if_neg hgt]
        have heq : st'.mark = st'.last := by omega
        have hP : P = [] := by
          have := hpart.1
          rw [heq] at this
          exact slice_nil_of_eq _ _ _ this
        simp [hval, hclb, hp, hP]

theorem scanName_split (rest : Bytes) (pos : Nat) :
    scanName rest pos = (pos + (splitName rest).1.length, (splitName rest).2.isSome) := by
  induction rest generalizing pos with
  | nil => rfl
  | cons c rest ih =>
    rw [scanName, splitName]
    split
    · simp
    · rw [ih]
      simp only [List.length_cons, Prod.mk.injEq, and_true]
      omega

theorem splitName_some (rest name after : Bytes) (h : splitName rest = (name, some after)) :
    rest = name ++ 58 :: after := by
  induction rest generalizing name with
  | nil => simp [splitName] at h
  | cons c rest ih =>
    rw [splitName] at h
    split at h
    · next hc =>
      simp only [Prod.mk.injEq, Option.some.injEq] at h
      rw [← h.1, ← h.2, hc]
      rfl
    · simp only [Prod.mk.injEq] at h
      rw [← h.1, List.cons_append, ← ih (splitName rest).1 (by rw [← h.2])]

theorem splitName_none (rest name : Bytes) (h : splitName rest = (name, none)) :
    rest = name := by
  induction rest generalizing name with
  | nil => simp [splitName] at h; exact h.symm
  | cons c rest ih =>
    rw [splitName] at h
    split at h
    · simp at h
    · simp only [Prod.mk.injEq] at h
      rw [← h.1, ← ih (splitName rest).1 (by rw [← h.2])]

theorem readHeader_free (data : Bytes) (pos n : Nat) (hpos : pos ≤ data.length) :
    readHeader data pos n =
      (readHeaderF (data.drop pos) n).map (FreeRead.toHeaderRead data) := by
  unfold readHeader readHeaderF
  split
  · simp only [Outcome.map, FreeRead.toHeaderRead, List.length_drop]
    congr 2
    omega
  · rw [scanName_split]
    have hdata : data = data.take pos ++ data.drop pos := (List.take_append_drop pos data).symm
    have htake : (data.take pos).length = pos := by simp [hpos]
    rcases hsp : splitName (data.drop pos) with ⟨name, oafter⟩
    cases oafter with
    | none =>
      have hrest := splitName_none _ _ hsp
      have hlen : pos + name.length = data.length := by
        have := congrArg List.length hrest
        simp only [List.length_drop] at this
        omega
      simp only [Option.isSome_none]
      rw [readValue_free data [] _ (by omega), hlen, List.drop_length]
    | some after =>
      have hrest := splitName_some _ _ _ hsp
      have hdata' : data = data.take pos ++ name ++ (58 :: after) := by
        rw [List.append_assoc, ← hrest]; exact hdata
      have hslice : slice data pos (pos + name.length) = some name := by
        have := slice_mid (data.take pos) name (58 :: after)
        rw [← hdata', htake] at this
        exact this
      have hlen : pos + name.length + 1 + after.length = data.length := by
        have := congrArg List.length hdata'
        simp only [List.length_append, List.length_cons, htake] at this
        omega
      simp only [Option.isSome_some, hslice]
      rw [if_neg (by omega)]
      have hdrop2 : data.drop (pos + name.length + 1) = after := by
        have h1 : data = (data.take pos ++ name ++ [58]) ++ after := by
          rw [List.append_assoc (data.take pos ++ name)]; exact hdata'
        have h2 : (data.take pos ++ name ++ [58]).length = pos + name.length + 1 := by
          simp [htake]; omega
        rw [h1, ← h2, List.drop_left]
      cases after with
      | nil =>
        have : index data (pos + name.length + 1) = none := by
          unfold index
          rw [List.get?_eq_none]
          simp only [List.length_nil] at hlen
          omega
        simp only [this]
        rfl
      | cons c after =>
        have : index data (pos + name.length + 1) = some c := by
          unfold index
          rw [List.get?_eq_getElem?, ← List.head?_drop, hdrop2]
          rfl
        simp only [this]
        split
        · rfl
        · split
          · rfl
          · have hdrop3 : data.drop (pos + name.length + 2) = after :=
              drop_succ_of_drop data after _ c hdrop2
            simp only [List.length_cons] at hlen
            rw [readValue_free data _ _ (by omega), hdrop3]

theorem scanValueF_suffix (rest : Bytes) (fs fs' : FreeScan) (rest' : Bytes)
    (h : scanValueF rest fs = .ok (fs', rest')) : ∃ pre, rest = pre ++ rest' := by
  induction rest generalizing fs with
  | nil =>
    simp only [scanValueF, Outcome.ok.injEq, Prod.mk.injEq] at h
    exact ⟨[], by rw [← h.2]; rfl⟩
  | cons next rest ih =>
    have hcons : ∀ fs0, scanValueF rest fs0 = .ok (fs', rest') →
        ∃ pre, next :: rest = pre ++ rest' := by
      intro fs0 h0
      obtain ⟨pre, hpre⟩ := ih fs0 h0
      exact ⟨next :: pre, by rw [hpre]; rfl⟩
    rw [scanValueF] at h
    split_ifs at h
    · exact hcons _ h
    · exact hcons _ h
    · exact hcons _ h
    · split at h
      · exact absurd h (by simp)
      · exact hcons _ h
    · simp only [Outcome.ok.injEq, Prod.mk.injEq] at h
      exact ⟨[], by rw [← h.2]; rfl⟩
    · exact hcons _ h

theorem readValueF_suffix (name rest : Bytes) (f : FreeRead)
    (h : readValueF name rest = .ok f) : ∃ pre, rest = pre ++ f.rest := by
  unfold readValueF at h
  split at h
  · next st rest' hs =>
    simp only [Outcome.ok.injEq] at h
    rw [← h]
    exact scanValueF_suffix _ _ _ _ hs
  · exact absurd h (by simp)
  · exact absurd h (by simp)
  · exact absurd h (by simp)

theorem readHeaderF_suffix (rest : Bytes) (n : Nat) (f : FreeRead)
    (h : readHeaderF rest n = .ok f) : ∃ pre, rest = pre ++ f.rest := by
  unfold readHeaderF at h
  split at h
  · simp only [Outcome.ok.injEq] at h
    rw [← h]
    exact ⟨[], rfl⟩
  · split at h
    · exact absurd h (by simp)
    · next name c after hsp =>
      have hrest := splitName_some _ _ _ hsp
      split at h
      · exact absurd h (by simp)
      · split at h
        · exact absurd h (by simp)
        · obtain ⟨pre, hpre⟩ := readValueF_suffix _ _ _ h
          exact ⟨name ++ 58 :: c :: pre, by rw [hrest, hpre]; simp⟩
    · next name hsp =>
      obtain ⟨pre, hpre⟩ := readValueF_suffix _ _ _ h
      refine ⟨rest, ?_⟩
      have : f.rest = [] := by
        have := congrArg List.length hpre
        simp only [List.length_nil, List.length_append] at this
        exact List.eq_nil_of_length_eq_zero (by omega)
      rw [this, List.append_nil]

/-! ## Reading a buffer written with another line break -/

theorem expand_cons_ne (nl : LineBreak) (c : Nat) (rest : Bytes) (h : c ≠ 10) :
    expand nl (c :: rest) = c :: expand nl rest := by
  simp [expand, h]

theorem expand_cons_lf (nl : LineBreak) (rest : Bytes) :
    expand nl (10 :: rest) = nl.bytes ++ expand nl rest := by
  simp [expand]

theorem scanValueF_expand (nl : LineBreak) (rest : Bytes) (hcr : CRFree rest)
    (fs fs' : FreeScan) (hrel : SimScan nl fs fs') :
    OutcomeRel (fun a a' => SimScan nl a.1 a'.1 ∧ a'.2 = expand nl a.2)
      (scanValueF rest fs) (scanValueF (expand nl rest) fs') := by
  induction rest generalizing fs fs' with
  | nil =>
    simp only [expand, scanValueF, OutcomeRel]
    exact ⟨hrel, trivial⟩
  | cons c rest ih =>
    have hcr' : CRFree rest := fun x hx => hcr x (List.mem_cons_of_mem _ hx)
    have h13 : c ≠ 13 := hcr c (List.mem_cons_self _ _)
    obtain ⟨hval, hpart, hclb, hl, hl', hpend⟩ := hrel
    by_cases h10 : c = 10
    · subst h10
      rw [expand_cons_lf, scanValueF]
      simp only [hl, Bool.false_eq_true, if_false]
      have h0 : (10 : Nat) ≠ 0 := by decide
      simp only [h0, if_false, if_true]
      cases nl with
      | lf =>
        simp only [LineBreak.bytes, List.singleton_append]
        rw [scanValueF]
        simp only [h0, if_false, if_true, hl' (by decide), Bool.false_eq_true]
        exact ih hcr' _ _ ⟨hval, hpart, by simp [hclb], rfl, fun _ => rfl,
          fun h => absurd h (by simp)⟩
      | crlf =>
        simp only [LineBreak.bytes, List.cons_append, List.nil_append]
        rw [scanValueF]
        have h130 : (13 : Nat) ≠ 0 := by decide
        have h1310 : (13 : Nat) ≠ 10 := by decide
        simp only [h130, h1310, if_false, if_true]
        rw [scanValueF]
        simp only [h0, if_false, if_true]
        exact ih hcr' _ _ ⟨hval, hpart, by simp [hclb], rfl, fun _ => rfl,
          fun h => absurd h (by simp)⟩
      | cr =>
        simp only [LineBreak.bytes, List.singleton_append]
        rw [scanValueF]
        have h130 : (13 : Nat) ≠ 0 := by decide
        have h1310 : (13 : Nat) ≠ 10 := by decide
        simp only [h130, h1310, if_false, if_true]
        exact ih hcr' _ _ ⟨hval, hpart, by simp [hclb], rfl, fun h => absurd rfl h,
          fun h => absurd h (by simp)⟩
    · rw [expand_cons_ne nl c rest h10, scanValueF, scanValueF]
      by_cases h0 : c = 0
      · simp only [h0, if_true, OutcomeRel]
      · simp only [h0, h10, h13, if_false, hclb, hpart]
        by_cases hsp : c = 32 ∧ fs.consecutiveLineBreaks = 1
        · simp only [hsp, and_self, if_true]
          cases hfp : fs.part with
          | none => simp only [OutcomeRel]
          | some P =>
            simp only
            exact ih hcr' _ _ ⟨by simp [hval], rfl, rfl, hl, hl', fun _ => ⟨rfl, rfl⟩⟩
        · simp only [hsp, if_false]
          by_cases hge : fs.consecutiveLineBreaks ≥ 1
          · simp only [hge, if_true, OutcomeRel]
            exact ⟨⟨hval, hpart, hclb, hl, hl', hpend⟩, (expand_cons_ne nl c rest h10).symm⟩
          · simp only [hge, if_false]
            have hz : fs.consecutiveLineBreaks = 0 := by omega
            obtain ⟨hp1, hp2⟩ := hpend hz
            exact ih hcr' _ _ ⟨hval, by simp [hp1, hp2], rfl, hl, hl', fun _ => ⟨rfl, rfl⟩⟩

theorem readValueF_expand (nl : LineBreak) (name rest : Bytes) (hcr : CRFree rest) :
    OutcomeRel (SimRead nl) (readValueF name rest) (readValueF name (expand nl rest)) := by
  have h := scanValueF_expand nl rest hcr ⟨[], some [], [], false, 0⟩ ⟨[], some [], [], false, 0⟩
    ⟨rfl, rfl, rfl, rfl, fun _ => rfl, fun _ => ⟨rfl, rfl⟩⟩
  unfold readValueF
  cases h1 : scanValueF rest ⟨[], some [], [], false, 0⟩ with
  | ok a =>
    cases h2 : scanValueF (expand nl rest) ⟨[], some [], [], false, 0⟩ with
    | ok a' =>
      rw [h1, h2] at h
      obtain ⟨⟨hval, hpart, hclb, _⟩, hrest⟩ := h
      simp only [OutcomeRel, SimRead, hval, hpart, hclb, hrest, and_self]
    | error e => rw [h1, h2] at h; exact absurd h (by simp [OutcomeRel])
    | panic => rw [h1, h2] at h; exact absurd h (by simp [OutcomeRel])
    | timeout => rw [h1, h2] at h; exact absurd h (by simp [OutcomeRel])
  | error e =>
    cases h2 : scanValueF (expand nl rest) ⟨[], some [], [], false, 0⟩ with
    | ok a' => rw [h1, h2] at h; exact absurd h (by simp [OutcomeRel])
    | error e => simp [OutcomeRel]
    | panic => simp [OutcomeRel]
    | timeout => simp [OutcomeRel]
  | panic =>
    cases h2 : scanValueF (expand nl rest) ⟨[], some [], [], false, 0⟩ with
    | ok a' => rw [h1, h2] at h; exact absurd h (by simp [OutcomeRel])
    | error e => simp [OutcomeRel]
    | panic => simp [OutcomeRel]
    | timeout => simp [OutcomeRel]
  | timeout =>
    cases h2 : scanValueF (expand nl rest) ⟨[], some [], [], false, 0⟩ with
    | ok a' => rw [h1, h2] at h; exact absurd h (by simp [OutcomeRel])
    | error e => simp [OutcomeRel]
    | panic => simp [OutcomeRel]
    | timeout => simp [OutcomeRel]

theorem splitName_append (A X : Bytes) (h : ∀ c ∈ A, c ≠ 58) :
    splitName (A ++ X) = (A ++ (splitName X).1, (splitName X).2) := by
  induction A with
  | nil => rfl
  | cons a A ih =>
    have ha : a ≠ 58 := h a (List.mem_cons_self _ _)
    rw [List.cons_append, splitName, if_neg ha,
      ih (fun c hc => h c (List.mem_cons_of_mem _ hc))]
    rfl

theorem bytes_no_colon (nl : LineBreak) : ∀ c ∈ nl.bytes, c ≠ 58 := by
  cases nl <;> simp [LineBreak.bytes]

theorem splitName_expand (nl : LineBreak) (rest : Bytes) :
    splitName (expand nl rest) =
      (expand nl (splitName rest).1, (splitName rest).2.map (expand nl)) := by
  induction rest with
  | nil => rfl
  | cons c rest ih =>
    by_cases h10 : c = 10
    · subst h10
      rw [expand_cons_lf, splitName_append _ _ (bytes_no_colon nl), ih, splitName,
        if_neg (by decide)]
      simp only [expand_cons_lf]
    · rw [expand_cons_ne nl c rest h10, splitName, splitName]
      by_cases h58 : c = 58
      · simp only [h58, if_true, Option.map_some', expand]
      · simp only [h58, if_false, ih, expand_cons_ne nl c _ h10]

theorem expand_of_no_lf (nl : LineBreak) (v : Bytes) (h : ∀ c ∈ v, c ≠ 10) :
    expand nl v = v := by
  induction v with
  | nil => rfl
  | cons c v ih =>
    rw [expand_cons_ne nl c v (h c (List.mem_cons_self _ _)),
      ih (fun x hx => h x (List.mem_cons_of_mem _ hx))]

theorem bytes_invalid (nl : LineBreak) : ∀ c ∈ nl.bytes, isValidNameByte c = false := by
  cases nl <;> simp [LineBreak.bytes, isValidNameByte]

theorem expand_all_valid (nl : LineBreak) (v : Bytes) :
    (expand nl v).all isValidNameByte = v.all isValidNameByte := by
  induction v with
  | nil => rfl
  | cons c v ih =>
    by_cases h10 : c = 10
    · subst h10
      rw [expand_cons_lf, List.all_append, List.all_cons]
      have h1 : isValidNameByte 10 = false := by decide
      have h2 : nl.bytes.all isValidNameByte = false := by
        cases nl <;> simp [LineBreak.bytes, isValidNameByte]
      rw [h1, h2]
      rfl
    · rw [expand_cons_ne nl c v h10, List.all_cons, List.all_cons, ih]

theorem isValidName_expand (nl : LineBreak) (name : Bytes) (h : isValidName (expand nl name) = true) :
    expand nl name = name := by
  apply expand_of_no_lf
  intro c hc h10
  have hall := isValidName_all _ h
  have : (expand nl name).all isValidNameByte = true := List.all_eq_true.mpr hall
  rw [expand_all_valid, List.all_eq_true] at this
  have := this c hc
  rw [h10] at this
  exact absurd this (by decide)

theorem isValidName_expand_eq (nl : LineBreak) (name : Bytes) :
    isValidName (expand nl name) = isValidName name := by
  by_cases h : ∀ c ∈ name, c ≠ 10
  · rw [expand_of_no_lf nl name h]
  · have h1 : isValidName name = false := by
      by_contra hv
      simp only [Bool.not_eq_false] at hv
      have hall := isValidName_all _ hv
      apply h
      intro c hc h10
      have := hall c hc
      rw [h10] at this
      exact absurd this (by decide)
    have h2 : isValidName (expand nl name) = false := by
      by_contra hv
      simp only [Bool.not_eq_false] at hv
      rw [isValidName_expand nl name hv] at hv
      rw [hv] at h1
      exact absurd h1 (by simp)
    rw [h1, h2]

theorem outcomeRel_of_not_ok {α β : Type} (R : α → β → Prop) (o : Outcome α) (o' : Outcome β)
    (h : ∀ a, o ≠ .ok a) (h' : ∀ b, o' ≠ .ok b) : OutcomeRel R o o' := by
  cases o with
  | ok a => exact absurd rfl (h a)
  | error e => cases o' with
    | ok b => exact absurd rfl (h' b)
    | error e => trivial
    | panic => trivial
    | timeout => trivial
  | panic => cases o' with
    | ok b => exact absurd rfl (h' b)
    | error e => trivial
    | panic => trivial
    | timeout => trivial
  | timeout => cases o' with
    | ok b => exact absurd rfl (h' b)
    | error e => trivial
    | panic => trivial
    | timeout => trivial

theorem outcomeRel_cases {α β : Type} (R : α → β → Prop) (o : Outcome α) (o' : Outcome β)
    (h : OutcomeRel R o o') :
    (∃ a b, o = .ok a ∧ o' = .ok b ∧ R a b) ∨ ((∀ a, o ≠ .ok a) ∧ ∀ b, o' ≠ .ok b) := by
  cases o with
  | ok a => cases o' with
    | ok b => exact Or.inl ⟨a, b, rfl, rfl, h⟩
    | error e => exact absurd h (by simp [OutcomeRel])
    | panic => exact absurd h (by simp [OutcomeRel])
    | timeout => exact absurd h (by simp [OutcomeRel])
  | error e => cases o' with
    | ok b => exact absurd h (by simp [OutcomeRel])
    | error e => exact Or.inr ⟨by simp, by simp⟩
    | panic => exact Or.inr ⟨by simp, by simp⟩
    | timeout => exact Or.inr ⟨by simp, by simp⟩
  | panic => cases o' with
    | ok b => exact absurd h (by simp [OutcomeRel])
    | error e => exact Or.inr ⟨by simp, by simp⟩
    | panic => exact Or.inr ⟨by simp, by simp⟩
    | timeout => exact Or.inr ⟨by simp, by simp⟩
  | timeout => cases o' with
    | ok b => exact absurd h (by simp [OutcomeRel])
    | error e => exact Or.inr ⟨by simp, by simp⟩
    | panic => exact Or.inr ⟨by simp, by simp⟩
    | timeout => exact Or.inr ⟨by simp, by simp⟩

theorem readHeaderF_expand (nl : LineBreak) (rest : Bytes) (n : Nat) (hcr : CRFree rest) :
    OutcomeRel (SimRead nl) (readHeaderF rest n) (readHeaderF (expand nl rest) n) := by
  unfold readHeaderF
  split
  · simp only [OutcomeRel, SimRead, and_self]
  · rw [splitName_expand]
    rcases hsp : splitName rest with ⟨name, oafter⟩
    cases oafter with
    | none =>
      simp only [Option.map_none']
      exact readValueF_expand nl [] [] (by intro c hc; simp at hc)
    | some after =>
      have hrest := splitName_some _ _ _ hsp
      cases after with
      | nil =>
        simp only [Option.map_some', expand, OutcomeRel]
      | cons c after =>
        have hcr' : CRFree after := by
          intro x hx
          apply hcr x
          rw [hrest]
          simp [hx]
        simp only [Option.map_some']
        by_cases h10 : c = 10
        · subst h10
          rw [expand_cons_lf]
          cases nl <;> simp [LineBreak.bytes, OutcomeRel]
        · rw [expand_cons_ne nl c after h10]
          simp only
          by_cases h32 : c = 32
          · simp only [h32, ne_eq, not_true_eq_false, if_false, isValidName_expand_eq]
            by_cases hv : isValidName name = true
            · have hv' : isValidName (expand nl name) = true := by
                rw [isValidName_expand_eq]; exact hv
              simp only [hv, Bool.not_true, Bool.false_eq_true, if_false,
                isValidName_expand nl name hv']
              exact readValueF_expand nl _ after hcr'
            · simp only [Bool.not_eq_true] at hv
              simp only [hv, Bool.not_false, if_true, OutcomeRel]
          · simp only [ne_eq, h32, not_false_eq_true, if_true, OutcomeRel]

theorem drop_of_suffix (data pre r : Bytes) (p : Nat) (h : data.drop p = pre ++ r) :
    data.drop (data.length - r.length) = r := by
  obtain ⟨A, rfl⟩ : ∃ A, data = A ++ r :=
    ⟨data.take p ++ pre, by rw [List.append_assoc, ← h, List.take_append_drop]⟩
  simp

theorem crFree_drop (data : Bytes) (p : Nat) (h : CRFree data) : CRFree (data.drop p) :=
  fun c hc => h c (List.mem_of_mem_drop hc)

theorem readHeader_expand (nl : LineBreak) (data data' : Bytes) (pos pos' n : Nat)
    (hcr : CRFree data) (hp : PosRel nl data data' pos pos') :
    OutcomeRel (SimHeader nl data data') (readHeader data pos n) (readHeader data' pos' n) := by
  obtain ⟨hpos, hpos', hdrop⟩ := hp
  rw [readHeader_free data pos n hpos, readHeader_free data' pos' n hpos', hdrop]
  have h := readHeaderF_expand nl (data.drop pos) n (crFree_drop data pos hcr)
  rcases outcomeRel_cases _ _ _ h with ⟨f, f', h1, h2, hname, hvalue, hsb, hclb, hrest⟩ | ⟨h1, h2⟩
  · obtain ⟨pre, hpre⟩ := readHeaderF_suffix _ _ _ h1
    obtain ⟨pre', hpre'⟩ := readHeaderF_suffix _ _ _ h2
    rw [← hdrop] at hpre'
    rw [h1, h2]
    simp only [Outcome.map, OutcomeRel, SimHeader, FreeRead.toHeaderRead, PosRel]
    refine ⟨hname, hvalue, hsb, hclb, by omega, by omega, ?_⟩
    rw [drop_of_suffix data' pre' f'.rest pos' hpre', drop_of_suffix data pre f.rest pos hpre,
      hrest]
  · apply outcomeRel_of_not_ok
    · intro a ha
      cases hf : readHeaderF (data.drop pos) n with
      | ok f => exact h1 f hf
      | error e => rw [hf] at ha; simp [Outcome.map] at ha
      | panic => rw [hf] at ha; simp [Outcome.map] at ha
      | timeout => rw [hf] at ha; simp [Outcome.map] at ha
    · intro a ha
      cases hf : readHeaderF (expand nl (data.drop pos)) n with
      | ok f => exact h2 f hf
      | error e => rw [hf] at ha; simp [Outcome.map] at ha
      | panic => rw [hf] at ha; simp [Outcome.map] at ha
      | timeout => rw [hf] at ha; simp [Outcome.map] at ha

theorem headerLoop_ne_timeout (data : Bytes) (upd : manifest → Bytes → Bytes → manifest)
    (fuel : Nat) (s : ParseState) (hpos : s.pos ≤ data.length)
    (hfuel : data.length - s.pos < fuel) : headerLoop data upd fuel s ≠ .timeout := by
  rw [← headerLoopT_snd data upd fuel s ⟨0, 0⟩]
  exact (headerLoopT_bound data upd fuel s ⟨0, 0⟩ hpos hfuel).1

theorem entryLoop_ne_timeout (data : Bytes) (wc : Bool) (fuel mark : Nat) (s : ParseState)
    (hpos : s.pos ≤ data.length) (hfuel : data.length - s.pos < fuel) :
    entryLoop data wc fuel mark s ≠ .timeout := by
  rw [← entryLoopT_snd data wc fuel mark s ⟨0, 0⟩]
  exact (entryLoopT_bound data wc fuel mark s ⟨0, 0⟩ hpos hfuel).1

theorem headerLoop_expand (nl : LineBreak) (data data' : Bytes)
    (upd : manifest → Bytes → Bytes → manifest) (hcr : CRFree data)
    (hupd : ∀ m m' n v, ManRel m m' → ManRel (upd m n v) (upd m' n v))
    (f f' : Nat) (s s' : ParseState) (hrel : StateRel nl data data' s s')
    (hnt : headerLoop data upd f s ≠ .timeout) (hnt' : headerLoop data' upd f' s' ≠ .timeout) :
    OutcomeRel (StateRel nl data data') (headerLoop data upd f s)
      (headerLoop data' upd f' s') := by
  induction f generalizing f' s s' with
  | zero => exact absurd rfl hnt
  | succ f ih =>
    cases f' with
    | zero => exact absurd rfl hnt'
    | succ f' =>
      obtain ⟨hp, hclb, hman⟩ := hrel
      have hr := readHeader_expand nl data data' s.pos s'.pos s.consecutiveLineBreaks hcr hp
      rw [headerLoop] at hnt ⊢
      rw [headerLoop] at hnt'
      rw [headerLoop, hclb]
      rw [hclb] at hnt'
      rcases outcomeRel_cases _ _ _ hr with
        ⟨h, h', h1, h2, hname, hvalue, hsb, hclb', hpos⟩ | ⟨h1, h2⟩
      · rw [h1] at hnt ⊢
        rw [h2] at hnt' ⊢
        simp only [hsb, hname, hvalue, hclb'] at hnt' ⊢
        simp only at hnt
        by_cases hb : h.singleBlock = true
        · simp only [hb, Bool.not_true, Bool.false_eq_true, if_false] at hnt hnt' ⊢
          exact ih f' _ _ ⟨hpos, rfl, hupd _ _ _ _ hman⟩ hnt hnt'
        · simp only [Bool.not_eq_true] at hb
          simp only [hb, Bool.not_false, if_true, OutcomeRel]
          exact ⟨hpos, rfl, hman⟩
      · apply outcomeRel_of_not_ok
        · intro a ha
          cases hf : readHeader data s.pos s.consecutiveLineBreaks with
          | ok x => exact h1 x hf
          | error e => rw [hf] at ha; simp at ha
          | panic => rw [hf] at ha; simp at ha
          | timeout => rw [hf] at ha; simp at ha
        · intro a ha
          cases hf : readHeader data' s'.pos s.consecutiveLineBreaks with
          | ok x => exact h2 x hf
          | error e => rw [hf] at ha; simp at ha
          | panic => rw [hf] at ha; simp at ha
          | timeout => rw [hf] at ha; simp at ha

theorem entryLoop_unfold (data : Bytes) (wc : Bool) (fuel mark : Nat) (s : ParseState) :
    entryLoop data wc (fuel + 1) mark s =
      match readHeader data s.pos s.consecutiveLineBreaks with
      | .ok h =>
        if !h.singleBlock then
          .ok { s with pos := h.pos, consecutiveLineBreaks := h.consecutiveLineBreaks }
        else if h.name ≠ attrName then .error .entryNotNamed
        else
          match headerLoop data (updEntry h.value) (data.length + 1)
              ⟨h.pos, h.consecutiveLineBreaks,
                { s.man with entries := ensureEntry s.man.entries h.value }⟩ with
          | .ok s1 =>
            if wc then
              match mapGet s1.man.chunks h.value with
              | some _ => .error .duplicateEntryName
              | none =>
                match slice data mark s1.pos with
                | none => .panic
                | some chunk =>
                  entryLoop data wc fuel s1.pos
                    ⟨s1.pos, s1.consecutiveLineBreaks,
                      { s1.man with chunks := mapSet s1.man.chunks h.value chunk }⟩
            else entryLoop data wc fuel mark s1
          | .error e => .error e
          | .panic => .panic
          | .timeout => .timeout
      | .error e => .error e
      | .panic => .panic
      | .timeout => .timeout := by
  rw [entryLoop]
  simp only [attrLoop_eq]
  rfl

theorem keepsChunks_updEntry (name : Bytes) : KeepsChunks (updEntry name) :=
  fun _ _ _ => ⟨rfl, rfl, rfl⟩

theorem keepsChunks_updMain : KeepsChunks updMain :=
  fun _ _ _ => ⟨rfl, rfl, rfl⟩

theorem manRel_updEntry (name : Bytes) (m m' : manifest) (n v : Bytes) (h : ManRel m m') :
    ManRel (updEntry name m n v) (updEntry name m' n v) := by
  obtain ⟨h1, h2, h3⟩ := h
  exact ⟨h1, by simp only [updEntry, h2], h3⟩

theorem manRel_updMain (m m' : manifest) (n v : Bytes) (h : ManRel m m') :
    ManRel (updMain m n v) (updMain m' n v) := by
  obtain ⟨h1, h2, h3⟩ := h
  exact ⟨by simp only [updMain, h1], h2, h3⟩

theorem slice_some (data : Bytes) (lo hi : Nat) (h1 : lo ≤ hi) (h2 : hi ≤ data.length) :
    ∃ chunk, slice data lo hi = some chunk := by
  unfold slice
  rw [if_pos ⟨h1, h2⟩]
  exact ⟨_, rfl⟩

theorem entryLoop_expand (nl : LineBreak) (data data' : Bytes) (wc : Bool) (hcr : CRFree data)
    (f f' mark mark' : Nat) (s s' : ParseState) (hrel : StateRel nl data data' s s')
    (hmark : mark ≤ s.pos) (hmark' : mark' ≤ s'.pos)
    (hnt : entryLoop data wc f mark s ≠ .timeout)
    (hnt' : entryLoop data' wc f' mark' s' ≠ .timeout) :
    OutcomeRel (StateRel nl data data') (entryLoop data wc f mark s)
      (entryLoop data' wc f' mark' s') := by
  induction f generalizing f' mark mark' s s' with
  | zero => exact absurd rfl hnt
  | succ f ih =>
    cases f' with
    | zero => exact absurd rfl hnt'
    | succ f' =>
      obtain ⟨hp, hclb, hman⟩ := hrel
      have hr := readHeader_expand nl data data' s.pos s'.pos s.consecutiveLineBreaks hcr hp
      rw [entryLoop_unfold] at hnt hnt' ⊢
      rw [entryLoop_unfold, hclb]
      rw [hclb] at hnt'
      rcases outcomeRel_cases _ _ _ hr with
        ⟨h, h', h1, h2, hname, hvalue, hsb, hclb', hpos⟩ | ⟨h1, h2⟩
      · have hb1 := readHeader_pos _ _ _ _ h1 hp.1
        have hb2 := readHeader_pos _ _ _ _ h2 hp.2.1
        rw [h1] at hnt ⊢
        rw [h2] at hnt' ⊢
        simp only [hsb, hname, hvalue, hclb'] at hnt' ⊢
        simp only at hnt
        by_cases hb : h.singleBlock = true
        · simp only [hb, Bool.not_true, Bool.false_eq_true, if_false] at hnt hnt' ⊢
          by_cases hn : h.name = attrName
          · simp only [hn, ne_eq, not_true_eq_false, if_false] at hnt hnt' ⊢
            have hin := headerLoop_expand nl data data' (updEntry h.value) hcr
              (manRel_updEntry h.value) (data.length + 1) (data'.length + 1)
              ⟨h.pos, h.consecutiveLineBreaks,
                { s.man with entries := ensureEntry s.man.entries h.value }⟩
              ⟨h'.pos, h.consecutiveLineBreaks,
                { s'.man with entries := ensureEntry s'.man.entries h.value }⟩
              ⟨hpos, rfl, hman.1, by simp only [hman.2.1], hman.2.2⟩
              (headerLoop_ne_timeout _ _ _ _ hb1.2 (by simp only; omega))
              (headerLoop_ne_timeout _ _ _ _ hb2.2 (by simp only; omega))
            rcases outcomeRel_cases _ _ _ hin with ⟨s1, s1', e1, e2, hrel1⟩ | ⟨e1, e2⟩
            · have hi1 := headerLoop_inv _ _ (keepsChunks_updEntry h.value) _ _ _ e1 hb1.2
              have hi2 := headerLoop_inv _ _ (keepsChunks_updEntry h.value) _ _ _ e2 hb2.2
              simp only at hi1 hi2
              rw [e1] at hnt ⊢
              rw [e2] at hnt' ⊢
              simp only at hnt hnt' ⊢
              cases wc with
              | false =>
                simp only [Bool.false_eq_true, if_false] at hnt hnt' ⊢
                exact ih f' mark mark' s1 s1' hrel1 (by omega) (by omega) hnt hnt'
              | true =>
                simp only [if_true] at hnt hnt' ⊢
                have hkeys := hrel1.2.2.2.2
                cases hg : mapGet s1.man.chunks h.value with
                | some c =>
                  have hg' : mapGet s1'.man.chunks h.value ≠ none := by
                    rw [Ne, mapGet_eq_none_iff, hkeys, ← mapGet_eq_none_iff, hg]
                    simp
                  cases hg2 : mapGet s1'.man.chunks h.value with
                  | none => exact absurd hg2 hg'
                  | some c' => simp only [OutcomeRel]
                | none =>
                  have hg' : mapGet s1'.man.chunks h.value = none := by
                    rw [mapGet_eq_none_iff, hkeys, ← mapGet_eq_none_iff, hg]
                  obtain ⟨chunk, hc⟩ := slice_some data mark s1.pos (by omega) hi1.2.1
                  obtain ⟨chunk', hc'⟩ := slice_some data' mark' s1'.pos (by omega) hi2.2.1
                  rw [hg] at hnt
                  rw [hg'] at hnt' ⊢
                  simp only [hc, hc'] at hnt hnt' ⊢
                  refine ih f' s1.pos s1'.pos
                    ⟨s1.pos, s1.consecutiveLineBreaks,
                      { s1.man with chunks := mapSet s1.man.chunks h.value chunk }⟩
                    ⟨s1'.pos, s1'.consecutiveLineBreaks,
                      { s1'.man with chunks := mapSet s1'.man.chunks h.value chunk' }⟩
                    ⟨hrel1.1, hrel1.2.1, hrel1.2.2.1, hrel1.2.2.2.1, ?_⟩
                    (le_refl _) (le_refl _) hnt hnt'
                  simp only
                  rw [mapKeys_mapSet_absent _ _ _ ((mapGet_eq_none_iff _ _).mp hg),
                    mapKeys_mapSet_absent _ _ _ ((mapGet_eq_none_iff _ _).mp hg'), hkeys]
            · apply outcomeRel_of_not_ok
              · intro a ha
                cases hf : headerLoop data (updEntry h.value) (data.length + 1)
                  ⟨h.pos, h.consecutiveLineBreaks,
                    { s.man with entries := ensureEntry s.man.entries h.value }⟩ with
                | ok x => exact e1 x hf
                | error e => rw [hf] at ha; simp at ha
                | panic => rw [hf] at ha; simp at ha
                | timeout => rw [hf] at ha; simp at ha
              · intro a ha
                cases hf : headerLoop data' (updEntry h.value) (data'.length + 1)
                  ⟨h'.pos, h.consecutiveLineBreaks,
                    { s'.man with entries := ensureEntry s'.man.entries h.value }⟩ with
                | ok x => exact e2 x hf
                | error e => rw [hf] at ha; simp at ha
                | panic => rw [hf] at ha; simp at ha
                | timeout => rw [hf] at ha; simp at ha
          · simp only [hn, ne_eq, not_false_eq_true, if_true, OutcomeRel]
        · simp only [Bool.not_eq_true] at hb
          simp only [hb, Bool.not_false, if_true, OutcomeRel]
          exact ⟨hpos, rfl, hman⟩
      · apply outcomeRel_of_not_ok
        · intro a ha
          cases hf : readHeader data s.pos s.consecutiveLineBreaks with
          | ok x => exact h1 x hf
          | error e => rw [hf] at ha; simp at ha
          | panic => rw [hf] at ha; simp at ha
          | timeout => rw [hf] at ha; simp at ha
        · intro a ha
          cases hf : readHeader data' s'.pos s.consecutiveLineBreaks with
          | ok x => exact h2 x hf
          | error e => rw [hf] at ha; simp at ha
          | panic => rw [hf] at ha; simp at ha
          | timeout => rw [hf] at ha; simp at ha

theorem expand_length_le (nl : LineBreak) (data : Bytes) :
    data.length ≤ (expand nl data).length := by
  induction data with
  | nil => simp [expand]
  | cons c data ih =>
    by_cases h10 : c = 10
    · subst h10
      have := bytes_length_pos nl
      rw [expand_cons_lf]
      simp only [List.length_append, List.length_cons]
      omega
    · rw [expand_cons_ne nl c data h10]
      simp only [List.length_cons]
      omega

theorem parse_sim (nl : LineBreak) (data : Bytes) (wc : Bool) (hcr : CRFree data) :
    OutcomeRel (StateRel nl data (expand nl data)) (parse data wc)
      (parse (expand nl data) wc) := by
  unfold parse
  rw [mainLoop_eq, mainLoop_eq]
  have h0 : StateRel nl data (expand nl data) (initialState data)
      (initialState (expand nl data)) :=
    ⟨⟨Nat.zero_le _, Nat.zero_le _, rfl⟩, rfl, rfl, rfl, rfl⟩
  have hm := headerLoop_expand nl data (expand nl data) updMain hcr manRel_updMain
    (data.length + 1) ((expand nl data).length + 1) _ _ h0
    (headerLoop_ne_timeout _ _ _ _ (Nat.zero_le _) (by simp [initialState]))
    (headerLoop_ne_timeout _ _ _ _ (Nat.zero_le _) (by simp [initialState]))
  rcases outcomeRel_cases _ _ _ hm with ⟨s0, s0', e1, e2, hrel⟩ | ⟨e1, e2⟩
  · have hi1 := headerLoop_inv _ _ keepsChunks_updMain _ _ _ e1 (Nat.zero_le _)
    have hi2 := headerLoop_inv _ _ keepsChunks_updMain _ _ _ e2 (Nat.zero_le _)
    rw [e1, e2]
    simp only
    exact entryLoop_expand nl data (expand nl data) wc hcr _ _ _ _
      ⟨s0.pos, s0.consecutiveLineBreaks, { s0.man with mainAttributtesEnd := s0.pos }⟩
      ⟨s0'.pos, s0'.consecutiveLineBreaks, { s0'.man with mainAttributtesEnd := s0'.pos }⟩
      ⟨hrel.1, hrel.2.1, hrel.2.2.1, hrel.2.2.2.1, hrel.2.2.2.2⟩ (le_refl _) (le_refl _)
      (entryLoop_ne_timeout _ _ _ _ _ hi1.2.1 (by simp only; omega))
      (entryLoop_ne_timeout _ _ _ _ _ hi2.2.1 (by simp only; omega))
  · apply outcomeRel_of_not_ok
    · intro a ha
      cases hf : headerLoop data updMain (data.length + 1) (initialState data) with
      | ok x => exact e1 x hf
      | error e => rw [hf] at ha; simp at ha
      | panic => rw [hf] at ha; simp at ha
      | timeout => rw [hf] at ha; simp at ha
    · intro a ha
      cases hf : headerLoop (expand nl data) updMain ((expand nl data).length + 1)
        (initialState (expand nl data)) with
      | ok x => exact e2 x hf
      | error e => rw [hf] at ha; simp at ha
      | panic => rw [hf] at ha; simp at ha
      | timeout => rw [hf] at ha; simp at ha

/-- Claim C13. Line-terminator independence. For every buffer without a CR byte, writing
every `"\n"` as `"\r\n"` or as a lone `"\r"` (`expand nl`, for the line break `nl`) gives
a buffer on which `parse` succeeds exactly when it succeeds on the original, and on success
`main` and `entries` are the same: a `"\r\n"` pair counts as one line break, never as a
blank line. -/
theorem parse_line_break_independent (nl : LineBreak) (data : Bytes) (wc : Bool)
    (hcr : ∀ c ∈ data, c ≠ 13) :
    (∀ s, parse data wc = .ok s →
      ∃ s', parse (expand nl data) wc = .ok s' ∧
        s'.man.main = s.man.main ∧ s'.man.entries = s.man.entries) ∧
    (∀ s', parse (expand nl data) wc = .ok s' →
      ∃ s, parse data wc = .ok s ∧
        s'.man.main = s.man.main ∧ s'.man.entries = s.man.entries) := by
  have h := parse_sim nl data wc hcr
  rcases outcomeRel_cases _ _ _ h with ⟨s, s', e1, e2, hrel⟩ | ⟨e1, e2⟩
  · constructor
    · intro t ht
      rw [e1] at ht
      simp only [Outcome.ok.injEq] at ht
      subst ht
      exact ⟨s', e2, hrel.2.2.1, hrel.2.2.2.1⟩
    · intro t' ht'
      rw [e2] at ht'
      simp only [Outcome.ok.injEq] at ht'
      subst ht'
      exact ⟨s, e1, hrel.2.2.1, hrel.2.2.2.1⟩
  · exact ⟨fun t ht => absurd ht (e1 t), fun t' ht' => absurd ht' (e2 t')⟩

theorem parse_line_break_independent_witness :
    ∃ s', parse (expand .crlf (ascii "A: x\n y\n\nName: a\nB: c\n")) true = .ok s' ∧
      s'.man.main = [(ascii "a", ascii "xy")] ∧
      s'.man.entries = [(ascii "a", [(ascii "b", ascii "c")])] :=
  (parse_line_break_independent .crlf (ascii "A: x\n y\n\nName: a\nB: c\n") true
    (by decide)).1
    ⟨22, 0, ⟨ascii "A: x\n y\n\nName: a\nB: c\n", [(ascii "a", ascii "xy")],
      [(ascii "a", [(ascii "b", ascii "c")])], [(ascii "a", ascii "Name: a\nB: c\n")], 9⟩⟩
    (by decide)

/-! ## A main block followed by a run of line breaks -/

theorem headerLoop_block_run (nl : LineBreak) (data : Bytes)
    (upd : manifest → Bytes → Bytes → manifest)
    (hs : List Header) (A R : Bytes) (s : ParseState) (fuel m : Nat)
    (hdata : data = A ++ linesOf nl hs ++ (lineBreaks nl m ++ R)) (hm : 1 ≤ m) (hne : hs ≠ [])
    (hwf : ∀ h ∈ hs, h.WF)
    (hR : Stops (m + 1) R) (hpos : s.pos = A.length) (hn : s.consecutiveLineBreaks ≤ 1)
    (hfuel : hs.length + 1 ≤ fuel) :
    headerLoop data upd fuel s =
      .ok ⟨A.length + (linesOf nl hs).length + (lineBreaks nl m).length, 0,
        storeAll upd s.man hs⟩ := by
  obtain ⟨init, h, rfl⟩ : ∃ init h, hs = init ++ [h] :=
    ⟨hs.dropLast, hs.getLast hne, (List.dropLast_append_getLast hne).symm⟩
  have hwfi : ∀ h' ∈ init, h'.WF := fun h' hh => hwf h' (List.mem_append_left _ hh)
  have hh : h.WF := hwf h (List.mem_append_right _ (List.mem_singleton_self h))
  obtain ⟨f, rfl⟩ : ∃ f, fuel = init.length + (f + 2) :=
    ⟨fuel - (init.length + 2), by simp at hfuel; omega⟩
  have hdata1 : data = A ++ linesOf nl init ++ (h.line nl ++ (lineBreaks nl m ++ R)) := by
    rw [hdata]; simp [linesOf]
  rw [headerLoop_lines nl data upd init A (h.line nl ++ (lineBreaks nl m ++ R)) s (f + 2) hdata1
    hwfi (stops_line nl 1 h hh _) hpos hn]
  have hdata2 : data = (A ++ linesOf nl init) ++ h.text nl ++ (lineBreaks nl (m + 1) ++ R) := by
    rw [hdata, lineBreaks_succ]; simp [linesOf, Header.line]
  have hread := readHeader_text nl data (A ++ linesOf nl init) R h (m + 1)
    (if init = [] then s.consecutiveLineBreaks else 1) hh hdata2 (by omega) hR
    (by split <;> omega)
  rw [headerLoop]
  simp only [← List.length_append, hread, Bool.not_true, Bool.false_eq_true, if_false]
  rw [headerLoop_blockEnd _ _ _ _ (by simp only; omega)]
  congr 1
  simp only [ParseState.mk.injEq, true_and]
  refine ⟨?_, ?_⟩
  · rw [lineBreaks_succ]
    simp [linesOf, Header.line]
  · simp [storeAll]

theorem parse_main_run (nl : LineBreak) (wc : Bool) (main : List Header)
    (bs : List (List Header)) (m : Nat) (hm : 1 ≤ m)
    (hne : main ≠ []) (hmain : ∀ h ∈ main, h.WF) (hbs : ∀ b ∈ bs, EntryWF b)
    (hnd : wc = true → (bs.map blockName).Nodup) :
    parse (linesOf nl main ++ lineBreaks nl m ++ docText nl bs) wc =
      .ok ⟨(linesOf nl main ++ lineBreaks nl m ++ docText nl bs).length, 0,
        ⟨linesOf nl main ++ lineBreaks nl m ++ docText nl bs, attrsMap main,
          entriesAfter [] bs, if wc then chunksAfter nl [] bs else [],
          (linesOf nl main ++ lineBreaks nl m).length⟩⟩ := by
  generalize hdata : linesOf nl main ++ lineBreaks nl m ++ docText nl bs = data
  have hdata1 : data = [] ++ linesOf nl main ++ (lineBreaks nl m ++ (docText nl bs ++ [])) := by
    rw [← hdata]; simp
  have hlenm : main.length + 1 ≤ data.length + 1 := by
    have := length_le_linesOf nl main
    rw [← hdata]
    simp only [List.length_append]
    omega
  have hlenb : bs.length + 1 ≤ data.length + 1 := by
    have := length_le_docText nl bs
    rw [← hdata]
    simp only [List.length_append]
    omega
  have hmainLoop := headerLoop_block_run nl data updMain main [] (docText nl bs ++ [])
    (initialState data) (data.length + 1) m hdata1 hm hne hmain
    (stops_docText nl (m + 1) bs hbs [] trivial) rfl (by simp [initialState]) hlenm
  have hdata2 : data = (linesOf nl main ++ lineBreaks nl m) ++ docText nl bs ++ [] := by
    rw [← hdata]; simp
  have hentries := entryLoop_entries nl data wc bs (linesOf nl main ++ lineBreaks nl m) []
    ⟨(linesOf nl main ++ lineBreaks nl m).length, 0,
      { (storeAll updMain (initialState data).man main) with
          mainAttributtesEnd := (linesOf nl main ++ lineBreaks nl m).length }⟩
    (data.length - bs.length + 1) (linesOf nl main ++ lineBreaks nl m).length hdata2 hbs trivial
    rfl rfl
    (fun h => ⟨rfl, fun _ _ => by simp [storeAll_updMain, initialState, mapGet], hnd h⟩)
  have hfuel : data.length + 1 = bs.length + (data.length - bs.length + 1) := by omega
  have hlen : (linesOf nl main ++ lineBreaks nl m).length + (docText nl bs).length =
      data.length := by
    rw [← hdata]; simp only [List.length_append]
  unfold parse
  rw [mainLoop_eq, hmainLoop]
  simp only [List.length_nil, Nat.zero_add, ← List.length_append]
  rw [hfuel, hentries, hlen, entryLoop_atEnd _ _ _ _ _ rfl (by simp)]
  simp only [storeAll_updMain, initialState, attrsMap]

/-- The end of the main block in a manifest written with one line break throughout. A
blank line ends the main block. Take a well-formed manifest, written with
LF, CR LF or CR line breaks: the lines of the main block `main` (one or more headers), then
`m ≥ 1` further line breaks (`m = 1`: one blank line), then the entry blocks `bs`. `parse`
succeeds on it; `mainAttributtesEnd` is the offset of the first byte behind the run of line
breaks that ends the main block, which is the first byte of the first entry block (the
buffer from that offset on is the text of the entry blocks); `main` holds exactly the
attributes of the headers of `main`, and the headers behind the blank line are stored in
`entries`, none of them in `main`. -/
theorem parse_main_block_end (nl : LineBreak) (wc : Bool) (main : List Header)
    (bs : List (List Header)) (m : Nat) (hm : 1 ≤ m) (hwf : WellFormed wc (main :: bs)) :
    ∃ s, parse (linesOf nl main ++ lineBreaks nl m ++ docText nl bs) wc = .ok s ∧
      s.man.mainAttributtesEnd = (linesOf nl main ++ lineBreaks nl m).length ∧
      (linesOf nl main ++ lineBreaks nl m ++ docText nl bs).drop s.man.mainAttributtesEnd =
        docText nl bs ∧
      s.man.main = attrsMap main ∧ s.man.entries = entriesAfter [] bs := by
  obtain ⟨⟨hne, hmain, hbs⟩, hnd⟩ := hwf
  exact ⟨_, parse_main_run nl wc main bs m hm hne hmain hbs hnd, rfl,
    List.drop_left' rfl, rfl, rfl⟩

theorem parse_main_block_end_witness :
    ∃ s, parse (linesOf .lf [⟨ascii "A", [ascii "x"]⟩] ++ lineBreaks .lf 1 ++
          docText .lf [[⟨ascii "Name", [ascii "a"]⟩]]) true = .ok s ∧
      s.man.mainAttributtesEnd = (linesOf .lf [⟨ascii "A", [ascii "x"]⟩] ++ lineBreaks .lf 1).length ∧
      (linesOf .lf [⟨ascii "A", [ascii "x"]⟩] ++ lineBreaks .lf 1 ++
          docText .lf [[⟨ascii "Name", [ascii "a"]⟩]]).drop s.man.mainAttributtesEnd =
        docText .lf [[⟨ascii "Name", [ascii "a"]⟩]] ∧
      s.man.main = attrsMap [⟨ascii "A", [ascii "x"]⟩] ∧
      s.man.entries = entriesAfter [] [[⟨ascii "Name", [ascii "a"]⟩]] :=
  parse_main_block_end .lf true [⟨ascii "A", [ascii "x"]⟩] [[⟨ascii "Name", [ascii "a"]⟩]] 1
    (by decide) (by decide)

/-! ## A buffer without a colon -/

theorem readHeader_no_colon (data : Bytes) (pos n : Nat) (hn : n ≤ 1)
    (hpos : pos ≤ data.length) (h : ∀ c ∈ data, c ≠ 58) :
    readHeader data pos n = .ok ⟨[], [], false, data.length, 0⟩ := by
  unfold readHeader
  rw [if_neg (by omega),
    scanName_absent (data.drop pos) pos (fun c hc => h c (List.mem_of_mem_drop hc))]
  have hp : pos + (data.drop pos).length = data.length := by
    simp only [List.length_drop]; omega
  rw [hp]
  simp [readValue, scanValue]

/-- Claim C24. For every buffer without a `':'` byte (the empty buffer, arbitrary text, also
bytes that include NUL) `parse` succeeds with empty `main`, empty `entries`, empty
`chunks` and `mainAttributtesEnd = len(data)`: the name loop of the first `readHeader`
call runs to the end of the buffer, so no byte is ever looked at by the value loop, and
input without any header is accepted as an empty manifest. -/
theorem parse_no_colon (data : Bytes) (wc : Bool) (h : ∀ c ∈ data, c ≠ 58) :
    parse data wc = .ok ⟨data.length, 0, ⟨data, [], [], [], data.length⟩⟩ := by
  have hr := readHeader_no_colon data (initialState data).pos
    (initialState data).consecutiveLineBreaks (by simp [initialState]) (Nat.zero_le _) h
  unfold parse
  rw [mainLoop, hr]
  simp only [Bool.not_false, if_true]
  rw [entryLoop_atEnd _ _ _ _ _ rfl (by simp)]
  rfl

theorem parse_no_colon_witness :
    parse (ascii "hello world\n\n\x00 foo") true =
      .ok ⟨18, 0, ⟨ascii "hello world\n\n\x00 foo", [], [], [], 18⟩⟩ :=
  parse_no_colon (ascii "hello world\n\n\x00 foo") true (by decide)

/-! ## A value ended by a blank line -/

/-- Claim C21 fails at the buffer `"A: x\n\nB: y\n"`: the first `readHeader` call returns
with `pos = 6`, the offset of `'B'`, behind both line feeds; the claim says 5, the offset
of the second line feed. The value loop has read both line feeds
(`consecutiveLineBreaks = 2`) and the byte `'B'`, and steps back over that byte only. -/
theorem readHeader_consumes_blank_line :
    readHeader (ascii "A: x\n\nB: y\n") 0 0 = .ok ⟨ascii "a", ascii "x", true, 6, 2⟩ ∧
    index (ascii "A: x\n\nB: y\n") 5 = some 10 ∧
    index (ascii "A: x\n\nB: y\n") 6 = some 66 ∧
    (ascii "A").length + 2 + (ascii "x").length + 1 = 5 := by
  decide

/-- Claim C21, amended. Let `N` be a valid name, `v` free of CR, LF and NUL, and `rest`
empty or starting with a byte that is no line break and no NUL. On the buffer
`N ++ ": " ++ v ++ "\n\n" ++ rest` the first `readHeader` call returns the header with
`singleBlock = true`, with `pos` on the first byte of `rest` (offset
`len(N) + 2 + len(v) + 2`, behind both line feeds) and `consecutiveLineBreaks = 2`. The
next call observes the end of the block through that counter: it returns at once with
`singleBlock = false`, leaves `pos` where it is and resets the counter to 0. -/
theorem readHeader_blank_line (N v rest : Bytes) (hN : isValidName N = true) (hv : Clean v)
    (hrest : Stops 2 rest) :
    readHeader (N ++ ascii ": " ++ v ++ ascii "\n\n" ++ rest) 0 0 =
      .ok ⟨toLower N, v, true, N.length + 2 + v.length + 2, 2⟩ ∧
    readHeader (N ++ ascii ": " ++ v ++ ascii "\n\n" ++ rest) (N.length + 2 + v.length + 2) 2 =
      .ok ⟨[], [], false, N.length + 2 + v.length + 2, 0⟩ := by
  constructor
  · have hwf : (⟨N, [v]⟩ : Header).WF :=
      ⟨hN, by simp, by simpa using hv, trivial⟩
    have h := readHeader_text .lf (N ++ ascii ": " ++ v ++ ascii "\n\n" ++ rest) [] rest
      ⟨N, [v]⟩ 2 0 hwf (by simp [Header.text, foldParts, ascii, LineBreak.bytes])
      (by omega) hrest (by omega)
    simp only [List.length_nil, Nat.zero_add] at h
    rw [h]
    simp [Header.text, Header.value, foldParts, LineBreak.bytes]
    omega
  · unfold readHeader
    rw [if_pos (by omega)]

theorem readHeader_blank_line_witness :
    readHeader (ascii "A" ++ ascii ": " ++ ascii "x" ++ ascii "\n\n" ++ ascii "B: y\n") 0 0 =
      .ok ⟨toLower (ascii "A"), ascii "x", true, (ascii "A").length + 2 + (ascii "x").length + 2,
        2⟩ ∧
    readHeader (ascii "A" ++ ascii ": " ++ ascii "x" ++ ascii "\n\n" ++ ascii "B: y\n")
        ((ascii "A").length + 2 + (ascii "x").length + 2) 2 =
      .ok ⟨[], [], false, (ascii "A").length + 2 + (ascii "x").length + 2, 0⟩ :=
  readHeader_blank_line (ascii "A") (ascii "x") (ascii "B: y\n") (by decide) (by decide)
    (by decide)

/-! ## A last header line without a line break -/

theorem scanValueF_plain (v : Bytes) (hv : Clean v) (val P : Bytes) (lc : Bool) :
    scanValueF v ⟨val, some P, [], lc, 0⟩ = .ok (⟨val, some (P ++ v), [], lc, 0⟩, []) := by
  induction v generalizing P with
  | nil => simp [scanValueF]
  | cons c v ih =>
    obtain ⟨h0, h10, h13⟩ := hv c (List.mem_cons_self _ _)
    have hv' : Clean v := fun d hd => hv d (List.mem_cons_of_mem _ hd)
    rw [scanValueF]
    simp only [if_neg h0, if_neg h10, if_neg h13]
    rw [if_neg (by simp), if_neg (by simp)]
    simp only [Option.getD_some, List.append_nil]
    rw [ih hv' (P ++ [c])]
    simp

theorem readHeaderF_unterminated (N v : Bytes) (n : Nat) (hn : n ≤ 1)
    (hN : isValidName N = true) (hv : Clean v) :
    readHeaderF (N ++ 58 :: 32 :: v) n = .ok ⟨toLower N, v, false, [], 0⟩ := by
  unfold readHeaderF
  rw [if_neg (by omega), splitName_append N _ (isValidName_no_colon N hN)]
  simp only [splitName, if_true, List.append_nil, ne_eq, not_true_eq_false, if_false, hN,
    Bool.not_true, Bool.false_eq_true]
  unfold readValueF
  rw [scanValueF_plain v hv]
  simp

theorem readHeader_unterminated (data A N v : Bytes) (n : Nat) (hn : n ≤ 1)
    (hdata : data = A ++ (N ++ 58 :: 32 :: v)) (hN : isValidName N = true) (hv : Clean v) :
    readHeader data A.length n = .ok ⟨toLower N, v, false, data.length, 0⟩ := by
  have hdrop : data.drop A.length = N ++ 58 :: 32 :: v := by
    rw [hdata, List.drop_left]
  rw [readHeader_free data A.length n (by rw [hdata]; simp), hdrop,
    readHeaderF_unterminated N v n hn hN hv]
  simp [Outcome.map, FreeRead.toHeaderRead]

/-- Claim C23. A final header line that no line break ends is silently dropped. Let `doc`
be empty or a well-formed manifest (written with LF, CR LF or CR line breaks, each block
ended by its blank line), `N` a valid name and `v` a value free of CR, LF and NUL. `parse`
succeeds on the text of `doc` and on that text followed by `N ++ ": " ++ v`, with the same
`main`, the same `entries` and the same `chunks`: the header `N` is stored nowhere, and no
error is reported. -/
theorem parse_drops_unterminated_header (nl : LineBreak) (wc : Bool) (doc : List (List Header))
    (N v : Bytes) (hdoc : doc = [] ∨ WellFormed wc doc) (hN : isValidName N = true)
    (hv : Clean v) :
    ∃ s s', parse (docText nl doc) wc = .ok s ∧
      parse (docText nl doc ++ (N ++ ascii ": " ++ v)) wc = .ok s' ∧
      s'.man.main = s.man.main ∧ s'.man.entries = s.man.entries ∧
      s'.man.chunks = s.man.chunks ∧
      s'.pos = (docText nl doc ++ (N ++ ascii ": " ++ v)).length := by
  have htext : N ++ ascii ": " ++ v = N ++ 58 :: 32 :: v := by simp [ascii]
  rw [htext]
  rcases hdoc with rfl | hwf
  · have hread : readHeader (N ++ 58 :: 32 :: v) 0 0 =
        .ok ⟨toLower N, v, false, (N ++ 58 :: 32 :: v).length, 0⟩ :=
      readHeader_unterminated (N ++ 58 :: 32 :: v) [] N v 0 (by omega) rfl hN hv
    refine ⟨_, ⟨(N ++ 58 :: 32 :: v).length, 0, ⟨N ++ 58 :: 32 :: v, [], [], [],
      (N ++ 58 :: 32 :: v).length⟩⟩, parse_no_colon [] wc (by simp), ?_, rfl, rfl, rfl, rfl⟩
    simp only [docText, List.map_nil, List.flatten_nil, List.nil_append]
    unfold parse
    rw [mainLoop]
    simp only [initialState]
    rw [hread]
    simp only [Bool.not_false, if_true]
    rw [entryLoop_atEnd _ _ _ _ _ rfl (by simp)]
  · cases doc with
    | nil => exact absurd hwf.1 (by simp [WFDoc])
    | cons main bs =>
      obtain ⟨⟨hne, hmain, hbs⟩, hnd⟩ := hwf
      obtain ⟨c, r, hc, hvalid⟩ := isValidName_cons N hN
      obtain ⟨h0, h10, h13, h32⟩ := isValidNameByte_stops c hvalid
      have hstops : Stops 2 (N ++ 58 :: 32 :: v) := by
        rw [hc]
        exact ⟨h0, h10, h13, fun h => absurd h h32⟩
      obtain ⟨fuel, _, hparse⟩ := parse_upto nl (docText nl (main :: bs) ++ (N ++ 58 :: 32 :: v))
        (N ++ 58 :: 32 :: v) wc main bs rfl hne hmain hbs hstops hnd
      have hread := readHeader_unterminated (docText nl (main :: bs) ++ (N ++ 58 :: 32 :: v))
        (docText nl (main :: bs)) N v 0 (by omega) rfl hN hv
      have hres : parse (docText nl (main :: bs) ++ (N ++ 58 :: 32 :: v)) wc =
          .ok ⟨(docText nl (main :: bs) ++ (N ++ 58 :: 32 :: v)).length, 0,
            (stateAfter nl (docText nl (main :: bs) ++ (N ++ 58 :: 32 :: v)) wc main bs).man⟩ := by
        rw [hparse, entryLoop]
        simp only [stateAfter]
        rw [hread]
        simp only [Bool.not_false, if_true]
      exact ⟨_, _, parse_doc nl wc main bs hne hmain hbs hnd, hres, rfl, rfl, rfl, rfl⟩

theorem parse_drops_unterminated_header_witness :
    ∃ s s', parse (docText .lf [[⟨ascii "M", [ascii "1"]⟩]]) true = .ok s ∧
      parse (docText .lf [[⟨ascii "M", [ascii "1"]⟩]] ++ (ascii "Name" ++ ascii ": " ++ ascii "x"))
        true = .ok s' ∧
      s'.man.main = s.man.main ∧ s'.man.entries = s.man.entries ∧
      s'.man.chunks = s.man.chunks ∧
      s'.pos =
        (docText .lf [[⟨ascii "M", [ascii "1"]⟩]] ++ (ascii "Name" ++ ascii ": " ++ ascii "x")).length :=
  parse_drops_unterminated_header .lf true [[⟨ascii "M", [ascii "1"]⟩]] (ascii "Name")
    (ascii "x") (Or.inr (by decide)) (by decide) (by decide)

theorem parse_unterminated_examples :
    parse (ascii "Manifest-Version: 1.0") true =
      .ok ⟨21, 0, ⟨ascii "Manifest-Version: 1.0", [], [], [], 21⟩⟩ ∧
    parse (ascii "M: 1\n\nName: x") true =
      .ok ⟨13, 0, ⟨ascii "M: 1\n\nName: x", [(ascii "m", ascii "1")], [], [], 6⟩⟩ := by
  decide

/-! ## Entry blocks with the same name, without chunk capture -/

theorem mapGet_ensureEntry_same (E : List (Bytes × List (Bytes × Bytes))) (name : Bytes) :
    mapGet (ensureEntry E name) name = some ((mapGet E name).getD []) := by
  unfold ensureEntry
  cases h : mapGet E name with
  | none => simp only [Option.getD_none]; exact mapGet_mapSet_same E name []
  | some em => simp only [Option.getD_some]; exact h

theorem mapGet_ensureEntry_ne (E : List (Bytes × List (Bytes × Bytes))) (name k : Bytes)
    (hk : name ≠ k) : mapGet (ensureEntry E name) k = mapGet E k := by
  unfold ensureEntry
  cases h : mapGet E name with
  | none => exact mapGet_mapSet_ne E name k [] hk
  | some em => rfl

theorem mapGet_foldl_entrySet_same (name : Bytes) (attrs : List Header)
    (E : List (Bytes × List (Bytes × Bytes))) (em : List (Bytes × Bytes))
    (h : mapGet E name = some em) :
    mapGet (attrs.foldl (fun E h => entrySet E name (toLower h.name) h.value) E) name =
      some (attrs.foldl (fun m h => mapSet m (toLower h.name) h.value) em) := by
  induction attrs generalizing E em with
  | nil => exact h
  | cons a attrs ih =>
    simp only [List.foldl_cons]
    apply ih
    simp only [entrySet, h, Option.getD_some]
    exact mapGet_mapSet_same _ _ _

theorem mapGet_foldl_entrySet_ne (name k : Bytes) (hk : name ≠ k) (attrs : List Header)
    (E : List (Bytes × List (Bytes × Bytes))) :
    mapGet (attrs.foldl (fun E h => entrySet E name (toLower h.name) h.value) E) k =
      mapGet E k := by
  induction attrs generalizing E with
  | nil => rfl
  | cons a attrs ih =>
    simp only [List.foldl_cons]
    rw [ih]
    exact mapGet_mapSet_ne _ _ _ _ hk

theorem mapKeys_foldl_entrySet (name : Bytes) (attrs : List Header)
    (E : List (Bytes × List (Bytes × Bytes))) (h : name ∈ mapKeys E) :
    mapKeys (attrs.foldl (fun E h => entrySet E name (toLower h.name) h.value) E) =
      mapKeys E := by
  induction attrs generalizing E with
  | nil => rfl
  | cons a attrs ih =>
    simp only [List.foldl_cons]
    have hk : mapKeys (entrySet E name (toLower a.name) a.value) = mapKeys E :=
      mapKeys_mapSet_mem _ _ _ h
    rw [ih _ (by rw [hk]; exact h), hk]

theorem mapGet_storeEntry_same (E : List (Bytes × List (Bytes × Bytes))) (name : Bytes)
    (attrs : List Header) :
    mapGet (storeEntry E name attrs) name =
      some (attrs.foldl (fun m h => mapSet m (toLower h.name) h.value)
        ((mapGet E name).getD [])) :=
  mapGet_foldl_entrySet_same name attrs _ _ (mapGet_ensureEntry_same E name)

theorem mapGet_storeEntry_ne (E : List (Bytes × List (Bytes × Bytes))) (name k : Bytes)
    (attrs : List Header) (hk : name ≠ k) :
    mapGet (storeEntry E name attrs) k = mapGet E k := by
  unfold storeEntry
  rw [mapGet_foldl_entrySet_ne name k hk, mapGet_ensureEntry_ne E name k hk]

theorem nodup_mapKeys_storeEntry (E : List (Bytes × List (Bytes × Bytes))) (name : Bytes)
    (attrs : List Header) (h : (mapKeys E).Nodup) :
    (mapKeys (storeEntry E name attrs)).Nodup := by
  obtain ⟨hmem, hsame, hnew⟩ := mapKeys_ensureEntry E name
  unfold storeEntry
  rw [mapKeys_foldl_entrySet name attrs _ hmem]
  by_cases hk : name ∈ mapKeys E
  · rw [hsame hk]; exact h
  · rw [hnew hk]
    exact List.nodup_append.mpr ⟨h, List.nodup_singleton _, by
      intro a ha hb
      simp only [List.mem_singleton] at hb
      exact hk (hb ▸ ha)⟩

theorem nodup_mapKeys_entriesAfter (bs : List (List Header))
    (E : List (Bytes × List (Bytes × Bytes))) (h : (mapKeys E).Nodup) :
    (mapKeys (entriesAfter E bs)).Nodup := by
  induction bs generalizing E with
  | nil => exact h
  | cons b bs ih =>
    simp only [entriesAfter, List.foldl_cons]
    exact ih _ (nodup_mapKeys_storeEntry E _ _ h)

theorem mapGet_entriesAfter_ne (bs : List (List Header))
    (E : List (Bytes × List (Bytes × Bytes))) (k : Bytes)
    (h : ∀ b ∈ bs, blockName b ≠ k) : mapGet (entriesAfter E bs) k = mapGet E k := by
  induction bs generalizing E with
  | nil => rfl
  | cons b bs ih =>
    simp only [entriesAfter, List.foldl_cons]
    have := ih (storeEntry E (blockName b) b.tail) (fun b' hb' => h b' (List.mem_cons_of_mem _ hb'))
    simp only [entriesAfter] at this
    rw [this, mapGet_storeEntry_ne E _ k _ (h b (List.mem_cons_self _ _))]

theorem entriesAfter_append (E : List (Bytes × List (Bytes × Bytes)))
    (xs ys : List (List Header)) :
    entriesAfter E (xs ++ ys) = entriesAfter (entriesAfter E xs) ys := by
  simp [entriesAfter, List.foldl_append]

theorem entriesAfter_cons (E : List (Bytes × List (Bytes × Bytes))) (b : List Header)
    (bs : List (List Header)) :
    entriesAfter E (b :: bs) = entriesAfter (storeEntry E (blockName b) b.tail) bs := rfl

theorem mapGet_foldl_mapSet (hs : List Header) (m : List (Bytes × Bytes)) (k : Bytes) :
    mapGet (hs.foldl (fun m h => mapSet m (toLower h.name) h.value) m) k =
      (mapGet (attrsMap hs) k).orElse (fun _ => mapGet m k) := by
  induction hs generalizing m with
  | nil => simp [attrsMap, mapGet]
  | cons h hs ih =>
    simp only [attrsMap, List.foldl_cons]
    rw [ih (mapSet m (toLower h.name) h.value), ih (mapSet [] (toLower h.name) h.value)]
    cases hg : mapGet (attrsMap hs) k with
    | some x => simp
    | none =>
      change mapGet (mapSet m (toLower h.name) h.value) k =
        (mapGet (mapSet [] (toLower h.name) h.value) k).orElse (fun _ => mapGet m k)
      by_cases hk : toLower h.name = k
      · subst hk
        rw [mapGet_mapSet_same, mapGet_mapSet_same]
        rfl
      · rw [mapGet_mapSet_ne _ _ _ _ hk, mapGet_mapSet_ne _ _ _ _ hk]
        rfl

theorem attrsMap_append (xs ys : List Header) :
    attrsMap (xs ++ ys) =
      ys.foldl (fun m h => mapSet m (toLower h.name) h.value) (attrsMap xs) := by
  simp [attrsMap, List.foldl_append]

theorem mapGet_entriesAfter_two (pre mid post : List (List Header)) (b1 b2 : List Header)
    (hname : blockName b2 = blockName b1)
    (hothers : ∀ b ∈ pre ++ mid ++ post, blockName b ≠ blockName b1) :
    mapGet (entriesAfter [] (pre ++ b1 :: (mid ++ b2 :: post))) (blockName b1) =
      some (attrsMap (b1.tail ++ b2.tail)) := by
  have hpre : ∀ b ∈ pre, blockName b ≠ blockName b1 :=
    fun b hb => hothers b (by simp [hb])
  have hmid : ∀ b ∈ mid, blockName b ≠ blockName b1 :=
    fun b hb => hothers b (by simp [hb])
  have hpost : ∀ b ∈ post, blockName b ≠ blockName b1 :=
    fun b hb => hothers b (by simp [hb])
  rw [entriesAfter_append, entriesAfter_cons, entriesAfter_append, entriesAfter_cons,
    mapGet_entriesAfter_ne post _ _ hpost, hname, mapGet_storeEntry_same,
    mapGet_entriesAfter_ne mid _ _ hmid, mapGet_storeEntry_same,
    mapGet_entriesAfter_ne pre _ _ hpre, attrsMap_append]
  rfl

/-- Entry blocks with the same name in a manifest written with one line break throughout.
With chunk capture disabled, entry blocks with the same name are merged.
Take a manifest that is well-formed but for its entry names (LF, CR LF or CR line breaks):
among its entry blocks are `b1` and, later, `b2` with the same `Name` value, and no other
block has that name. `parse` with `withChunks = false` succeeds; the keys of `entries` are
pairwise distinct and the name is among them (a single key for that name); and the
attribute map stored under it is the map the attributes of `b1` followed by those of `b2`
leave, that is the union of the two blocks' attributes in which the value of `b2` wins for
a name present in both. -/
theorem parse_merges_duplicate_entries (nl : LineBreak) (main : List Header)
    (pre mid post : List (List Header)) (b1 b2 : List Header)
    (hwf : WFDoc (main :: (pre ++ b1 :: (mid ++ b2 :: post))))
    (hname : blockName b2 = blockName b1)
    (hothers : ∀ b ∈ pre ++ mid ++ post, blockName b ≠ blockName b1) :
    ∃ s em, parse (docText nl (main :: (pre ++ b1 :: (mid ++ b2 :: post)))) false = .ok s ∧
      (mapKeys s.man.entries).Nodup ∧ blockName b1 ∈ mapKeys s.man.entries ∧
      mapGet s.man.entries (blockName b1) = some em ∧
      em = attrsMap (b1.tail ++ b2.tail) ∧
      ∀ k, mapGet em k =
        (mapGet (attrsMap b2.tail) k).orElse (fun _ => mapGet (attrsMap b1.tail) k) := by
  obtain ⟨hne, hmain, hbs⟩ := hwf
  have hparse := parse_doc nl false main (pre ++ b1 :: (mid ++ b2 :: post)) hne hmain hbs
    (fun h => absurd h (by simp))
  have hget := mapGet_entriesAfter_two pre mid post b1 b2 hname hothers
  refine ⟨_, attrsMap (b1.tail ++ b2.tail), hparse,
    nodup_mapKeys_entriesAfter _ [] (by simp [mapKeys]),
    mem_mapKeys_of_mapGet _ _ _ hget, hget, rfl, ?_⟩
  · intro k
    rw [attrsMap_append, mapGet_foldl_mapSet]

theorem parse_merges_duplicate_entries_witness :
    ∃ s em, parse (docText .lf ([⟨ascii "M", [ascii "1"]⟩] :: ([] ++
        [⟨ascii "Name", [ascii "a"]⟩, ⟨ascii "X", [ascii "1"]⟩, ⟨ascii "Y", [ascii "2"]⟩] ::
        ([] ++ [⟨ascii "Name", [ascii "a"]⟩, ⟨ascii "Y", [ascii "3"]⟩, ⟨ascii "Z", [ascii "4"]⟩]
          :: [])))) false = .ok s ∧
      (mapKeys s.man.entries).Nodup ∧
      blockName [⟨ascii "Name", [ascii "a"]⟩, ⟨ascii "X", [ascii "1"]⟩,
        ⟨ascii "Y", [ascii "2"]⟩] ∈ mapKeys s.man.entries ∧
      mapGet s.man.entries
        (blockName [⟨ascii "Name", [ascii "a"]⟩, ⟨ascii "X", [ascii "1"]⟩,
          ⟨ascii "Y", [ascii "2"]⟩]) = some em ∧
      em = attrsMap
        (([⟨ascii "Name", [ascii "a"]⟩, ⟨ascii "X", [ascii "1"]⟩, ⟨ascii "Y", [ascii "2"]⟩] :
            List Header).tail ++
          ([⟨ascii "Name", [ascii "a"]⟩, ⟨ascii "Y", [ascii "3"]⟩, ⟨ascii "Z", [ascii "4"]⟩] :
            List Header).tail) ∧
      ∀ k, mapGet em k =
        (mapGet (attrsMap ([⟨ascii "Name", [ascii "a"]⟩, ⟨ascii "Y", [ascii "3"]⟩,
          ⟨ascii "Z", [ascii "4"]⟩] : List Header).tail) k).orElse
          (fun _ => mapGet (attrsMap ([⟨ascii "Name", [ascii "a"]⟩, ⟨ascii "X", [ascii "1"]⟩,
            ⟨ascii "Y", [ascii "2"]⟩] : List Header).tail) k) :=
  parse_merges_duplicate_entries .lf [⟨ascii "M", [ascii "1"]⟩] [] [] []
    [⟨ascii "Name", [ascii "a"]⟩, ⟨ascii "X", [ascii "1"]⟩, ⟨ascii "Y", [ascii "2"]⟩]
    [⟨ascii "Name", [ascii "a"]⟩, ⟨ascii "Y", [ascii "3"]⟩, ⟨ascii "Z", [ascii "4"]⟩]
    (by decide) (by decide) (by simp)

theorem parse_merges_example :
    parse (ascii "M: 1\n\nName: a\nX: 1\nY: 2\n\nName: a\nY: 3\nZ: 4\n\n") false =
      .ok ⟨44, 0, ⟨ascii "M: 1\n\nName: a\nX: 1\nY: 2\n\nName: a\nY: 3\nZ: 4\n\n",
        [(ascii "m", ascii "1")],
        [(ascii "a", [(ascii "x", ascii "1"), (ascii "y", ascii "3"), (ascii "z", ascii "4")])],
        [], 6⟩⟩ ∧
    parse (ascii "M: 1\n\nName: a\nX: 1\nY: 2\n\nName: a\nY: 3\nZ: 4\n\n") true =
      .error .duplicateEntryName := by
  decide

/-! ## An unterminated header line behind a line of the last block -/

theorem stops_unterminated (n : Nat) (N v : Bytes) (hN : isValidName N = true) :
    Stops n (N ++ 58 :: 32 :: v) := by
  obtain ⟨c, r, hc, hvalid⟩ := isValidName_cons N hN
  obtain ⟨h0, h10, h13, h32⟩ := isValidNameByte_stops c hvalid
  rw [hc]
  exact ⟨h0, h10, h13, fun h => absurd h h32⟩

theorem headerLoop_lines_unterminated (nl : LineBreak) (data : Bytes)
    (upd : manifest → Bytes → Bytes → manifest) (hs : List Header) (A N v : Bytes)
    (s : ParseState) (fuel : Nat) (hdata : data = A ++ linesOf nl hs ++ (N ++ 58 :: 32 :: v))
    (hwf : ∀ h ∈ hs, h.WF) (hN : isValidName N = true) (hv : Clean v)
    (hpos : s.pos = A.length) (hn : s.consecutiveLineBreaks ≤ 1)
    (hfuel : hs.length + 1 ≤ fuel) :
    headerLoop data upd fuel s = .ok ⟨data.length, 0, storeAll upd s.man hs⟩ := by
  obtain ⟨f, rfl⟩ : ∃ f, fuel = hs.length + (f + 1) := ⟨fuel - (hs.length + 1), by omega⟩
  rw [headerLoop_lines nl data upd hs A (N ++ 58 :: 32 :: v) s (f + 1) hdata hwf
    (stops_unterminated 1 N v hN) hpos hn]
  have hread := readHeader_unterminated data (A ++ linesOf nl hs) N v
    (if hs = [] then s.consecutiveLineBreaks else 1) (by split <;> omega) hdata hN hv
  rw [headerLoop]
  simp only [← List.length_append, hread, Bool.not_false, if_true]

theorem entryLoop_lastBlock_unterminated (nl : LineBreak) (data A N v : Bytes) (wc : Bool)
    (nh : Header) (attrs : List Header) (fuel mark : Nat) (s : ParseState)
    (hdata : data = A ++ linesOf nl (nh :: attrs) ++ (N ++ 58 :: 32 :: v))
    (hnh : nh.WF) (hname : toLower nh.name = attrName) (hwf : ∀ h ∈ attrs, h.WF)
    (hN : isValidName N = true) (hv : Clean v)
    (hpos : s.pos = A.length) (hn : s.consecutiveLineBreaks ≤ 1)
    (hwc : wc = true → mark = A.length ∧ mapGet s.man.chunks nh.value = none) :
    entryLoop data wc (fuel + 2) mark s =
      .ok ⟨data.length, 0,
        { s.man with
            entries := storeEntry s.man.entries nh.value attrs,
            chunks := if wc then
                mapSet s.man.chunks nh.value (linesOf nl (nh :: attrs) ++ (N ++ 58 :: 32 :: v))
              else s.man.chunks }⟩ := by
  have hdata1 : data = A ++ nh.text nl ++
      (lineBreaks nl 1 ++ (linesOf nl attrs ++ (N ++ 58 :: 32 :: v))) := by
    rw [hdata]; simp [linesOf, Header.line]
  have hread := readHeader_text nl data A (linesOf nl attrs ++ (N ++ 58 :: 32 :: v)) nh 1
    s.consecutiveLineBreaks hnh hdata1 (le_refl _)
    (stops_linesOf nl 1 attrs hwf _ (stops_unterminated 1 N v hN)) hn
  have hdata2 : data = (A ++ nh.line nl) ++ linesOf nl attrs ++ (N ++ 58 :: 32 :: v) := by
    rw [hdata]; simp [linesOf]
  have hfuel : attrs.length + 1 ≤ data.length + 1 := by
    have := length_le_linesOf nl attrs
    rw [hdata2]
    simp only [List.length_append]
    omega
  have hattr : ∀ man, attrLoop data nh.value (data.length + 1)
      ⟨A.length + (nh.text nl).length + (lineBreaks nl 1).length, 1, man⟩ =
        .ok ⟨data.length, 0, storeAll (updEntry nh.value) man attrs⟩ := by
    intro man
    rw [attrLoop_eq]
    exact headerLoop_lines_unterminated nl data _ attrs (A ++ nh.line nl) N v _ _ hdata2 hwf
      hN hv (by simp [Header.line]; omega) (le_refl _) hfuel
  rw [entryLoop, hpos, hread]
  simp only [Bool.not_true, Bool.false_eq_true, if_false, hname, ne_eq, not_true_eq_false,
    hattr, storeAll_updEntry]
  cases wc with
  | false =>
    simp only [Bool.false_eq_true, if_false]
    rw [entryLoop_atEnd _ _ _ _ _ rfl (by simp)]
    rfl
  | true =>
    obtain ⟨hmark, hfresh⟩ := hwc rfl
    have hslice : slice data mark data.length =
        some (linesOf nl (nh :: attrs) ++ (N ++ 58 :: 32 :: v)) := by
      have := slice_mid A (linesOf nl (nh :: attrs) ++ (N ++ 58 :: 32 :: v)) []
      simp only [List.append_nil] at this
      rw [hmark, hdata]
      simpa using this
    simp only [if_true, hfresh, hslice]
    rw [entryLoop_atEnd _ _ _ _ _ rfl (by simp)]
    rfl

/-- An unterminated header line is dropped also behind a manifest that ends with a single
line break: for a well-formed manifest without its final line break, followed by
`N ++ ": " ++ v`, `parse` succeeds with the `main` and the `entries` of the manifest. -/
theorem parse_unterminated_after_line (nl : LineBreak) (wc : Bool) (main : List Header)
    (bs : List (List Header)) (N v : Bytes) (hwf : WellFormed wc (main :: bs))
    (hN : isValidName N = true) (hv : Clean v) :
    ∃ s', parse (dropFinalBreak nl (docText nl (main :: bs)) ++ (N ++ ascii ": " ++ v)) wc
        = .ok s' ∧
      s'.man.main = attrsMap main ∧ s'.man.entries = entriesAfter [] bs ∧
      s'.pos = (dropFinalBreak nl (docText nl (main :: bs)) ++ (N ++ ascii ": " ++ v)).length := by
  have htext : N ++ ascii ": " ++ v = N ++ 58 :: 32 :: v := by simp [ascii]
  rw [htext]
  obtain ⟨⟨hne, hmain, hbs⟩, hnd⟩ := hwf
  have hcases : bs = [] ∨ ∃ bs0 b, bs = bs0 ++ [b] := by
    by_cases hb : bs = []
    · exact Or.inl hb
    · exact Or.inr (exists_concat_of_ne_nil bs hb)
  rcases hcases with rfl | ⟨bs0, b, rfl⟩
  · have hdata : dropFinalBreak nl (docText nl [main]) = linesOf nl main := by
      have := docText_concat nl [] main
      simpa [docText] using this
    rw [hdata]
    generalize hd : linesOf nl main ++ (N ++ 58 :: 32 :: v) = data
    have hlen : main.length + 1 ≤ data.length + 1 := by
      have := length_le_linesOf nl main
      rw [← hd]
      simp only [List.length_append]
      omega
    have hloop := headerLoop_lines_unterminated nl data updMain main [] N v
      (initialState data) (data.length + 1) (by rw [← hd]; simp) hmain hN hv rfl
      (by simp [initialState]) hlen
    refine ⟨⟨data.length, 0, ⟨data, attrsMap main, [], [], data.length⟩⟩, ?_, rfl, rfl, rfl⟩
    unfold parse
    rw [mainLoop_eq, hloop]
    simp only
    rw [entryLoop_atEnd _ _ _ _ _ rfl (by simp)]
    simp [storeAll_updMain, initialState, attrsMap]
  · cases b with
    | nil => exact absurd (hbs [] (by simp)) (by simp [EntryWF])
    | cons nh attrs =>
    obtain ⟨hnh, hname, hattrs⟩ := hbs (nh :: attrs) (by simp)
    have hbs0 : ∀ b ∈ bs0, EntryWF b := fun b hb => hbs b (List.mem_append_left _ hb)
    have hnd0 : wc = true →
        (bs0.map blockName).Nodup ∧ blockName (nh :: attrs) ∉ bs0.map blockName := by
      intro h
      have := hnd h
      simp only [List.tail_cons, List.map_append, List.map_cons, List.map_nil] at this
      have h2 := List.nodup_append.mp this
      exact ⟨h2.1, fun hmem => h2.2.2 hmem (by simp)⟩
    have hdata : dropFinalBreak nl (docText nl (main :: (bs0 ++ [nh :: attrs]))) =
        docText nl (main :: bs0) ++ linesOf nl (nh :: attrs) := by
      have := docText_concat nl (main :: bs0) (nh :: attrs)
      simpa using this
    rw [hdata]
    generalize hd : docText nl (main :: bs0) ++ linesOf nl (nh :: attrs) ++
      (N ++ 58 :: 32 :: v) = data
    have hd' : data = docText nl (main :: bs0) ++
        (linesOf nl (nh :: attrs) ++ (N ++ 58 :: 32 :: v)) := by
      rw [← hd]; simp
    have hstops : Stops 2 (linesOf nl (nh :: attrs) ++ (N ++ 58 :: 32 :: v)) := by
      have : linesOf nl (nh :: attrs) ++ (N ++ 58 :: 32 :: v) =
          nh.line nl ++ (linesOf nl attrs ++ (N ++ 58 :: 32 :: v)) := by simp [linesOf]
      rw [this]
      exact stops_line nl 2 nh hnh _
    obtain ⟨fuel, hfuel, hparse⟩ := parse_upto nl data _ wc main bs0 hd' hne
      hmain hbs0 hstops (fun h => (hnd0 h).1)
    have hlen := length_le_docText nl (main :: bs0)
    have hlines : 1 ≤ (linesOf nl (nh :: attrs)).length := by
      have := length_le_linesOf nl (nh :: attrs)
      simp only [List.length_cons] at this
      omega
    obtain ⟨f, rfl⟩ : ∃ f, fuel = f + 1 := ⟨fuel - 1, by
      rw [← hd] at hfuel
      simp only [List.length_append, List.length_cons] at hfuel hlen
      omega⟩
    have hlast := entryLoop_lastBlock_unterminated nl data (docText nl (main :: bs0)) N v wc nh
      attrs f
      (if wc then (docText nl (main :: bs0)).length else (blockText nl main).length)
      (stateAfter nl data wc main bs0) hd.symm hnh
      hname hattrs hN hv rfl (by simp [stateAfter]) (by
        intro h
        subst h
        refine ⟨rfl, ?_⟩
        simp only [stateAfter, if_true]
        rw [chunksAfter_nodup nl bs0 [] (by simpa [mapKeys] using (hnd0 rfl).1),
          mapGet_eq_none_iff]
        simpa [mapKeys, Function.comp_def, blockName] using (hnd0 rfl).2)
    rw [hparse, hlast]
    refine ⟨_, rfl, rfl, ?_, rfl⟩
    simp [stateAfter, entriesAfter, List.foldl_append, blockName]

theorem parse_unterminated_after_line_example :
    parse (ascii "M: 1\nName: x") true =
      .ok ⟨12, 0, ⟨ascii "M: 1\nName: x", [(ascii "m", ascii "1")], [], [], 12⟩⟩ := by
  decide

/-! ## A stale `lastCr` in a manifest that mixes CR and LF -/

/-- Claim C6, at the buffer `"M: 1\r 2\n\nName: a\n\nName: a\n\n"` with
`withChunks = true`: a main block with a folded value whose first line ends with CR, and
two entry blocks named `a`. `parse` succeeds where the claim says it returns
`More than one entry with the same name!`: the line feed behind `" 2"` is not counted
(`lastCr` is still set by the CR), so the blank line counts as one line break, the first
`Name: a` is stored in `main`, and only the second block becomes an entry. With LF
throughout the same manifest gives the error. -/
theorem parse_duplicate_missed_after_cr :
    parse (ascii "M: 1\r 2\n\nName: a\n\nName: a\n\n") true =
      .ok ⟨27, 0, ⟨ascii "M: 1\r 2\n\nName: a\n\nName: a\n\n",
        [(ascii "m", ascii "12"), (ascii "name", ascii "a")], [(ascii "a", [])],
        [(ascii "a", ascii "Name: a\n\n")], 18⟩⟩ ∧
    parse (ascii "M: 1\n 2\n\nName: a\n\nName: a\n\n") true = .error .duplicateEntryName := by
  decide

/-- Claim C8, at the buffer `"M: 1\r 2\n\nFoo: bar\n\n"`: a main block with a folded value
whose first line ends with CR, a blank line, and a block whose first header is `Foo: bar`.
`parse` succeeds where the claim says it returns `Entry is not named`: the line feed behind
`" 2"` is not counted (`lastCr` is still set by the CR), so the blank line counts as one
line break, `Foo: bar` is read by the first loop and stored in `main`, and the test of the
first header of a block is never reached. With LF throughout the same manifest gives the
error. -/
theorem parse_unnamed_entry_missed_after_cr :
    parse (ascii "M: 1\r 2\n\nFoo: bar\n\n") true =
      .ok ⟨19, 0, ⟨ascii "M: 1\r 2\n\nFoo: bar\n\n",
        [(ascii "m", ascii "12"), (ascii "foo", ascii "bar")], [], [], 19⟩⟩ ∧
    parse (ascii "M: 1\n 2\n\nFoo: bar\n\n") true = .error .entryNotNamed := by
  decide

/-- Claim C9, at the buffer `"A: x\r y\nbad name: z\n"`: the manifest `"A: x\r y\nB: z\n"`
with the name `B` replaced by `bad name`, which has a space and fails `isValidName`.
`parse` succeeds where the claim says it returns an error: the line feed behind `" y"` is
not counted (`lastCr` is still set by the CR), so the value loop runs on through the next
line, the value of `a` becomes `"xy\nbad name: z"`, and `isValidName` never sees the
name. With LF throughout the same manifest gives the invalid-name error. -/
theorem parse_invalid_name_missed_after_cr :
    isValidName (ascii "bad name") = false ∧
    parse (ascii "A: x\r y\nbad name: z\n") true =
      .ok ⟨20, 0, ⟨ascii "A: x\r y\nbad name: z\n",
        [(ascii "a", ascii "xy\nbad name: z")], [], [], 20⟩⟩ ∧
    parse (ascii "A: x\n y\nbad name: z\n") true =
      .error (.invalidAttributeName (ascii "bad name")) := by
  decide

/-- Claim C15, at the buffer `"M: 1\r 2\n\nName: a\n\n"`: a main block with a folded value
whose first line ends with CR, a blank line, and the entry block `Name: a`. `parse`
succeeds with `mainAttributtesEnd = 18`, the end of the buffer, and with `name = a` stored
in `main`; the claim says 9, the offset of `Name`, and `main = {m: 12}`. The line feed
behind `" 2"` is not counted (`lastCr` is still set by the CR), so the blank line counts as
one line break and does not end the main block. With LF throughout the same manifest gives
what the claim says. -/
theorem parse_blank_line_missed_after_cr :
    parse (ascii "M: 1\r 2\n\nName: a\n\n") true =
      .ok ⟨18, 0, ⟨ascii "M: 1\r 2\n\nName: a\n\n",
        [(ascii "m", ascii "12"), (ascii "name", ascii "a")], [], [], 18⟩⟩ ∧
    parse (ascii "M: 1\n 2\n\nName: a\n\n") true =
      .ok ⟨18, 0, ⟨ascii "M: 1\n 2\n\nName: a\n\n", [(ascii "m", ascii "12")],
        [(ascii "a", [])], [(ascii "a", ascii "Name: a\n\n")], 9⟩⟩ := by
  decide

/-- Claim C16, at the buffer `"A: x\r y\n\n"`: one header with a folded value whose first
line ends with CR, and a blank line. `parse` gives `main = {a: xy}` on it, and an empty
`main` on the buffer without its final line feed, where the claim says `main` is the same.
The line feed behind `" y"` is not counted (`lastCr` is still set by the CR); it is the only
line break left in the shortened buffer, so `readHeader` returns `singleBlock = false` and
the header is dropped. With LF throughout the shortened buffer gives `main = {a: xy}`. -/
theorem parse_final_break_needed_after_cr :
    parse (ascii "A: x\r y\n\n") true =
      .ok ⟨9, 0, ⟨ascii "A: x\r y\n\n", [(ascii "a", ascii "xy")], [], [], 9⟩⟩ ∧
    parse (ascii "A: x\r y\n") true = .ok ⟨8, 0, ⟨ascii "A: x\r y\n", [], [], [], 8⟩⟩ ∧
    parse (ascii "A: x\n y\n") true =
      .ok ⟨8, 0, ⟨ascii "A: x\n y\n", [(ascii "a", ascii "xy")], [], [], 8⟩⟩ := by
  decide

/-- Claim C22, at the buffer `"M: 1\n\nName: ab\nX: 1\n\nName: a\r b\nY: 2\n\n"` with
`withChunks = false`: two entry blocks with the name `ab`, the second written folded with
a CR behind `a`. `parse` succeeds with two keys, `ab` with the attribute `x` and
`"ab\nY: 2"` without attributes, where the claim says a single key `ab` with `x` and `y`.
The line feed behind `" b"` is not counted (`lastCr` is still set by the CR), so the value
loop runs on through the line `Y: 2`. With LF throughout the two blocks are merged. -/
theorem parse_merge_missed_after_cr :
    parse (ascii "M: 1\n\nName: ab\nX: 1\n\nName: a\r b\nY: 2\n\n") false =
      .ok ⟨38, 0, ⟨ascii "M: 1\n\nName: ab\nX: 1\n\nName: a\r b\nY: 2\n\n",
        [(ascii "m", ascii "1")],
        [(ascii "ab", [(ascii "x", ascii "1")]), (ascii "ab\nY: 2", [])], [], 6⟩⟩ ∧
    parse (ascii "M: 1\n\nName: ab\nX: 1\n\nName: a\n b\nY: 2\n\n") false =
      .ok ⟨38, 0, ⟨ascii "M: 1\n\nName: ab\nX: 1\n\nName: a\n b\nY: 2\n\n",
        [(ascii "m", ascii "1")],
        [(ascii "ab", [(ascii "x", ascii "1"), (ascii "y", ascii "2")])], [], 6⟩⟩ := by
  decide

end Manifest

namespace Sflag

/-- Whatever `strconv.Atoi` is: when it accepts the string (`err == nil`), `Int` returns
the default, not the value. -/
theorem int_of_accepted_string (atoi : Bytes → ℤ × Option NumError) (s : Bytes) (val : ℤ)
    (defVal : List ℤ) (h : atoi s = (val, none)) :
    ValueGetter.Int atoi ⟨.str s, false⟩ defVal =
      match defVal with
      | [d] => d
      | _ => 0 := by
  simp [ValueGetter.Int, h]

/-- Claim C19, at the value `"42"`. `strconv.Atoi` accepts the string, the test
`err != nil` fails, and `Int` returns the default (0, or the default passed) where the
claim says 42; a malformed string gives the 0 that `Atoi` returns with its error. -/
theorem int_returns_default_for_valid_string :
    Atoi (Manifest.ascii "42") = (42, none) ∧
    ValueGetter.Int Atoi ⟨.str (Manifest.ascii "42"), false⟩ [] = 0 ∧
    ValueGetter.Int Atoi ⟨.str (Manifest.ascii "42"), false⟩ [7] = 7 ∧
    ValueGetter.Int Atoi ⟨.str (Manifest.ascii "4x"), false⟩ [7] = 0 := by
  decide

end Sflag

namespace Gcli

/-! ## `strictFormatArgs` rewrites the arguments one by one -/

theorem indexFrom_ge (sub s : Bytes) (i : Nat) :
    indexFrom sub s i = -1 ∨ (i : Int) ≤ indexFrom sub s i := by
  induction s generalizing i with
  | nil =>
    unfold indexFrom
    split
    · exact Or.inr (le_refl _)
    · exact Or.inl rfl
  | cons c s ih =>
    unfold indexFrom
    split
    · exact Or.inr (le_refl _)
    · rcases ih (i + 1) with h | h
      · exact Or.inl h
      · right
        have : (i : Int) ≤ ((i + 1 : Nat) : Int) := by omega
        exact le_trans this h

theorem index_eq_zero (s sub : Bytes) : Index s sub = 0 ↔ startsWith sub s = true := by
  unfold Index
  cases s with
  | nil =>
    cases sub with
    | nil => simp [indexFrom, startsWith]
    | cons a sub => simp [indexFrom, startsWith]
  | cons c s =>
    unfold indexFrom
    by_cases h : startsWith sub (c :: s) = true
    · simp [h]
    · simp only [h, Bool.false_eq_true, if_false, iff_false]
      rcases indexFrom_ge sub s (0 + 1) with h1 | h1
      · rw [h1]; decide
      · intro h0
        rw [h0] at h1
        omega

theorem startsWith_two (arg : Bytes) :
    startsWith [45, 45] arg = true ↔ arg.take 2 = [45, 45] := by
  match arg with
  | [] => simp [startsWith]
  | [a] => simp [startsWith]
  | a :: b :: rest =>
    simp only [startsWith, Bool.and_true, Bool.and_eq_true, beq_iff_eq, List.take_succ_cons,
      List.take_zero, List.cons.injEq, and_true]
    constructor
    · rintro ⟨h1, h2⟩; exact ⟨h1.symm, h2.symm⟩
    · rintro ⟨h1, h2⟩; exact ⟨h1.symm, h2.symm⟩

theorem startsWith_one (arg : Bytes) :
    startsWith [45] arg = true ↔ arg.head? = some 45 := by
  match arg with
  | [] => simp [startsWith]
  | a :: rest =>
    simp only [startsWith, Bool.and_true, beq_iff_eq, List.head?_cons, Option.some.injEq]
    exact eq_comm

theorem foldl_append_dash (cs : List Bytes) (acc : List Bytes) :
    cs.foldl (fun fmtd s => fmtd ++ [45 :: s]) acc = acc ++ cs.map (fun c => 45 :: c) := by
  induction cs generalizing acc with
  | nil => simp
  | cons c cs ih => simp [ih]

theorem formatLoop_eq (explode : Bytes → List Bytes) (args acc : List Bytes) :
    formatLoop explode args acc = acc ++ (args.map (rewriteArg explode)).flatten := by
  induction args generalizing acc with
  | nil => simp [formatLoop]
  | cons arg rest ih =>
    have h2 : Index arg [45, 45] = 0 ↔ arg.take 2 = [45, 45] := by
      rw [index_eq_zero]; exact startsWith_two arg
    have h1 : Index arg [45] = 0 ↔ arg.head? = some 45 := by
      rw [index_eq_zero]; exact startsWith_one arg
    have hdash : Manifest.ascii "-" = [45] := rfl
    have hdd : Manifest.ascii "--" = [45, 45] := rfl
    rw [formatLoop]
    simp only [List.map_cons, List.flatten_cons, hdash, hdd]
    by_cases hp2 : arg.take 2 = [45, 45]
    · rw [if_pos (h2.mpr hp2)]
      by_cases hl : arg.length = 3
      · rw [if_pos hl, ih]
        simp [rewriteArg, hl, hp2]
      · rw [if_neg hl, ih]
        simp [rewriteArg, hl, hp2]
    · rw [if_neg (fun h => hp2 (h2.mp h))]
      by_cases hp1 : arg.head? = some 45
      · rw [if_pos (h1.mpr hp1)]
        by_cases hl : arg.length > 2
        · rw [if_pos hl, ih, foldl_append_dash]
          simp [rewriteArg, hl, hp2, hp1]
        · rw [if_neg hl, ih]
          simp [rewriteArg, hl, hp2, hp1]
      · rw [if_neg (fun h => hp1 (h1.mp h)), ih]
        simp [rewriteArg, hp2, hp1]

/-- Claim C25. `strictFormatArgs` rewrites the argument list element by element and keeps
the order: the result is the concatenation of the rewritings of the arguments, where an
argument of exactly three bytes starting with `"--"` becomes `"-"` and the character of
its third byte (`"--o"` becomes `"-o"`), an argument that starts with a single `'-'` and is
longer than two bytes becomes one argument `"-c"` per character `c` of the argument with
its leading and trailing `'-'` trimmed (`"-ab"` becomes `"-a"`, `"-b"`), and every other
argument is kept; the empty list is returned unchanged. The characters of a string are
what `strings.Split(s, "")` returns (`explode`); for ASCII arguments a character is a
byte, as in the list evaluated at the end. -/
theorem strictFormatArgs_rewrites (explode : Bytes → List Bytes) (args : List Bytes) :
    strictFormatArgs explode args = (args.map (rewriteArg explode)).flatten ∧
    strictFormatArgs explode [] = [] ∧
    (∀ c, c < 128 → strictFormatArgs explode [[45, 45, c]] = [[45, c]]) ∧
    strictFormatArgs explodeAscii
        [Manifest.ascii "--o", Manifest.ascii "-ab", Manifest.ascii "build",
          Manifest.ascii "--long", Manifest.ascii "-a", Manifest.ascii "-", Manifest.ascii "",
          Manifest.ascii "-a-b-", Manifest.ascii "--"] =
      [Manifest.ascii "-o", Manifest.ascii "-a", Manifest.ascii "-b", Manifest.ascii "build",
        Manifest.ascii "--long", Manifest.ascii "-a", Manifest.ascii "-", Manifest.ascii "",
        Manifest.ascii "-a", Manifest.ascii "--", Manifest.ascii "-b", Manifest.ascii "--"] := by
  have hmain : ∀ as : List Bytes,
      strictFormatArgs explode as = (as.map (rewriteArg explode)).flatten := by
    intro as
    unfold strictFormatArgs
    split
    · next h =>
      have : as = [] := List.eq_nil_of_length_eq_zero h
      subst this
      rfl
    · rw [formatLoop_eq]
      rfl
  refine ⟨hmain args, rfl, ?_, by decide⟩
  intro c hc
  rw [hmain]
  simp [rewriteArg, byteString, hc]

end Gcli
